import Mathlib

/-!
# BTreeMap: a map backed by a 2-3-4 B-tree (btreemap.h)

A shallow embedding of the member functions of `BTreeMap<K, V>`.

* A `Node` holds the two sequences of the C++ struct: `keyvals` and `children`.  Child pointers
  stored in a node are never null, so `children` is a list of nodes; the only nullable pointer
  of the class, `root`, is an `Option`.
* The keys are any linearly ordered type: `<`, `==` and `>` of the C++ key type.
* Every `while` loop and every recursive call consumes one unit of `fuel`; a run that needs more
  iterations than `fuel` ends in `Outcome.stuck`.
* In-place mutation through a pointer is explicit state passing: a function that mutates the
  node it is given returns the node as it is afterwards.
* `ArraySeq` (arrayseq.h) is a list; an indexed read, insert or erase outside the bounds of the
  sequence ends the call in `Outcome.fault`.  An index `m - 1` is computed in `Nat`: for
  `m = 0` it is `0` instead of `-1`, and either is outside the empty sequence.
* `rebalance` assigns a key to a variable of the value type (`p_val = st_root->key(key_idx)`);
  the conversion from `K` to `V` this needs is the parameter `toV` of the erase functions.
* `clear()` deletes the nodes and does not assign `root`: the pointer keeps the address of the
  deleted root node.  The model keeps that node, emptied, as the target of `root`; `dangling`
  recognises it.
* The test `this != &rhs` of the assignment operators compares addresses; its outcome is the
  parameter `same` of `copy_assign`.

The file has three parts: the member functions, the data model with its invariants, and the
properties proved of the member functions.
-/

/-- How a call of a member function ends.  `ok a`: it returns `a`.  `raised s`: a
`throw std::out_of_range` written in btreemap.h is reached, `s` being the object the call was
mutating, as it is at that moment.  `fault`: a sequence is indexed outside its bounds (or a null
pointer or a pointer to a deleted node is dereferenced).  `stuck`: the loops need more
iterations than the fuel given. -/
inductive Outcome (σ α : Type) where
  | ok (a : α)
  | raised (s : σ)
  | fault
  | stuck

/-- The outcome with `f` applied to the value a call returns. -/
def Outcome.map {σ α β : Type} (f : α → β) : Outcome σ α → Outcome σ β
  | .ok a => .ok (f a)
  | .raised s => .raised s
  | .fault => .fault
  | .stuck => .stuck

namespace ArraySeq

variable {α : Type}

/-- Modelled from the spec: `ArraySeq<T>` of arrayseq.h, the ordered dynamic sequence behind
`keyvals` and `children`, is a list; `operator[]` is the indexed read, `none` when the index
is not a position of the sequence. -/
def get (xs : List α) (i : Nat) : Option α :=
  xs[i]?

/-- Modelled from the spec: `ArraySeq::insert(elem, index)`, insert-at-position; the valid
positions are `0 .. size` (`size` appends), any other index is `none`. -/
def insert (xs : List α) (x : α) (i : Nat) : Option (List α) :=
  if i ≤ xs.length then some (xs.take i ++ x :: xs.drop i) else none

/-- Modelled from the spec: `ArraySeq::erase(index)`, erase-at-position; `none` when the
index is not a position of the sequence. -/
def erase (xs : List α) (i : Nat) : Option (List α) :=
  if i < xs.length then some (xs.eraseIdx i) else none

end ArraySeq

namespace BTreeMap

/-- The `struct Node` of btreemap.h: `keyvals` and `children`. -/
inductive Node (K V : Type) where
  | mk (keyvals : List (K × V)) (children : List (Node K V))

namespace Node

variable {K V : Type}

/-- Field `keyvals`. -/
def keyvals : Node K V → List (K × V)
  | mk kvs _ => kvs

/-- Field `children`. -/
def children : Node K V → List (Node K V)
  | mk _ cs => cs

/-- Source: `bool full() const { return keyvals.size() == 3; }` -/
def full (n : Node K V) : Bool :=
  n.keyvals.length == 3

/-- Source: `bool leaf() const { return children.empty(); }` -/
def leaf (n : Node K V) : Bool :=
  n.children.isEmpty

/-- Source: `K key(int i) const { return keyvals[i].first; }` -/
def key (n : Node K V) (i : Nat) : Option K :=
  (ArraySeq.get n.keyvals i).map Prod.fst

/-- Source: `V &val(int i) { return keyvals[i].second; }` -/
def val (n : Node K V) (i : Nat) : Option V :=
  (ArraySeq.get n.keyvals i).map Prod.snd

/-- Source: `Node *child(int i) const { return children[i]; }` -/
def child (n : Node K V) (i : Nat) : Option (Node K V) :=
  ArraySeq.get n.children i

/-- The node after an assignment through the pointer `child(i)`: child `i` is replaced by the
state `c` the callee left it in. -/
def setChild (n : Node K V) (i : Nat) (c : Node K V) : Node K V :=
  mk n.keyvals (n.children.set i c)

end Node

end BTreeMap

/-- The data members of `BTreeMap<K, V>`: `count` and `root`. -/
structure BTreeMap (K V : Type) where
  count : Int
  root : Option (BTreeMap.Node K V)

namespace BTreeMap

variable {K V : Type} [LinearOrder K]

/-- The default constructor: `count = 0`, `root = nullptr`. -/
def new : BTreeMap K V :=
  ⟨0, none⟩

/-- Source: `int size() const` -/
def size (t : BTreeMap K V) : Int :=
  t.count

/-- Source: `bool empty() const`: whether `root == nullptr`. -/
def empty (t : BTreeMap K V) : Bool :=
  t.root.isNone

/-! ## contains -/

/-- What the `for` loop of a search leaves behind: a `return`, or the value of `searchNext`. -/
inductive Scan (K V : Type) (α : Type) where
  | ret (a : α)
  | next (searchNext : Option (Node K V))
  | fault

/-- The `for` loop of `contains` from position `i` on (`kvs` are the entries `i ..`);
`searchNext` is `nullptr` when the loop is entered and is written only right before a `break`. -/
def contains_for (key : K) (traverse : Node K V) : List (K × V) → Nat → Scan K V Bool
  | [], _ => .next none
  | (k, _) :: kvs, i =>
    if key < k then
      if traverse.leaf then .ret false
      else
        match traverse.child i with
        | none => .fault
        | some c => .next (some c)
    else if key = k then .ret true
    else contains_for key traverse kvs (i + 1)

/-- The `while (traverse != nullptr)` loop of `contains`. -/
def contains_loop (key : K) : Nat → Option (Node K V) → Outcome Unit Bool
  | _, none => .ok false
  | 0, some _ => .stuck
  | fuel + 1, some traverse =>
    match contains_for key traverse traverse.keyvals 0 with
    | .ret b => .ok b
    | .fault => .fault
    | .next searchNext =>
      match traverse.key (traverse.keyvals.length - 1) with
      | none => .fault
      | some last =>
        if key > last then
          if traverse.leaf then .ok false
          else
            match traverse.child traverse.keyvals.length with
            | none => .fault
            | some c => contains_loop key fuel (some c)
        else contains_loop key fuel searchNext

/-- Source: `bool contains(const K &key) const` -/
def contains (fuel : Nat) (t : BTreeMap K V) (key : K) : Outcome Unit Bool :=
  contains_loop key fuel t.root

/-! ## operator[] -/

/-- The `for` loop of `operator[]`.  Unlike in `contains`, `searchNext` is declared outside
the `while` loop, so it enters the `for` loop with the value of the previous iteration; in a
leaf the loop writes `nullptr` and goes on, in an internal node it writes the child and
breaks. -/
def index_for (key : K) (traverse : Node K V) :
    List (K × V) → Nat → Option (Node K V) → Scan K V V
  | [], _, searchNext => .next searchNext
  | (k, v) :: kvs, i, searchNext =>
    if key < k then
      if traverse.leaf then index_for key traverse kvs (i + 1) none
      else
        match traverse.child i with
        | none => .fault
        | some c => .next (some c)
    else if key = k then .ret v
    else index_for key traverse kvs (i + 1) searchNext

/-- The `while (traverse != nullptr)` loop of `operator[]`, followed by the `throw`. -/
def index_loop (key : K) : Nat → Option (Node K V) → Option (Node K V) → Outcome Unit V
  | _, none, _ => .raised ()
  | 0, some _, _ => .stuck
  | fuel + 1, some traverse, searchNext =>
    match index_for key traverse traverse.keyvals 0 searchNext with
    | .ret v => .ok v
    | .fault => .fault
    | .next searchNext =>
      match traverse.key (traverse.keyvals.length - 1) with
      | none => .fault
      | some last =>
        if key > last then
          if traverse.leaf then index_loop key fuel none none
          else
            match traverse.child traverse.keyvals.length with
            | none => .fault
            | some c => index_loop key fuel (some c) (some c)
        else index_loop key fuel searchNext searchNext

/-- Source: `V &operator[](const K &key)` and `const V &operator[](const K &key) const` (the two
bodies are the same text); the reference is read at once. -/
def operator_index (fuel : Nat) (t : BTreeMap K V) (key : K) : Outcome Unit V :=
  index_loop key fuel t.root none

/-! ## sorted_keys -/

/-- The `for` loop of the internal branch of the `sorted_keys` helper from position `i` on,
and the visit of `child(keyvals.size())` after it; `visit` is the recursive call. -/
def sorted_keys_for (visit : Node K V → List K → Outcome Unit (List K)) (st_root : Node K V) :
    List (K × V) → Nat → List K → Outcome Unit (List K)
  | [], i, keys =>
    match st_root.child i with
    | none => .fault
    | some c => visit c keys
  | (k, _) :: kvs, i, keys =>
    match st_root.child i with
    | none => .fault
    | some c =>
      match visit c keys with
      | .ok keys => sorted_keys_for visit st_root kvs (i + 1) (keys ++ [k])
      | r => r

/-- The helper `void sorted_keys(const Node *st_root, ArraySeq<K> &keys) const` on a node
that is not null; `keys.insert(key, keys.size())` appends. -/
def sorted_keys_node : Nat → Node K V → List K → Outcome Unit (List K)
  | 0, _, _ => .stuck
  | fuel + 1, st_root, keys =>
    if !st_root.leaf then
      sorted_keys_for (sorted_keys_node fuel) st_root st_root.keyvals 0 keys
    else .ok (keys ++ st_root.keyvals.map Prod.fst)

/-- Source: `ArraySeq<K> sorted_keys() const` -/
def sorted_keys (fuel : Nat) (t : BTreeMap K V) : Outcome Unit (List K) :=
  match t.root with
  | none => .ok []
  | some r => sorted_keys_node fuel r []

/-! ## next_key -/

/-- The `for` loop of `next_key` from position `i` on: the values of `hold` and `searchNext`
after it, `none` when a child that is read does not exist.  `nextExists` and `hold` are always
written together, so the pair is one `Option`: `some k` stands for `nextExists == 1` and
`hold == k`. -/
def next_key_for (key : K) (traverse : Node K V) :
    List (K × V) → Nat → Option K → Option (Node K V) → Option (Option K × Option (Node K V))
  | [], _, hold, searchNext => some (hold, searchNext)
  | (k, _) :: kvs, i, hold, searchNext =>
    if key < k then
      if traverse.leaf then some (some k, none)
      else
        match traverse.child i with
        | none => none
        | some c => some (some k, some c)
    else if key = k then
      if traverse.leaf then next_key_for key traverse kvs (i + 1) hold none
      else
        match traverse.child (i + 1) with
        | none => none
        | some c => next_key_for key traverse kvs (i + 1) hold (some c)
    else next_key_for key traverse kvs (i + 1) hold searchNext

/-- The `while (traverse != nullptr)` loop of `next_key`: the value of `hold` (with
`nextExists`) after it. -/
def next_key_loop (key : K) : Nat → Option (Node K V) → Option K → Outcome Unit (Option K)
  | _, none, hold => .ok hold
  | 0, some _, _ => .stuck
  | fuel + 1, some traverse, hold =>
    match next_key_for key traverse traverse.keyvals 0 hold none with
    | none => .fault
    | some (hold, searchNext) =>
      match traverse.key (traverse.keyvals.length - 1) with
      | none => .fault
      | some last =>
        if key > last then
          if traverse.leaf then next_key_loop key fuel searchNext hold
          else if traverse.children.length = traverse.keyvals.length + 1 then
            match traverse.child traverse.keyvals.length with
            | none => .fault
            | some c => next_key_loop key fuel (some c) hold
          else next_key_loop key fuel searchNext hold
        else next_key_loop key fuel searchNext hold

/-- Source: `bool next_key(const K &key, K &next_key) const`: the returned flag and the value of the
output parameter after the call, `out` being its value before. -/
def next_key (fuel : Nat) (t : BTreeMap K V) (key : K) (out : K) : Outcome Unit (Bool × K) :=
  if t.empty then .ok (false, out)
  else
    match next_key_loop key fuel t.root none with
    | .ok (some hold) => .ok (true, hold)
    | .ok none => .ok (false, out)
    | .raised s => .raised s
    | .fault => .fault
    | .stuck => .stuck

/-! ## insert -/

/-- Source: `void split(Node *parent, int i)`: the parent after the call (its child `i`, which is
mutated too, included). -/
def split (parent : Node K V) (i : Nat) : Option (Node K V) :=
  match parent.child i with
  | none => none
  | some split =>
    match ArraySeq.get split.keyvals 1, ArraySeq.get split.keyvals 2 with
    | some second, some third =>
      let moved : Option (List (Node K V) × List (Node K V)) :=
        if !split.leaf then
          match split.child 2, split.child 3 with
          | some c2, some c3 =>
            match ArraySeq.erase split.children 3 with
            | none => none
            | some cs =>
              match ArraySeq.erase cs 2 with
              | none => none
              | some cs => some ([c2, c3], cs)
          | _, _ => none
        else some ([], split.children)
      match moved with
      | none => none
      | some (rightChildren, splitChildren) =>
        let right : Node K V := .mk [third] rightChildren
        match ArraySeq.insert parent.children right (i + 1) with
        | none => none
        | some pcs =>
          match ArraySeq.insert parent.keyvals second i with
          | none => none
          | some pkvs =>
            match ArraySeq.erase split.keyvals 2 with
            | none => none
            | some skvs =>
              match ArraySeq.erase skvs 1 with
              | none => none
              | some skvs => some (.mk pkvs (pcs.set i (.mk skvs splitChildren)))
    | _, _ => none

/-- Where the `for` loop of `insert` leaves `curr`: untouched (it still equals `prev`),
`nullptr`, or the child of `prev` at the position `index`. -/
inductive Cursor (K V : Type) where
  | same
  | null
  | child (c : Node K V)

/-- The `for` loop of `insert` from position `j` on: the values of `index` and `curr` after
it. -/
def insert_for (key : K) (prev : Node K V) :
    List (K × V) → Nat → Int × Cursor K V → Option (Int × Cursor K V)
  | [], _, st => some st
  | (k, _) :: kvs, j, st =>
    if key < k then
      if prev.leaf then some ((j : Int), .null)
      else
        match prev.child j with
        | none => none
        | some c => some ((j : Int), .child c)
    else if key > k then
      if prev.leaf then insert_for key prev kvs (j + 1) ((j : Int) + 1, .null)
      else
        match prev.child (j + 1) with
        | none => none
        | some c => insert_for key prev kvs (j + 1) ((j : Int) + 1, .child c)
    else insert_for key prev kvs (j + 1) st

/-- The `while (curr != nullptr)` loop of `insert` from the statement `prev = curr;` of an
iteration on, with `curr` pointing to `node`, and the `prev->keyvals.insert(p, index)` that
follows the loop: the node `curr` points to, as it is when `insert` returns. -/
def insert_loop (key : K) (value : V) : Nat → Node K V → Int → Outcome Unit (Node K V)
  | 0, _, _ => .stuck
  | fuel + 1, prev, index =>
    match insert_for key prev prev.keyvals 0 (index, .same) with
    | none => .fault
    | some (index, .null) =>
      if index < 0 then .fault
      else
        match ArraySeq.insert prev.keyvals (key, value) index.toNat with
        | none => .fault
        | some kvs => .ok (.mk kvs prev.children)
    | some (index, .child curr) =>
      if curr.full then
        if index < 0 then .fault
        else
          match split prev index.toNat with
          | none => .fault
          | some prev => insert_loop key value fuel prev index
      else
        match insert_loop key value fuel curr index with
        | .ok curr => .ok (prev.setChild index.toNat curr)
        | r => r
    | some (index, .same) =>
      if prev.full then
        if index < 0 then .fault
        else
          match split prev index.toNat with
          | none => .fault
          | some prev => insert_loop key value fuel prev index
      else insert_loop key value fuel prev index

/-- Source: `void insert(const K &key, const V &value)`.  A full root is first made the only
child of a new root and split.  The loop then starts with `curr = root` and `prev = nullptr`;
were that root full, the first iteration would call `split(nullptr, -1)`, a fault. -/
def insert (fuel : Nat) (t : BTreeMap K V) (key : K) (value : V) :
    Outcome Unit (BTreeMap K V) :=
  match t.root with
  | none => .ok ⟨t.count + 1, some (.mk [(key, value)] [])⟩
  | some root =>
    let grown : Option (Node K V) :=
      if root.full then split (.mk [] [root]) 0 else some root
    match grown with
    | none => .fault
    | some root =>
      if root.full then .fault
      else
        match insert_loop key value fuel root (-1) with
        | .ok root => .ok ⟨t.count + 1, some root⟩
        | .raised s => .raised s
        | .fault => .fault
        | .stuck => .stuck

/-! ## erase -/

namespace Node

omit [LinearOrder K]

/-- Source: `keyvals.insert(p, i)` on a node. -/
def insertKeyval (p : K × V) (i : Nat) (n : Node K V) : Option (Node K V) :=
  (ArraySeq.insert n.keyvals p i).map fun kvs => mk kvs n.children

/-- Source: `keyvals.erase(i)` on a node. -/
def eraseKeyval (i : Nat) (n : Node K V) : Option (Node K V) :=
  (ArraySeq.erase n.keyvals i).map fun kvs => mk kvs n.children

/-- Source: `children.insert(c, i)` on a node. -/
def insertChild (c : Node K V) (i : Nat) (n : Node K V) : Option (Node K V) :=
  (ArraySeq.insert n.children c i).map fun cs => mk n.keyvals cs

/-- Source: `children.erase(i)` on a node. -/
def eraseChild (i : Nat) (n : Node K V) : Option (Node K V) :=
  (ArraySeq.erase n.children i).map fun cs => mk n.keyvals cs

/-- A statement `st_root->child(i)-> ...` that mutates child `i`. -/
def modifyChild (i : Nat) (f : Node K V → Option (Node K V)) (n : Node K V) :
    Option (Node K V) :=
  match n.child i with
  | none => none
  | some c => (f c).map fun c => n.setChild i c

end Node

/-- The part of `rebalance` for `child_idx == m` (far right child): `st_root` has already
lost the entry `p`. -/
def rebalance_right (st_root : Node K V) (p : K × V) (key_idx m : Nat) :
    Option (Node K V × Nat) :=
  match st_root.child (m - 1) with
  | none => none
  | some left =>
    if left.keyvals.length > 1 then
      let n := left.keyvals.length - 1
      match ArraySeq.get left.keyvals n with
      | none => none
      | some ne =>
        match st_root.modifyChild (m - 1) (Node.eraseKeyval n) with
        | none => none
        | some st_root =>
          match st_root.insertKeyval ne key_idx with
          | none => none
          | some st_root =>
            match st_root.modifyChild m (Node.insertKeyval p 1) with
            | none => none
            | some st_root =>
              match st_root.child (m - 1) with
              | none => none
              | some left =>
                if !left.leaf then
                  match left.child 2 with
                  | none => none
                  | some c =>
                    match st_root.modifyChild m (Node.insertChild c 2) with
                    | none => none
                    | some st_root =>
                      match st_root.modifyChild (m - 1) (Node.eraseChild 2) with
                      | none => none
                      | some st_root => some (st_root, m)
                else some (st_root, m)
    else
      match st_root.modifyChild m (Node.insertKeyval p 0) with
      | none => none
      | some st_root =>
        match ArraySeq.get left.keyvals 0 with
        | none => none
        | some ne =>
          match st_root.modifyChild m (Node.insertKeyval ne 0) with
          | none => none
          | some st_root =>
            let copied : Option (Node K V) :=
              if !left.leaf then
                match left.child 0 with
                | none => none
                | some c0 =>
                  match st_root.modifyChild m (Node.insertChild c0 0) with
                  | none => none
                  | some st_root =>
                    match left.child 1 with
                    | none => none
                    | some c1 => st_root.modifyChild m (Node.insertChild c1 1)
              else some st_root
            match copied with
            | none => none
            | some st_root =>
              match st_root.child (m - 1) with
              | none => none
              | some _ =>
                match st_root.eraseChild (m - 1) with
                | none => none
                | some st_root => some (st_root, m - 1)

/-- The part of `rebalance` for `child_idx == 0` (far left child). -/
def rebalance_left (st_root : Node K V) (p : K × V) (key_idx : Nat) :
    Option (Node K V × Nat) :=
  match st_root.child 1 with
  | none => none
  | some right =>
    match ArraySeq.get right.keyvals 0 with
    | none => none
    | some n =>
      if right.keyvals.length > 1 then
        match st_root.modifyChild 1 (Node.eraseKeyval 0) with
        | none => none
        | some st_root =>
          match st_root.insertKeyval n key_idx with
          | none => none
          | some st_root =>
            match st_root.modifyChild 0 (Node.insertKeyval p 1) with
            | none => none
            | some st_root =>
              match st_root.child 1 with
              | none => none
              | some right =>
                if !right.leaf then
                  match right.child 0 with
                  | none => none
                  | some c =>
                    match st_root.modifyChild 0 (Node.insertChild c 2) with
                    | none => none
                    | some st_root =>
                      match st_root.modifyChild 1 (Node.eraseChild 0) with
                      | none => none
                      | some st_root => some (st_root, 0)
                else some (st_root, 0)
      else
        match st_root.modifyChild 0 (Node.insertKeyval p 1) with
        | none => none
        | some st_root =>
          match st_root.modifyChild 0 (Node.insertKeyval n 2) with
          | none => none
          | some st_root =>
            let copied : Option (Node K V) :=
              if !right.leaf then
                match right.child 0 with
                | none => none
                | some c0 =>
                  match st_root.modifyChild 0 (Node.insertChild c0 2) with
                  | none => none
                  | some st_root =>
                    match right.child 1 with
                    | none => none
                    | some c1 => st_root.modifyChild 0 (Node.insertChild c1 3)
              else some st_root
            match copied with
            | none => none
            | some st_root =>
              match st_root.eraseChild 1 with
              | none => none
              | some st_root => some (st_root, 0)

/-- The part of `rebalance` for a middle child (two neighbours). -/
def rebalance_middle (st_root : Node K V) (p : K × V) (key_idx child_idx m : Nat) :
    Option (Node K V × Nat) :=
  match st_root.child (child_idx + 1), st_root.child (child_idx - 1) with
  | some right, some left =>
    if right.keyvals.length > 1 then
      match ArraySeq.get right.keyvals 0 with
      | none => none
      | some n =>
        match st_root.modifyChild (child_idx + 1) (Node.eraseKeyval 0) with
        | none => none
        | some st_root =>
          match st_root.insertKeyval n key_idx with
          | none => none
          | some st_root =>
            match st_root.modifyChild 0 (Node.insertKeyval p 1) with
            | none => none
            | some st_root => some (st_root, child_idx)
    else if left.keyvals.length > 1 then
      let n := left.keyvals.length - 1
      match ArraySeq.get left.keyvals n with
      | none => none
      | some ne =>
        match st_root.modifyChild (child_idx - 1) (Node.eraseKeyval n) with
        | none => none
        | some st_root =>
          match st_root.insertKeyval ne key_idx with
          | none => none
          | some st_root =>
            match st_root.modifyChild m (Node.insertKeyval p 1) with
            | none => none
            | some st_root => some (st_root, child_idx)
    else
      match st_root.modifyChild key_idx (Node.insertKeyval p 1) with
      | none => none
      | some st_root =>
        match st_root.child (key_idx + 1) with
        | none => none
        | some next =>
          match ArraySeq.get next.keyvals 0 with
          | none => none
          | some ne =>
            match st_root.modifyChild (key_idx + 1) (Node.eraseKeyval 0) with
            | none => none
            | some st_root =>
              match st_root.modifyChild key_idx (Node.insertKeyval ne 2) with
              | none => none
              | some st_root =>
                match st_root.child (key_idx + 1) with
                | none => none
                | some next =>
                  let copied : Option (Node K V) :=
                    if !next.leaf then
                      match next.child 0 with
                      | none => none
                      | some c0 =>
                        match st_root.modifyChild key_idx (Node.insertChild c0 2) with
                        | none => none
                        | some st_root =>
                          match next.child 1 with
                          | none => none
                          | some c1 => st_root.modifyChild key_idx (Node.insertChild c1 3)
                    else some st_root
                  match copied with
                  | none => none
                  | some st_root =>
                    match st_root.eraseChild (key_idx + 1) with
                    | none => none
                    | some st_root => some (st_root, child_idx)
  | _, _ => none

/-- Source: `void rebalance(Node *st_root, int key_idx, int &child_idx)`: the node and the value of
`child_idx` after the call.  `toV` is the conversion from `K` to `V` that the assignment
`p_val = st_root->key(key_idx)` applies. -/
def rebalance (toV : K → V) (st_root : Node K V) (key_idx child_idx : Nat) :
    Option (Node K V × Nat) :=
  let m := st_root.keyvals.length
  match st_root.key key_idx with
  | none => none
  | some p_key =>
    let p : K × V := (p_key, toV p_key)
    match st_root.eraseKeyval key_idx with
    | none => none
    | some st_root =>
      if child_idx = m then rebalance_right st_root p key_idx m
      else if child_idx = 0 then rebalance_left st_root p key_idx
      else rebalance_middle st_root p key_idx child_idx m

/-- The `while (traverse)` loop of case 2a of `remove_internal`: the leaf reached by going down
the last children. -/
def last_leaf : Nat → Node K V → Outcome Unit (Node K V)
  | 0, _ => .stuck
  | fuel + 1, traverse =>
    if traverse.leaf then .ok traverse
    else
      match traverse.child traverse.keyvals.length with
      | none => .fault
      | some c => last_leaf fuel c

/-- The `while (traverse)` loop of case 2b of `remove_internal`: the leaf reached by going down
the first children. -/
def first_leaf : Nat → Node K V → Outcome Unit (Node K V)
  | 0, _ => .stuck
  | fuel + 1, traverse =>
    if traverse.leaf then .ok traverse
    else
      match traverse.child 0 with
      | none => .fault
      | some c => first_leaf fuel c

/-- The call `erase(st_root->child(i), key)` made from inside `st_root`: what it does to the
child is what it does to child `i` of `st_root`. -/
def erase_child (erase : Node K V → K → Outcome (Node K V) (Node K V)) (st_root : Node K V)
    (i : Nat) (key : K) : Outcome (Node K V) (Node K V) :=
  match st_root.child i with
  | none => .fault
  | some c =>
    match erase c key with
    | .ok c => .ok (st_root.setChild i c)
    | .raised c => .raised (st_root.setChild i c)
    | .fault => .fault
    | .stuck => .stuck

/-- Case 2c of `remove_internal` up to the recursive call: the entry `key_idx` of `st_root`
and the right child are merged into the left child. -/
def merge_internal (st_root : Node K V) (key_idx : Nat) : Option (Node K V) :=
  match ArraySeq.get st_root.keyvals key_idx with
  | none => none
  | some p =>
    match st_root.modifyChild key_idx (Node.insertKeyval p 1) with
    | none => none
    | some st_root =>
      match st_root.eraseKeyval key_idx with
      | none => none
      | some st_root =>
        match st_root.child (key_idx + 1) with
        | none => none
        | some right =>
          match ArraySeq.get right.keyvals 0 with
          | none => none
          | some p1 =>
            match st_root.modifyChild key_idx (Node.insertKeyval p1 2) with
            | none => none
            | some st_root =>
              match st_root.child key_idx with
              | none => none
              | some left =>
                let copied : Option (Node K V) :=
                  if !left.leaf then
                    match right.child 0 with
                    | none => none
                    | some c0 =>
                      match st_root.modifyChild key_idx (Node.insertChild c0 2) with
                      | none => none
                      | some st_root =>
                        match right.child 1 with
                        | none => none
                        | some c1 => st_root.modifyChild key_idx (Node.insertChild c1 3)
                  else some st_root
                match copied with
                | none => none
                | some st_root => st_root.eraseChild (key_idx + 1)

/-- Source: `void remove_internal(Node *st_root, int key_idx)`; `erase` is the helper `erase` it
calls back, `fuel` bounds its own `while (traverse)` loops. -/
def remove_internal (erase : Node K V → K → Outcome (Node K V) (Node K V)) (fuel : Nat)
    (st_root : Node K V) (key_idx : Nat) : Outcome (Node K V) (Node K V) :=
  match st_root.child key_idx with
  | none => .fault
  | some left =>
    if left.keyvals.length > 1 then
      match last_leaf fuel left with
      | .ok traverse =>
        match ArraySeq.get traverse.keyvals (traverse.keyvals.length - 1) with
        | none => .fault
        | some p =>
          match st_root.eraseKeyval key_idx with
          | none => .fault
          | some st_root =>
            match st_root.insertKeyval p key_idx with
            | none => .fault
            | some st_root => erase_child erase st_root key_idx p.1
      | .raised _ => .fault
      | .fault => .fault
      | .stuck => .stuck
    else
      match st_root.child (key_idx + 1) with
      | none => .fault
      | some right =>
        if right.keyvals.length > 1 then
          match first_leaf fuel right with
          | .ok traverse =>
            match ArraySeq.get traverse.keyvals 0 with
            | none => .fault
            | some p =>
              match st_root.eraseKeyval key_idx with
              | none => .fault
              | some st_root =>
                match st_root.insertKeyval p key_idx with
                | none => .fault
                | some st_root => erase_child erase st_root (key_idx + 1) p.1
          | .raised _ => .fault
          | .fault => .fault
          | .stuck => .stuck
        else
          match st_root.key key_idx with
          | none => .fault
          | some this_key =>
            match merge_internal st_root key_idx with
            | none => .fault
            | some st_root => erase_child erase st_root key_idx this_key

/-- The `for` loop of the leaf branch of the helper `erase`: the first position `i` with
`key == st_root->key(i)`. -/
def erase_leaf_for (key : K) : List (K × V) → Nat → Option Nat
  | [], _ => none
  | (k, _) :: kvs, i => if key = k then some i else erase_leaf_for key kvs (i + 1)

/-- Where the `for` loop of the internal branch of the helper `erase` leaves: at the entry
`i` that equals the key (case 2), at the entry `i` the key is less than (case 3, left child),
or at its end. -/
inductive Descent where
  | found (i : Nat)
  | before (i : Nat)
  | done

/-- The `for` loop of the internal branch of the helper `erase`. -/
def erase_for (key : K) : List (K × V) → Nat → Descent
  | [], _ => .done
  | (k, _) :: kvs, i =>
    if key > k then erase_for key kvs (i + 1)
    else if key = k then .found i
    else if key < k then .before i
    else erase_for key kvs (i + 1)

/-- Case 3 of the helper `erase`: `rebalance(st_root, key_idx, child_idx)` when the child has
one entry, then the recursive call on the child at the (possibly updated) `child_idx`. -/
def erase_descend (toV : K → V) (erase : Node K V → K → Outcome (Node K V) (Node K V))
    (st_root : Node K V) (key_idx child_idx : Nat) (key : K) :
    Outcome (Node K V) (Node K V) :=
  match st_root.child child_idx with
  | none => .fault
  | some c =>
    if c.keyvals.length = 1 then
      match rebalance toV st_root key_idx child_idx with
      | none => .fault
      | some (st_root, child_idx) => erase_child erase st_root child_idx key
    else erase_child erase st_root child_idx key

/-- The helper `void erase(Node *st_root, const K &key)` on a node that is not null: the node
after the call.  When the `throw` of the leaf branch is reached the node is returned as it is
then, under `raised`. -/
def erase_node (toV : K → V) : Nat → Node K V → K → Outcome (Node K V) (Node K V)
  | 0, _, _ => .stuck
  | fuel + 1, st_root, key =>
    if st_root.leaf then
      match erase_leaf_for key st_root.keyvals 0 with
      | some i =>
        match st_root.eraseKeyval i with
        | none => .fault
        | some st_root => .ok st_root
      | none => .raised st_root
    else
      match erase_for key st_root.keyvals 0 with
      | .found i => remove_internal (erase_node toV fuel) fuel st_root i
      | .before i => erase_descend toV (erase_node toV fuel) st_root i i key
      | .done =>
        let m := st_root.keyvals.length
        match st_root.key (m - 1) with
        | none => .fault
        | some last =>
          if key > last then erase_descend toV (erase_node toV fuel) st_root (m - 1) m key
          else erase_node toV fuel st_root key

/-- Source: `void erase(const K &key)`.  The map under `raised` is the map as the exception leaves
it. -/
def erase (toV : K → V) (fuel : Nat) (t : BTreeMap K V) (key : K) :
    Outcome (BTreeMap K V) (BTreeMap K V) :=
  if t.empty then .raised t
  else
    match contains fuel t key with
    | .ok false => .raised t
    | .raised _ => .raised t
    | .fault => .fault
    | .stuck => .stuck
    | .ok true =>
      match t.root with
      | none => .fault
      | some root =>
        match erase_node toV fuel root key with
        | .ok root =>
          if root.keyvals.isEmpty then
            .ok ⟨t.count - 1, if root.children.length > 0 then root.child 0 else none⟩
          else .ok ⟨t.count - 1, some root⟩
        | .raised root => .raised ⟨t.count, some root⟩
        | .fault => .fault
        | .stuck => .stuck

/-! ## prev_key -/

/-- The `for` loop of `prev_key` from position `i` on, `m` being the number of entries of the
node: the values of `hold` (with `prevExists`, as in `next_key_for`) and `searchNext` after it,
`none` when a child that is read does not exist. -/
def prev_key_for (key : K) (traverse : Node K V) (m : Nat) :
    List (K × V) → Nat → Option K → Option (Node K V) → Option (Option K × Option (Node K V))
  | [], _, hold, searchNext => some (hold, searchNext)
  | (k, _) :: kvs, i, hold, searchNext =>
    if key < k then
      if traverse.leaf then some (hold, none)
      else
        match traverse.child i with
        | none => none
        | some c => some (hold, some c)
    else if key = k then
      if traverse.leaf then some (hold, none)
      else
        match traverse.child i with
        | none => none
        | some c => some (hold, some c)
    else if key > k then
      if i = m - 1 ∧ traverse.leaf = false then
        match traverse.child (i + 1) with
        | none => none
        | some c => prev_key_for key traverse m kvs (i + 1) (some k) (some c)
      else prev_key_for key traverse m kvs (i + 1) (some k) searchNext
    else prev_key_for key traverse m kvs (i + 1) hold searchNext

/-- The `while (traverse != nullptr)` loop of `prev_key`: the value of `hold` (with
`prevExists`) after it. -/
def prev_key_loop (key : K) : Nat → Option (Node K V) → Option K → Outcome Unit (Option K)
  | _, none, hold => .ok hold
  | 0, some _, _ => .stuck
  | fuel + 1, some traverse, hold =>
    match prev_key_for key traverse traverse.keyvals.length traverse.keyvals 0 hold none with
    | none => .fault
    | some (hold, searchNext) => prev_key_loop key fuel searchNext hold

/-- Source: `bool prev_key(const K &key, K &next_key) const`: the returned flag and the value
of the output parameter after the call, `out` being its value before. -/
def prev_key (fuel : Nat) (t : BTreeMap K V) (key : K) (out : K) : Outcome Unit (Bool × K) :=
  if t.empty then .ok (false, out)
  else
    match prev_key_loop key fuel t.root none with
    | .ok (some hold) => .ok (true, hold)
    | .ok none => .ok (false, out)
    | .raised s => .raised s
    | .fault => .fault
    | .stuck => .stuck

/-! ## find_keys -/

/-- The test `key >= k1 and key <= k2` of `find_keys`. -/
def in_range (k1 k2 key : K) : Bool :=
  decide (key ≥ k1) && decide (key ≤ k2)

/-- The `for` loop of the internal branch of the `find_keys` helper from position `i` on, and
the visit of `child(m)` after it; `visit` is the recursive call. -/
def find_keys_for (k1 k2 : K) (visit : Node K V → List K → Outcome Unit (List K))
    (st_root : Node K V) : List (K × V) → Nat → List K → Outcome Unit (List K)
  | [], i, keys =>
    match st_root.child i with
    | none => .fault
    | some c => visit c keys
  | (k, _) :: kvs, i, keys =>
    match st_root.child i with
    | none => .fault
    | some c =>
      match visit c keys with
      | .ok keys =>
        find_keys_for k1 k2 visit st_root kvs (i + 1)
          (if in_range k1 k2 k then keys ++ [k] else keys)
      | r => r

/-- The helper `void find_keys(const K &k1, const K &k2, const Node *st_root,
ArraySeq<K> &keys) const` on a node that is not null. -/
def find_keys_node (k1 k2 : K) : Nat → Node K V → List K → Outcome Unit (List K)
  | 0, _, _ => .stuck
  | fuel + 1, st_root, keys =>
    if !st_root.leaf then
      find_keys_for k1 k2 (find_keys_node k1 k2 fuel) st_root st_root.keyvals 0 keys
    else .ok (keys ++ (st_root.keyvals.map Prod.fst).filter (in_range k1 k2))

/-- Source: `ArraySeq<K> find_keys(const K &k1, const K &k2) const` -/
def find_keys (fuel : Nat) (t : BTreeMap K V) (k1 k2 : K) : Outcome Unit (List K) :=
  match t.root with
  | none => .ok []
  | some r => find_keys_node k1 k2 fuel r []

/-! ## height -/

/-- The helper `int height(const Node *st_root) const` on a node that is not null.  The `for`
loop ends with `return root_height;` inside its body, so only the iteration `i = 0` runs: a
leaf gives 1, an internal node one more than the larger of the heights of `child(0)` and
`child(1)`.  A node without entries leaves the function without a `return`: a fault. -/
def height_node : Nat → Node K V → Outcome Unit Int
  | 0, _ => .stuck
  | fuel + 1, st_root =>
    if st_root.keyvals.length = 0 then .fault
    else if st_root.leaf then .ok 1
    else
      match st_root.child 0 with
      | none => .fault
      | some c0 =>
        match height_node fuel c0 with
        | .ok l_chld_ht =>
          match st_root.child 1 with
          | none => .fault
          | some c1 =>
            match height_node fuel c1 with
            | .ok r_chld_ht =>
              if l_chld_ht > r_chld_ht then .ok (l_chld_ht + 1) else .ok (r_chld_ht + 1)
            | r => r
        | r => r

/-- Source: `int height() const` -/
def height (fuel : Nat) (t : BTreeMap K V) : Outcome Unit Int :=
  match t.root with
  | none => .ok 0
  | some r => height_node fuel r

/-! ## clear -/

/-- The `for` loop of `clear(Node *)` over the children; `visit` is the recursive call. -/
def clear_for (visit : Node K V → Outcome Unit (Node K V)) :
    List (Node K V) → Outcome Unit Unit
  | [] => .ok ()
  | c :: cs =>
    match visit c with
    | .ok _ => clear_for visit cs
    | .raised s => .raised s
    | .fault => .fault
    | .stuck => .stuck

/-- The helper `void clear(Node *st_root)` on a node that is not null, without its test
`st_root == root` (that test is in `clear`): the node as it is when `delete st_root` is
reached, both sequences cleared. -/
def clear_node : Nat → Node K V → Outcome Unit (Node K V)
  | 0, _ => .stuck
  | fuel + 1, st_root =>
    match clear_for (clear_node fuel) st_root.children with
    | .ok _ => .ok (.mk [] [])
    | .raised s => .raised s
    | .fault => .fault
    | .stuck => .stuck

/-- Source: `void clear()`, that is `clear(root)`: `st_root == root` holds in this call, so
`count = 0`; the nodes are deleted; `root` is not assigned, it keeps pointing at the deleted
root node (here the node as `clear_node` leaves it), so it is not `nullptr` when it was not
before. -/
def clear (fuel : Nat) (t : BTreeMap K V) : Outcome Unit (BTreeMap K V) :=
  match t.root with
  | none => .ok ⟨0, none⟩
  | some r =>
    match clear_node fuel r with
    | .ok freed => .ok ⟨0, some freed⟩
    | .raised s => .raised s
    | .fault => .fault
    | .stuck => .stuck

/-! ## copy -/

/-- The `for` loop of `copy` from child `i` on: `root->children.insert(copy(child(i)), i)`;
`visit` is the recursive call, `done` the children of the new node so far. -/
def copy_for (visit : Node K V → Outcome Unit (Node K V)) :
    List (Node K V) → Nat → List (Node K V) → Outcome Unit (List (Node K V))
  | [], _, done => .ok done
  | c :: cs, i, done =>
    match visit c with
    | .ok c =>
      match ArraySeq.insert done c i with
      | none => .fault
      | some done => copy_for visit cs (i + 1) done
    | .raised s => .raised s
    | .fault => .fault
    | .stuck => .stuck

/-- The helper `Node *copy(const Node *rhs_st_root) const` on a node that is not null: the
new node. -/
def copy_node : Nat → Node K V → Outcome Unit (Node K V)
  | 0, _ => .stuck
  | fuel + 1, rhs_st_root =>
    match copy_for (copy_node fuel) rhs_st_root.children 0 [] with
    | .ok cs => .ok (.mk rhs_st_root.keyvals cs)
    | .raised s => .raised s
    | .fault => .fault
    | .stuck => .stuck

/-- The helper `copy` on a pointer that may be null. -/
def copy (fuel : Nat) : Option (Node K V) → Outcome Unit (Option (Node K V))
  | none => .ok none
  | some r =>
    match copy_node fuel r with
    | .ok r => .ok (some r)
    | .raised s => .raised s
    | .fault => .fault
    | .stuck => .stuck

/-- Whether `root` holds the address of a deleted node: the state in which `clear()` leaves a
map that had a root, a root without entries and without children (see `clear`).  The model has
no other value for a dangling pointer, so it takes every such root for one. -/
def dangling (t : BTreeMap K V) : Bool :=
  match t.root with
  | some (.mk [] []) => true
  | _ => false

/-- Source: `BTreeMap &operator=(const BTreeMap &rhs)`: the assigned map and `rhs` after the
call.  `same` is the outcome of the test `this != &rhs` negated: whether the two are one
object.  When the two differ, `clear()` dereferences and deletes the node `root` points to and
`copy(rhs.root)` reads the node `rhs.root` points to: on a map whose root dangles either is a
use of freed memory, and the call ends in `fault`. -/
def copy_assign (fuel : Nat) (this rhs : BTreeMap K V) (same : Bool) :
    Outcome Unit (BTreeMap K V × BTreeMap K V) :=
  if same then .ok (this, rhs)
  else if this.dangling || rhs.dangling then .fault
  else
    match clear fuel this with
    | .ok _ =>
      match copy fuel rhs.root with
      | .ok root => .ok (⟨rhs.count, root⟩, rhs)
      | .raised s => .raised s
      | .fault => .fault
      | .stuck => .stuck
    | .raised s => .raised s
    | .fault => .fault
    | .stuck => .stuck

/-- Source: `BTreeMap(const BTreeMap &rhs)`, that is `*this = rhs` on a new object. -/
def copy_construct (fuel : Nat) (rhs : BTreeMap K V) :
    Outcome Unit (BTreeMap K V × BTreeMap K V) :=
  copy_assign fuel new rhs false

end BTreeMap

/-! ## The data model: stored entries and the invariants -/

namespace BTreeMap

variable {K V : Type}

/-- The in-order interleaving of the entries `kvs` of a node with the entry lists `cs` of its
children: child 0, entry 0, child 1, entry 1, ..., the child after the last entry. -/
def weave {α : Type} : List α → List (List α) → List α
  | _, [] => []
  | [], c :: _ => c
  | kv :: kvs, c :: cs => c ++ kv :: weave kvs cs

mutual
/-- The entries stored in the subtree of a node, in traversal order. -/
def Node.entries : Node K V → List (K × V)
  | .mk kvs cs => if cs.isEmpty then kvs else weave kvs (Node.entriesList cs)
/-- The entries of each node of a list of children. -/
def Node.entriesList : List (Node K V) → List (List (K × V))
  | [] => []
  | c :: cs => c.entries :: Node.entriesList cs
end

/-- The entries stored in the map, in traversal order. -/
def entries (t : BTreeMap K V) : List (K × V) :=
  match t.root with
  | none => []
  | some r => r.entries

/-- The shape part of the invariants on the subtree of a node all of whose leaves are `h`
levels down: node sizes, arity and equal leaf depth. -/
def Node.Shape : Nat → Node K V → Prop
  | 0, _ => False
  | 1, n => n.leaf = true ∧ 1 ≤ n.keyvals.length ∧ n.keyvals.length ≤ 3
  | h + 2, n => 1 ≤ n.keyvals.length ∧ n.keyvals.length ≤ 3 ∧
      n.children.length = n.keyvals.length + 1 ∧ ∀ c ∈ n.children, Node.Shape (h + 1) c

/-- A call of `insert` or of `erase`. -/
inductive Op (K V : Type) where
  | insert (key : K) (value : V)
  | erase (key : K)

mutual
/-- The number of levels of the subtree of a node: the largest number of nodes on a path from
the node down to a leaf. -/
def Node.depth : Node K V → Nat
  | .mk _ cs => Node.depthList cs + 1
/-- The largest depth among the nodes of a list. -/
def Node.depthList : List (Node K V) → Nat
  | [] => 0
  | c :: cs => max c.depth (Node.depthList cs)
end

/-- The number of levels of the tree of a map, 0 for the empty map. -/
def depth (t : BTreeMap K V) : Nat :=
  match t.root with
  | none => 0
  | some r => r.depth

mutual
/-- The depths of the leaves of the subtree of a node, a leaf being a node without children,
at depth 1 from itself. -/
def Node.leafDepths : Node K V → List Nat
  | .mk _ cs => if cs.isEmpty then [1] else (Node.leafDepthsList cs).map (· + 1)
/-- The depths of the leaves below the nodes of a list. -/
def Node.leafDepthsList : List (Node K V) → List Nat
  | [] => []
  | c :: cs => c.leafDepths ++ Node.leafDepthsList cs
end

/-- All leaves of the tree of a map are at the same depth from the root (the balance
invariant); it holds of the empty map. -/
def EqualDepth (t : BTreeMap K V) : Prop :=
  match t.root with
  | none => True
  | some r => ∀ d ∈ r.leafDepths, ∀ e ∈ r.leafDepths, d = e

/-- Equal leaf depth is decidable. -/
instance decEqualDepth (t : BTreeMap K V) : Decidable t.EqualDepth := by
  unfold EqualDepth
  cases t.root <;> infer_instance

variable [LinearOrder K]

/-- The invariants 1 to 3 of the data model on the subtree of a node all of whose leaves are
`h` levels down (`h = 1` for a leaf): every node has 1 to 3 entries, strictly increasing by
key; an internal node has one child more than entries; child `i` holds only keys below
entry `i` and child `i + 1` only keys above it. -/
def Node.WF : Nat → Node K V → Prop
  | 0, _ => False
  | 1, n => n.leaf = true ∧ 1 ≤ n.keyvals.length ∧ n.keyvals.length ≤ 3 ∧
      (n.keyvals.map Prod.fst).Pairwise (· < ·)
  | h + 2, n =>
      1 ≤ n.keyvals.length ∧ n.keyvals.length ≤ 3 ∧
      (n.keyvals.map Prod.fst).Pairwise (· < ·) ∧
      n.children.length = n.keyvals.length + 1 ∧
      (∀ c ∈ n.children, Node.WF (h + 1) c) ∧
      (∀ i < n.keyvals.length, ∀ kv ∈ n.keyvals[i]?, ∀ c ∈ n.children[i]?,
        ∀ x ∈ c.entries, x.1 < kv.1) ∧
      (∀ i < n.keyvals.length, ∀ kv ∈ n.keyvals[i]?, ∀ c ∈ n.children[i + 1]?,
        ∀ x ∈ c.entries, kv.1 < x.1)

/-- The invariants are decidable. -/
instance Node.decWF : (h : Nat) → (n : Node K V) → Decidable (Node.WF h n)
  | 0, _ => isFalse (by simp [Node.WF])
  | 1, n => by unfold Node.WF; infer_instance
  | h + 2, n => by
    unfold Node.WF
    have : ∀ c, Decidable (Node.WF (h + 1) c) := fun c => Node.decWF (h + 1) c
    infer_instance

/-- The invariants 1 to 3 of the data model on a map whose tree has `h` levels (`h = 0` for
the empty map, whose root is absent). -/
def TreeInv (h : Nat) (t : BTreeMap K V) : Prop :=
  match t.root with
  | none => h = 0
  | some r => r.WF h

/-- The data-model invariants of a map whose tree has `h` levels: invariants 1 to 3, and
`count` is the number of entries reachable from the root (invariant 4). -/
def Inv (h : Nat) (t : BTreeMap K V) : Prop :=
  t.TreeInv h ∧ t.count = t.entries.length

/-- The invariants 1 to 3 of a map are decidable. -/
instance decTreeInv (h : Nat) (t : BTreeMap K V) : Decidable (t.TreeInv h) := by
  unfold TreeInv
  cases t.root <;> infer_instance

/-- The data-model invariants of a map are decidable. -/
instance decInv (h : Nat) (t : BTreeMap K V) : Decidable (t.Inv h) := by
  unfold Inv
  infer_instance

/-- Strictly increasing keys. -/
def Ascending (l : List (K × V)) : Prop :=
  l.Pairwise (fun a b => a.1 < b.1)

/-- The number of leading entries whose key is below `key`. -/
def rank (key : K) : List (K × V) → Nat
  | [] => 0
  | (k, _) :: kvs => if k < key then rank key kvs + 1 else 0

/-- The number of leading entries whose key satisfies `p`. -/
def rankBy (p : K → Bool) : List (K × V) → Nat
  | [] => 0
  | (k, _) :: kvs => if p k then rankBy p kvs + 1 else 0

/-- The test of `next_key`: keys that are not above `key`. -/
def notAbove (key : K) : K → Bool :=
  fun k => decide (k ≤ key)

/-- The stored value a lookup of `key` must return: `some v` when `(key, v)` is stored. -/
def stored (key : K) (l : List (K × V)) : Option V :=
  (l.find? (fun x => decide (x.1 = key))).map Prod.snd

/-- The first stored key above `key` in traversal order. -/
def successor (key : K) (l : List (K × V)) : Option K :=
  (l.find? (fun x => decide (key < x.1))).map Prod.fst

/-- The value the `for` loop of `insert` gives `curr` when it stops at position `j`. -/
def cursorAt (n : Node K V) (j : Nat) : Option (Cursor K V) :=
  if n.leaf then some .null else (n.child j).map .child

/-- The entries `l'` are the entries `l` with `(key, value)` added at its place in the
order. -/
def Inserted (key : K) (value : V) (l l' : List (K × V)) : Prop :=
  ∃ l1 l2, l = l1 ++ l2 ∧ l' = l1 ++ (key, value) :: l2 ∧
    (∀ x ∈ l1, x.1 < key) ∧ (∀ x ∈ l2, key < x.1)

/-- A sequence of calls on a map, in order.  A call of `erase` that raises leaves the map as
the exception leaves it and the sequence goes on; `none` when a call does not end. -/
def run (toV : K → V) (fuel : Nat) : List (Op K V) → BTreeMap K V → Option (BTreeMap K V)
  | [], t => some t
  | .insert key value :: ops, t =>
    match insert fuel t key value with
    | .ok t => run toV fuel ops t
    | _ => none
  | .erase key :: ops, t =>
    match erase toV fuel t key with
    | .ok t => run toV fuel ops t
    | .raised t => run toV fuel ops t
    | _ => none

/-- The last stored key below `key` in traversal order. -/
def predecessor (key : K) (l : List (K × V)) : Option K :=
  ((l.filter (fun x => decide (x.1 < key))).getLast?).map Prod.fst

/-- The calls `erase(k)` for the keys of a list, in order, on a map: every call returns, after
each of them all leaves are at the same depth and `size()` is one less than before the call,
and the map they leave has no root and `size() == 0`. -/
def Drains (toV : K → V) (fuel : Nat) : List K → BTreeMap K V → Prop
  | [], t => t.root.isNone = true ∧ t.size = 0
  | key :: keys, t =>
    match erase toV fuel t key with
    | .ok t' => t'.EqualDepth ∧ t'.size = t.size - 1 ∧ Drains toV fuel keys t'
    | _ => False

/-- The property `Drains` is decidable. -/
instance decDrains (toV : K → V) (fuel : Nat) :
    (keys : List K) → (t : BTreeMap K V) → Decidable (Drains toV fuel keys t)
  | [], t => by unfold Drains; infer_instance
  | key :: keys, t => by
    unfold Drains
    have : ∀ t', Decidable (Drains toV fuel keys t') := fun t' => decDrains toV fuel keys t'
    cases erase toV fuel t key <;> infer_instance

/-- The value of `hold` after the entries of a node that are below `key`: the key of the last
of them, `hold` when there is none. -/
def lastBelow (key : K) : Option K → List (K × V) → Option K
  | hold, [] => hold
  | hold, (k, _) :: kvs => if k < key then lastBelow key (some k) kvs else hold

/-- The position at which the `for` loop of `insert` leaves `index`, `none` when it does not
write it: the loop stops at the first entry above the key, and writes `j + 1` at every entry
`j` below the key. -/
def slot (key : K) : List (K × V) → Nat → Option Nat → Option Nat
  | [], _, st => st
  | (k, _) :: kvs, j, st =>
    if key < k then some j
    else if key > k then slot key kvs (j + 1) (some (j + 1))
    else slot key kvs (j + 1) st

/-- The entries `l'` are the entries `l` with `(key, value)` added somewhere. -/
def Added (key : K) (value : V) (l l' : List (K × V)) : Prop :=
  ∃ l1 l2, l = l1 ++ l2 ∧ l' = l1 ++ (key, value) :: l2

/-- The node and the value of `child_idx` at the moment case 3 of the helper `erase` makes its
recursive call `erase(st_root->child(child_idx), key)`: as `rebalance` leaves them when the
child has one entry, unchanged otherwise; `none` when a sequence is indexed outside its
bounds before the call. -/
def descend_state (toV : K → V) (st_root : Node K V) (key_idx child_idx : Nat) :
    Option (Node K V × Nat) :=
  match st_root.child child_idx with
  | none => none
  | some c =>
    if c.keyvals.length = 1 then rebalance toV st_root key_idx child_idx
    else some (st_root, child_idx)

/-- The value of `key_idx` with which case 3 of the helper `erase` calls `rebalance` for the
child `child_idx` of a node with `m` entries: `rebalance(st_root, i, i)` for a child before
entry `i`, and `rebalance(st_root, m - 1, m)` for the last child. -/
def key_idx_of (m child_idx : Nat) : Nat :=
  if child_idx = m then m - 1 else child_idx

/-! ### Example maps -/

/-- The calls `insert(k, 10 * k)` for the keys of a list, in order. -/
def inserts (ks : List Nat) : List (Op Nat Nat) :=
  ks.map fun k => Op.insert k (10 * k)

/-- The map after `insert(k, 10 * k)` for `k = 1, ..., 9` on the empty map. -/
def example_1_to_9 : BTreeMap Nat Nat :=
  ⟨9, some (.mk [(4, 40)] [.mk [(2, 20)] [.mk [(1, 10)] [], .mk [(3, 30)] []],
    .mk [(6, 60)] [.mk [(5, 50)] [], .mk [(7, 70), (8, 80), (9, 90)] []]])⟩

/-- The map after `insert(k, 10 * k)` for `k = 1, ..., 6` on the empty map. -/
def example_1_to_6 : BTreeMap Nat Nat :=
  ⟨6, some (.mk [(2, 20), (4, 40)]
    [.mk [(1, 10)] [], .mk [(3, 30)] [], .mk [(5, 50), (6, 60)] []])⟩

/-- The map after `insert(k, 10 * k)` for `k = 1, 3, 5, 7, 9` on the empty map. -/
def example_odd : BTreeMap Nat Nat :=
  ⟨5, some (.mk [(3, 30)] [.mk [(1, 10)] [], .mk [(5, 50), (7, 70), (9, 90)] []])⟩

/-- The map that `erase(3)` makes of `example_1_to_6`. -/
def example_erased : BTreeMap Nat Nat :=
  ⟨5, some (.mk [(2, 20), (5, 50)] [.mk [(1, 10), (4, 4)] [], .mk [] [], .mk [(6, 60)] []])⟩

/-- The map after `insert(k, 10 * k)` for `k = 1, ..., 10` on the empty map. -/
def example_1_to_10 : BTreeMap Nat Nat :=
  ⟨10, some (.mk [(4, 40)] [.mk [(2, 20)] [.mk [(1, 10)] [], .mk [(3, 30)] []],
    .mk [(6, 60), (8, 80)] [.mk [(5, 50)] [], .mk [(7, 70)] [], .mk [(9, 90), (10, 100)] []]])⟩

/-- The map after `insert(k, 10 * k)` for `k = 1, ..., 20` on the empty map. -/
def example_1_to_20 : BTreeMap Nat Nat :=
  ⟨20, some (.mk [(8, 80)]
    [.mk [(4, 40)] [.mk [(2, 20)] [.mk [(1, 10)] [], .mk [(3, 30)] []],
      .mk [(6, 60)] [.mk [(5, 50)] [], .mk [(7, 70)] []]],
     .mk [(12, 120)] [.mk [(10, 100)] [.mk [(9, 90)] [], .mk [(11, 110)] []],
      .mk [(14, 140), (16, 160), (18, 180)] [.mk [(13, 130)] [], .mk [(15, 150)] [],
        .mk [(17, 170)] [], .mk [(19, 190), (20, 200)] []]]])⟩

/-- The map after `insert(k, 10 * k)` for `k = 1, ..., 14` on the empty map. -/
def example_1_to_14 : BTreeMap Nat Nat :=
  ⟨14, some (.mk [(4, 40), (8, 80)]
    [.mk [(2, 20)] [.mk [(1, 10)] [], .mk [(3, 30)] []],
     .mk [(6, 60)] [.mk [(5, 50)] [], .mk [(7, 70)] []],
     .mk [(10, 100), (12, 120)] [.mk [(9, 90)] [], .mk [(11, 110)] [],
      .mk [(13, 130), (14, 140)] []]])⟩

/-- The map that `erase(5)` makes of `example_1_to_14`. -/
def example_erased_5 : BTreeMap Nat Nat :=
  ⟨13, some (.mk [(4, 40), (10, 100)]
    [.mk [(2, 20), (8, 8)] [.mk [(1, 10)] [], .mk [(3, 30)] []],
     .mk [] [.mk [(6, 6), (7, 70)] []],
     .mk [(12, 120)] [.mk [(9, 90)] [], .mk [(11, 110)] [], .mk [(13, 130), (14, 140)] []]])⟩

/-- The map after `insert(k, 10 * k)` for `k = 1, ..., 4` on the empty map. -/
def example_1_to_4 : BTreeMap Nat Nat :=
  ⟨4, some (.mk [(2, 20)] [.mk [(1, 10)] [], .mk [(3, 30), (4, 40)] []])⟩

/-- The map that `erase(1)` makes of `example_1_to_4`. -/
def example_erased_1 : BTreeMap Nat Nat :=
  ⟨3, some (.mk [(3, 30)] [.mk [(2, 2)] [], .mk [(4, 40)] []])⟩

/-- The map after `insert(3, 30)` and `insert(5, 50)` on the empty map. -/
def example_3_5 : BTreeMap Nat Nat :=
  ⟨2, some (.mk [(3, 30), (5, 50)] [])⟩

/-- The map after `insert(5, 50)` on the empty map. -/
def example_5 : BTreeMap Nat Nat :=
  ⟨1, some (.mk [(5, 50)] [])⟩

/-- The map in which `clear()` leaves a map that was not empty: `count` is 0 and `root` still
holds the address of the former root node, which has been emptied and deleted. -/
def example_cleared : BTreeMap Nat Nat :=
  ⟨0, some (.mk [] [])⟩

/-- The root of `example_1_to_6`. -/
def example_node : Node Nat Nat :=
  .mk [(2, 20), (4, 40)] [.mk [(1, 10)] [], .mk [(3, 30)] [], .mk [(5, 50), (6, 60)] []]

/-- The node `example_node` as `rebalance(st_root, 1, 1)` leaves it. -/
def example_node_rebalanced : Node Nat Nat :=
  .mk [(2, 20), (5, 50)] [.mk [(1, 10), (4, 4)] [], .mk [(3, 30)] [], .mk [(6, 60)] []]

/-- The map after `insert(k, 10 * k)` for `k = 10, 2, 9, 1, 7, 8, 4, 3, 5, 6`, in this order,
on the empty map. -/
def example_shuffled : BTreeMap Nat Nat :=
  ⟨10, some (.mk [(7, 70)]
    [.mk [(2, 20), (4, 40)] [.mk [(1, 10)] [], .mk [(3, 30)] [], .mk [(5, 50), (6, 60)] []],
     .mk [(9, 90)] [.mk [(8, 80)] [], .mk [(10, 100)] []]])⟩

/-- The map in which the exception of `erase(10)` leaves `example_shuffled`. -/
def example_raised : BTreeMap Nat Nat :=
  ⟨10, some (.mk [(4, 40)]
    [.mk [(2, 20)] [.mk [(1, 10)] [], .mk [(3, 30)] []],
     .mk [(9, 90), (7, 7)] [.mk [(8, 80)] [], .mk [(10, 100)] [],
      .mk [(5, 50), (6, 60)] []]])⟩

/-- A node with one entry and two leaves of one entry each. -/
def example_pair : Node Nat Nat :=
  .mk [(2, 20)] [.mk [(1, 10)] [], .mk [(3, 30)] []]

end BTreeMap

/-! ## Lemmas -/

namespace BTreeMap

variable {K V : Type} [LinearOrder K]

set_option linter.unusedSectionVars false

theorem Node.entriesList_eq (cs : List (Node K V)) :
    Node.entriesList cs = cs.map Node.entries := by
  induction cs with
  | nil => simp [Node.entriesList]
  | cons c cs ih => simp [Node.entriesList, ih]

theorem Node.entries_mk (kvs : List (K × V)) (cs : List (Node K V)) :
    (Node.mk kvs cs).entries = if cs.isEmpty then kvs else weave kvs (cs.map Node.entries) := by
  rw [Node.entries, Node.entriesList_eq]

theorem Node.entries_leaf (kvs : List (K × V)) : (Node.mk kvs []).entries = kvs := by
  simp [Node.entries_mk]

theorem Node.entries_internal (kvs : List (K × V)) (c : Node K V) (cs : List (Node K V)) :
    (Node.mk kvs (c :: cs)).entries = weave kvs ((c :: cs).map Node.entries) := by
  simp [Node.entries_mk]

@[simp] theorem Node.keyvals_mk (kvs : List (K × V)) (cs : List (Node K V)) :
    (Node.mk kvs cs).keyvals = kvs := rfl

@[simp] theorem Node.children_mk (kvs : List (K × V)) (cs : List (Node K V)) :
    (Node.mk kvs cs).children = cs := rfl

theorem Node.eta (n : Node K V) : Node.mk n.keyvals n.children = n := by
  cases n; rfl

theorem rank_le_length (key : K) (kvs : List (K × V)) : rank key kvs ≤ kvs.length := by
  induction kvs with
  | nil => simp [rank]
  | cons kv kvs ih =>
    obtain ⟨k, v⟩ := kv
    simp only [rank]
    split
    · simp; omega
    · simp

theorem rank_eq_rankBy (key : K) (kvs : List (K × V)) :
    rank key kvs = rankBy (fun k => decide (k < key)) kvs := by
  induction kvs with
  | nil => rfl
  | cons kv kvs ih =>
    obtain ⟨k, v⟩ := kv
    simp [rank, rankBy, ih]

theorem rankBy_le_length (p : K → Bool) (kvs : List (K × V)) : rankBy p kvs ≤ kvs.length := by
  induction kvs with
  | nil => simp [rankBy]
  | cons kv kvs ih =>
    obtain ⟨k, v⟩ := kv
    simp only [rankBy]
    split
    · simp; omega
    · simp

/-- Where the keys that satisfy a downward closed `p` end among the entries of a node and the
entries of its children: the weave splits around the child at that rank. -/
theorem weave_locate_by (p : K → Bool) (hp : ∀ a b : K, a < b → p b = true → p a = true) :
    ∀ (kvs : List (K × V)) (cs : List (List (K × V))),
    cs.length = kvs.length + 1 → (weave kvs cs).Pairwise (fun a b => a.1 < b.1) →
    ∃ c A B, cs[rankBy p kvs]? = some c ∧ weave kvs cs = A ++ c ++ B ∧
      (∀ x ∈ A, p x.1 = true) ∧ (∀ x ∈ B, p x.1 = false) ∧
      kvs[rankBy p kvs]? = B.head? ∧
      (∀ c', weave kvs (cs.set (rankBy p kvs) c') = A ++ c' ++ B) ∧
      (∀ l r b, weave (kvs.take (rankBy p kvs) ++ b :: kvs.drop (rankBy p kvs))
          (cs.take (rankBy p kvs) ++ l :: r :: cs.drop (rankBy p kvs + 1))
        = A ++ (l ++ b :: r) ++ B)
  | [], cs, hlen, _ => by
    match cs, hlen with
    | [c], _ => exact ⟨c, [], [], by simp [rankBy, weave]⟩
  | (k, v) :: kvs, cs, hlen, hs => by
    match cs, hlen with
    | c :: cs, hlen =>
      simp only [weave, List.pairwise_append, List.pairwise_cons] at hs
      obtain ⟨hc, ⟨hk, hw⟩, hck⟩ := hs
      by_cases hlt : p k = true
      · have hlen' : cs.length = kvs.length + 1 := by simpa using hlen
        obtain ⟨c', A, B, h1, h2, h3, h4, h6, h7, h8⟩ :=
          weave_locate_by p hp kvs cs hlen' hw
        refine ⟨c', c ++ (k, v) :: A, B, ?_, ?_, ?_, h4, ?_, ?_, ?_⟩
        · simp [rankBy, hlt, h1]
        · simp [weave, h2]
        · intro x hx
          simp only [List.mem_append, List.mem_cons] at hx
          rcases hx with hx | rfl | hx
          · exact hp _ _ (hck x hx (k, v) (by simp)) hlt
          · exact hlt
          · exact h3 x hx
        · simp [rankBy, hlt, h6]
        · intro c''
          simp [rankBy, hlt, weave, h7]
        · intro l r b
          simp [rankBy, hlt, weave, h8]
      · refine ⟨c, [], (k, v) :: weave kvs cs, ?_, ?_, ?_, ?_, ?_, ?_, ?_⟩
        · simp [rankBy, hlt]
        · simp [weave]
        · simp
        · intro x hx
          simp only [List.mem_cons] at hx
          rcases hx with rfl | hx
          · simpa using hlt
          · cases hpx : p x.1 with
            | false => rfl
            | true => exact absurd (hp _ _ (hk x hx) hpx) hlt
        · simp [rankBy, hlt]
        · intro c'
          simp [rankBy, hlt, weave]
        · intro l r b
          simp [rankBy, hlt, weave]

/-- Where a key belongs among the entries of a node and the entries of its children. -/
theorem weave_locate (key : K) (kvs : List (K × V)) (cs : List (List (K × V)))
    (hlen : cs.length = kvs.length + 1) (hs : (weave kvs cs).Pairwise (fun a b => a.1 < b.1)) :
    ∃ c A B, cs[rank key kvs]? = some c ∧ weave kvs cs = A ++ c ++ B ∧
      (∀ x ∈ A, x.1 < key) ∧ (∀ x ∈ B, key ≤ x.1) ∧ (∀ x ∈ B.tail, key < x.1) ∧
      kvs[rank key kvs]? = B.head? ∧
      (∀ c', weave kvs (cs.set (rank key kvs) c') = A ++ c' ++ B) ∧
      (∀ l r b, weave (kvs.take (rank key kvs) ++ b :: kvs.drop (rank key kvs))
          (cs.take (rank key kvs) ++ l :: r :: cs.drop (rank key kvs + 1))
        = A ++ (l ++ b :: r) ++ B) := by
  rw [rank_eq_rankBy]
  obtain ⟨c, A, B, h1, h2, h3, h4, h6, h7, h8⟩ :=
    weave_locate_by (fun k => decide (k < key))
      (fun a b hab hb => by
        simp only [decide_eq_true_eq] at hb ⊢
        exact lt_trans hab hb) kvs cs hlen hs
  refine ⟨c, A, B, h1, h2, ?_, ?_, ?_, h6, h7, h8⟩
  · intro x hx
    simpa using h3 x hx
  · intro x hx
    simpa using h4 x hx
  · intro x hx
    rw [h2] at hs
    have hB := (List.pairwise_append.mp hs).2.1
    cases B with
    | nil => simp at hx
    | cons b B =>
      simp only [List.tail_cons] at hx
      simp only [List.pairwise_cons] at hB
      have hb : key ≤ b.1 := by simpa using h4 b (by simp)
      exact lt_of_le_of_lt hb (hB.1 x hx)

theorem mem_weave {α : Type} (x : α) : ∀ (kvs : List α) (cs : List (List α)),
    cs.length = kvs.length + 1 → (x ∈ weave kvs cs ↔ x ∈ kvs ∨ ∃ c ∈ cs, x ∈ c)
  | [], cs, hlen => by
    match cs, hlen with
    | [c], _ => simp [weave]
  | kv :: kvs, cs, hlen => by
    match cs, hlen with
    | c :: cs, hlen =>
      have hlen' : cs.length = kvs.length + 1 := by simpa using hlen
      simp only [weave, List.mem_append, List.mem_cons, mem_weave x kvs cs hlen',
        exists_eq_or_imp]
      tauto

theorem ascending_weave : ∀ (kvs : List (K × V)) (cs : List (List (K × V))),
    cs.length = kvs.length + 1 → Ascending kvs → (∀ c ∈ cs, Ascending c) →
    (∀ (i : Nat) (kv : K × V) (c : List (K × V)),
      kvs[i]? = some kv → cs[i]? = some c → ∀ x ∈ c, x.1 < kv.1) →
    (∀ (i : Nat) (kv : K × V) (c : List (K × V)),
      kvs[i]? = some kv → cs[i + 1]? = some c → ∀ x ∈ c, kv.1 < x.1) →
    Ascending (weave kvs cs)
  | [], cs, hlen, _, hc, _, _ => by
    match cs, hlen with
    | [c], _ => simpa [weave] using hc
  | kv :: kvs, cs, hlen, hk, hc, hl, hr => by
    match cs, hlen with
    | c :: cs, hlen =>
      have hlen' : cs.length = kvs.length + 1 := by simpa using hlen
      simp only [Ascending, List.pairwise_cons] at hk
      have ih : Ascending (weave kvs cs) :=
        ascending_weave kvs cs hlen' hk.2 (fun c' hc' => hc c' (by simp [hc']))
          (fun i kv' c' h1 h2 => hl (i + 1) kv' c' (by simpa using h1) (by simpa using h2))
          (fun i kv' c' h1 h2 => hr (i + 1) kv' c' (by simpa using h1) (by simpa using h2))
      have hgt : ∀ x ∈ weave kvs cs, kv.1 < x.1 := by
        intro x hx
        rw [mem_weave x kvs cs hlen'] at hx
        rcases hx with hx | ⟨c', hc', hx⟩
        · exact hk.1 x hx
        · obtain ⟨i, hi⟩ := List.mem_iff_getElem?.mp hc'
          cases i with
          | zero => exact hr 0 kv c' (by simp) (by simpa using hi) x hx
          | succ i =>
            have hlt : i + 1 < cs.length := (List.getElem?_eq_some_iff.mp hi).1
            have hi' : i < kvs.length := by omega
            have h1 : kv.1 < (kvs[i]).1 := hk.1 _ (List.getElem_mem hi')
            have h2 : (kvs[i]).1 < x.1 :=
              hr (i + 1) kvs[i] c' (by simp [List.getElem?_eq_getElem hi'])
                (by simpa using hi) x hx
            exact lt_trans h1 h2
      simp only [weave, Ascending, List.pairwise_append, List.pairwise_cons]
      refine ⟨hc c (by simp), ⟨hgt, ih⟩, ?_⟩
      intro a ha b hb
      have hak : a.1 < kv.1 := hl 0 kv c (by simp) (by simp) a ha
      simp only [List.mem_cons] at hb
      rcases hb with rfl | hb
      · exact hak
      · exact lt_trans hak (hgt b hb)

theorem ascending_of_weave : ∀ (kvs : List (K × V)) (cs : List (List (K × V))),
    cs.length = kvs.length + 1 → Ascending (weave kvs cs) →
    Ascending kvs ∧ (∀ c ∈ cs, Ascending c) ∧
    (∀ (i : Nat) (kv : K × V) (c : List (K × V)),
      kvs[i]? = some kv → cs[i]? = some c → ∀ x ∈ c, x.1 < kv.1) ∧
    (∀ (i : Nat) (kv : K × V) (c : List (K × V)),
      kvs[i]? = some kv → cs[i + 1]? = some c → ∀ x ∈ c, kv.1 < x.1)
  | [], cs, hlen, hw => by
    match cs, hlen with
    | [c], _ =>
      refine ⟨by simp [Ascending], ?_, by simp, by simp⟩
      simpa [weave] using hw
  | kv :: kvs, cs, hlen, hw => by
    match cs, hlen with
    | c :: cs, hlen =>
      have hlen' : cs.length = kvs.length + 1 := by simpa using hlen
      simp only [weave, Ascending, List.pairwise_append, List.pairwise_cons] at hw
      obtain ⟨hc, ⟨hgt, hw'⟩, hlt⟩ := hw
      obtain ⟨ih1, ih2, ih3, ih4⟩ := ascending_of_weave kvs cs hlen' hw'
      refine ⟨?_, ?_, ?_, ?_⟩
      · simp only [Ascending, List.pairwise_cons]
        exact ⟨fun x hx => hgt x ((mem_weave x kvs cs hlen').mpr (Or.inl hx)), ih1⟩
      · intro c' hc'
        simp only [List.mem_cons] at hc'
        rcases hc' with rfl | hc'
        · exact hc
        · exact ih2 c' hc'
      · intro i kv' c' h1 h2 x hx
        cases i with
        | zero =>
          simp only [List.getElem?_cons_zero, Option.some.injEq] at h1 h2
          subst h1 h2
          exact hlt x hx _ (by simp)
        | succ i => exact ih3 i kv' c' (by simpa using h1) (by simpa using h2) x hx
      · intro i kv' c' h1 h2 x hx
        cases i with
        | zero =>
          simp only [List.getElem?_cons_zero, Option.some.injEq] at h1
          subst h1
          have hmem : c' ∈ cs := by
            have : cs[0]? = some c' := by simpa using h2
            exact List.getElem?_mem this
          exact hgt x ((mem_weave x kvs cs hlen').mpr (Or.inr ⟨c', hmem, hx⟩))
        | succ i => exact ih4 i kv' c' (by simpa using h1) (by simpa using h2) x hx

theorem Node.leaf_iff (n : Node K V) : n.leaf = true ↔ n.children = [] := by
  cases n with
  | mk kvs cs => cases cs <;> simp [Node.leaf]

theorem Node.entries_of_leaf (n : Node K V) (h : n.leaf = true) : n.entries = n.keyvals := by
  cases n with
  | mk kvs cs =>
    rw [Node.leaf_iff] at h
    simp only [Node.children_mk] at h
    subst h
    simp [Node.entries_mk]

theorem Node.entries_of_children (n : Node K V) (h : n.children.length = n.keyvals.length + 1) :
    n.entries = weave n.keyvals (n.children.map Node.entries) := by
  cases n with
  | mk kvs cs =>
    cases cs with
    | nil => simp at h
    | cons c cs => simp [Node.entries_mk]

theorem ascending_iff_keys (l : List (K × V)) :
    (l.map Prod.fst).Pairwise (· < ·) ↔ Ascending l := by
  simp [Ascending, List.pairwise_map]

/-- The invariants are the shape together with strictly ascending traversal order. -/
theorem Node.wf_iff : ∀ (h : Nat) (n : Node K V), n.WF h ↔ n.Shape h ∧ Ascending n.entries
  | 0, n => by simp [Node.WF, Node.Shape]
  | 1, n => by
    simp only [Node.WF, Node.Shape, ascending_iff_keys]
    constructor
    · rintro ⟨h1, h2, h3, h4⟩
      exact ⟨⟨h1, h2, h3⟩, by rwa [Node.entries_of_leaf n h1]⟩
    · rintro ⟨⟨h1, h2, h3⟩, h4⟩
      exact ⟨h1, h2, h3, by rwa [Node.entries_of_leaf n h1] at h4⟩
  | h + 2, n => by
    simp only [Node.WF, Node.Shape, ascending_iff_keys]
    constructor
    · rintro ⟨h1, h2, h3, h4, h5, h6, h7⟩
      refine ⟨⟨h1, h2, h4, fun c hc => ((Node.wf_iff (h + 1) c).mp (h5 c hc)).1⟩, ?_⟩
      rw [Node.entries_of_children n h4]
      apply ascending_weave _ _ (by simpa using h4) h3
      · intro c hc
        obtain ⟨c', hc', rfl⟩ := List.mem_map.mp hc
        exact ((Node.wf_iff (h + 1) c').mp (h5 c' hc')).2
      · intro i kv c hkv hc x hx
        rw [List.getElem?_map] at hc
        obtain ⟨c', hc', rfl⟩ := Option.map_eq_some'.mp hc
        exact h6 i (List.getElem?_eq_some_iff.mp hkv).1 kv hkv c' hc' x hx
      · intro i kv c hkv hc x hx
        rw [List.getElem?_map] at hc
        obtain ⟨c', hc', rfl⟩ := Option.map_eq_some'.mp hc
        exact h7 i (List.getElem?_eq_some_iff.mp hkv).1 kv hkv c' hc' x hx
    · rintro ⟨⟨h1, h2, h4, h5⟩, h8⟩
      rw [Node.entries_of_children n h4] at h8
      obtain ⟨a1, a2, a3, a4⟩ := ascending_of_weave _ _ (by simpa using h4) h8
      refine ⟨h1, h2, a1, h4, ?_, ?_, ?_⟩
      · intro c hc
        exact (Node.wf_iff (h + 1) c).mpr ⟨h5 c hc, a2 _ (List.mem_map_of_mem _ hc)⟩
      · intro i _ kv hkv c hc x hx
        exact a3 i kv c.entries hkv (by rw [List.getElem?_map]; simp [Option.mem_def.mp hc]) x hx
      · intro i _ kv hkv c hc x hx
        exact a4 i kv c.entries hkv (by rw [List.getElem?_map]; simp [Option.mem_def.mp hc]) x hx

theorem sorted_keys_for_eq (visit : Node K V → List K → Outcome Unit (List K))
    (n : Node K V)
    (hv : ∀ c ∈ n.children, ∀ keys, visit c keys = .ok (keys ++ c.entries.map Prod.fst)) :
    ∀ (kvs : List (K × V)) (i : Nat) (keys : List K),
      (n.children.drop i).length = kvs.length + 1 →
      sorted_keys_for visit n kvs i keys
        = .ok (keys ++ (weave kvs ((n.children.drop i).map Node.entries)).map Prod.fst)
  | [], i, keys, hlen => by
    match hd : n.children.drop i, hlen with
    | [c], _ =>
      have hc : n.child i = some c := by
        have := congrArg List.head? hd
        simpa [Node.child, ArraySeq.get, List.head?_drop] using this
      have hmem : c ∈ n.children := List.getElem?_mem hc
      simp [sorted_keys_for, hc, hv c hmem, weave]
  | (k, v) :: kvs, i, keys, hlen => by
    match hd : n.children.drop i, hlen with
    | c :: cs, hlen =>
      have hc : n.child i = some c := by
        have := congrArg List.head? hd
        simpa [Node.child, ArraySeq.get, List.head?_drop] using this
      have hmem : c ∈ n.children := List.getElem?_mem hc
      have hd' : n.children.drop (i + 1) = cs := by
        have := congrArg List.tail hd
        simpa [List.tail_drop] using this
      have ih := sorted_keys_for_eq visit n hv kvs (i + 1) (keys ++ c.entries.map Prod.fst ++ [k])
        (by rw [hd']; simpa using hlen)
      rw [hd'] at ih
      simp only [List.append_assoc] at ih
      simp [sorted_keys_for, hc, hv c hmem, ih, weave]

theorem sorted_keys_node_eq : ∀ (h fuel : Nat) (n : Node K V) (keys : List K),
    n.Shape h → h ≤ fuel →
    sorted_keys_node fuel n keys = .ok (keys ++ n.entries.map Prod.fst)
  | 0, _, _, _, hs, _ => by simp [Node.Shape] at hs
  | 1, fuel + 1, n, keys, hs, _ => by
    obtain ⟨h1, -, -⟩ := hs
    simp [sorted_keys_node, h1, Node.entries_of_leaf n h1]
  | h + 2, fuel + 1, n, keys, hs, hf => by
    obtain ⟨h1, h2, h3, h4⟩ := hs
    have hnl : n.leaf = false := by
      cases hl : n.leaf with
      | false => rfl
      | true => rw [Node.leaf_iff] at hl; simp [hl] at h3
    have := sorted_keys_for_eq (sorted_keys_node fuel) n
      (fun c hc keys => sorted_keys_node_eq (h + 1) fuel c keys (h4 c hc) (by omega))
      n.keyvals 0 keys (by simpa using h3)
    simp [sorted_keys_node, hnl, this, Node.entries_of_children n h3]

theorem rank_getElem?_not_lt (key : K) : ∀ (kvs : List (K × V)) (kv : K × V),
    kvs[rank key kvs]? = some kv → ¬ kv.1 < key
  | [], kv, h => by simp [rank] at h
  | (k, v) :: kvs, kv, h => by
    by_cases hlt : k < key
    · simp only [rank, hlt, if_true, List.getElem?_cons_succ] at h
      exact rank_getElem?_not_lt key kvs kv h
    · simp only [rank, hlt, if_false, List.getElem?_cons_zero, Option.some.injEq] at h
      subst h
      exact hlt

theorem rank_lt_of_mem_take (key : K) : ∀ (kvs : List (K × V)),
    ∀ x ∈ kvs.take (rank key kvs), x.1 < key
  | [], x, h => by simp at h
  | (k, v) :: kvs, x, h => by
    by_cases hlt : k < key
    · simp only [rank, hlt, if_true, List.take_succ_cons, List.mem_cons] at h
      rcases h with rfl | h
      · exact hlt
      · exact rank_lt_of_mem_take key kvs x h
    · simp [rank, hlt] at h

theorem rank_eq_length (key : K) (kvs : List (K × V)) (h : kvs[rank key kvs]? = none) :
    ∀ x ∈ kvs, x.1 < key := by
  have hle := rank_le_length key kvs
  have hge : kvs.length ≤ rank key kvs := List.getElem?_eq_none_iff.mp h
  have := rank_lt_of_mem_take key kvs
  rwa [List.take_of_length_le hge] at this

theorem ascending_drop_rank (key : K) (kvs : List (K × V)) (hs : Ascending kvs) :
    ∀ x ∈ kvs.drop (rank key kvs), key ≤ x.1 := by
  intro x hx
  cases hd : kvs.drop (rank key kvs) with
  | nil => simp [hd] at hx
  | cons kv rest =>
    have hkv : kvs[rank key kvs]? = some kv := by
      have := congrArg List.head? hd
      simpa [List.head?_drop] using this
    have h1 : key ≤ kv.1 := not_lt.mp (rank_getElem?_not_lt key kvs kv hkv)
    have hs' : Ascending (kvs.drop (rank key kvs)) :=
      List.Pairwise.sublist (List.drop_sublist _ _) hs
    rw [hd] at hs' hx
    simp only [Ascending, List.pairwise_cons] at hs'
    simp only [List.mem_cons] at hx
    rcases hx with rfl | hx
    · exact h1
    · exact le_of_lt (lt_of_le_of_lt h1 (hs'.1 x hx))

/-- In a strictly increasing list a key can only sit at its rank. -/
theorem rank_mem (key : K) (kvs : List (K × V)) (hs : Ascending kvs) (x : K × V)
    (hx : x ∈ kvs) (hk : x.1 = key) : kvs[rank key kvs]? = some x := by
  rw [← List.take_append_drop (rank key kvs) kvs] at hx
  simp only [List.mem_append] at hx
  rcases hx with hx | hx
  · exact absurd (rank_lt_of_mem_take key kvs x hx) (by simp [hk])
  · cases hd : kvs.drop (rank key kvs) with
    | nil => simp [hd] at hx
    | cons kv rest =>
      have hkv : kvs[rank key kvs]? = some kv := by
        have := congrArg List.head? hd
        simpa [List.head?_drop] using this
      have h1 : key ≤ kv.1 := not_lt.mp (rank_getElem?_not_lt key kvs kv hkv)
      have hs' : Ascending (kvs.drop (rank key kvs)) :=
        List.Pairwise.sublist (List.drop_sublist _ _) hs
      rw [hd] at hs' hx
      simp only [Ascending, List.pairwise_cons] at hs'
      simp only [List.mem_cons] at hx
      rcases hx with rfl | hx
      · exact hkv
      · exact absurd (hs'.1 x hx) (by rw [hk]; exact not_lt.mpr h1)

/-- The last key is below `key` exactly when the rank is the length. -/
theorem rank_last (key : K) (kvs : List (K × V)) (hs : Ascending kvs) (last : K × V)
    (hl : kvs[kvs.length - 1]? = some last) :
    last.1 < key ↔ kvs[rank key kvs]? = none := by
  constructor
  · intro hlt
    by_contra hne
    obtain ⟨kv, hkv⟩ := Option.ne_none_iff_exists'.mp hne
    have h1 := ascending_drop_rank key kvs hs last (by
      have hr : rank key kvs < kvs.length := (List.getElem?_eq_some_iff.mp hkv).1
      have hlast := List.getElem?_eq_some_iff.mp hl
      obtain ⟨hlen, hlast⟩ := hlast
      rw [List.mem_iff_getElem]
      refine ⟨kvs.length - 1 - rank key kvs, by simp; omega, ?_⟩
      simp only [List.getElem_drop]
      rw [← hlast]
      congr 1
      omega)
    exact absurd hlt (not_lt.mpr h1)
  · intro hnone
    exact rank_eq_length key kvs hnone last (List.getElem?_mem hl)

theorem Node.setChild_entries (n : Node K V) (i : Nat) (c : Node K V)
    (h : n.children.length = n.keyvals.length + 1) :
    (n.setChild i c).entries = weave n.keyvals ((n.children.map Node.entries).set i c.entries) := by
  rw [Node.entries_of_children]
  · simp [Node.setChild, List.map_set]
  · simpa [Node.setChild] using h

/-- The child a search for `key` goes down to, and the entries around it. -/
theorem Node.locate (n : Node K V) (key : K)
    (ha : n.children.length = n.keyvals.length + 1) (hs : Ascending n.entries) :
    ∃ c A B, n.child (rank key n.keyvals) = some c ∧ n.entries = A ++ c.entries ++ B ∧
      (∀ x ∈ A, x.1 < key) ∧ (∀ x ∈ B, key ≤ x.1) ∧ (∀ x ∈ B.tail, key < x.1) ∧
      n.keyvals[rank key n.keyvals]? = B.head? ∧
      (∀ c', (n.setChild (rank key n.keyvals) c').entries = A ++ c'.entries ++ B) ∧
      (∀ (l r : Node K V) (b : K × V),
        (Node.mk (n.keyvals.take (rank key n.keyvals) ++ b :: n.keyvals.drop (rank key n.keyvals))
          (n.children.take (rank key n.keyvals) ++ l :: r ::
            n.children.drop (rank key n.keyvals + 1))).entries
          = A ++ (l.entries ++ b :: r.entries) ++ B) := by
  rw [Node.entries_of_children n ha] at hs
  obtain ⟨c, A, B, h1, h2, h3, h4, h5, h6, h7, h8⟩ :=
    weave_locate key n.keyvals (n.children.map Node.entries) (by simpa using ha) hs
  rw [List.getElem?_map] at h1
  obtain ⟨c', hc', rfl⟩ := Option.map_eq_some'.mp h1
  refine ⟨c', A, B, hc', ?_, h3, h4, h5, h6, ?_, ?_⟩
  · rw [Node.entries_of_children n ha, h2]
  · intro c''
    rw [Node.setChild_entries n _ c'' ha, h7]
  · intro l r b
    rw [Node.entries_mk, ← h8]
    simp [List.map_take, List.map_drop]

/-- When the key is not an entry of the node itself, everything after the child is above it. -/
theorem Node.locate_above (n : Node K V) (key : K) (B : List (K × V))
    (h4 : ∀ x ∈ B, key ≤ x.1) (h5 : ∀ x ∈ B.tail, key < x.1)
    (h6 : n.keyvals[rank key n.keyvals]? = B.head?)
    (hnf : ∀ kv, n.keyvals[rank key n.keyvals]? = some kv → kv.1 ≠ key) :
    ∀ x ∈ B, key < x.1 := by
  intro x hx
  cases B with
  | nil => simp at hx
  | cons b B =>
    simp only [List.mem_cons] at hx
    rcases hx with rfl | hx
    · have hb := hnf x (by simpa using h6)
      exact lt_of_le_of_ne (h4 x (by simp)) (Ne.symm hb)
    · exact h5 x (by simpa using hx)

theorem contains_for_eq (key : K) (n : Node K V) : ∀ (kvs : List (K × V)) (i : Nat),
    contains_for key n kvs i =
      match kvs[rank key kvs]? with
      | none => .next none
      | some kv =>
        if key < kv.1 then
          if n.leaf then .ret false
          else
            match n.child (i + rank key kvs) with
            | none => .fault
            | some c => .next (some c)
        else .ret true
  | [], i => by simp [contains_for, rank]
  | (k, v) :: kvs, i => by
    by_cases hlt : k < key
    · have h1 : ¬ key < k := not_lt.mpr (le_of_lt hlt)
      have h2 : ¬ key = k := fun h => by rw [h] at hlt; exact lt_irrefl _ hlt
      have := contains_for_eq key n kvs (i + 1)
      simp only [contains_for, h1, h2, if_false, rank, hlt, if_true, List.getElem?_cons_succ, this]
      have : i + 1 + rank key kvs = i + (rank key kvs + 1) := by omega
      rw [this]
    · by_cases hlt' : key < k
      · simp only [contains_for, rank, hlt, hlt', if_true, if_false, List.getElem?_cons_zero,
          Nat.add_zero]
        try rfl
      · have : key = k := le_antisymm (not_lt.mp hlt) (not_lt.mp hlt')
        simp [contains_for, rank, hlt, hlt', this]

/-- One iteration of the `while` loop of `contains` on a node of the right arity. -/
theorem contains_loop_step (key : K) (fuel : Nat) (n : Node K V)
    (h1 : 1 ≤ n.keyvals.length) (hs : Ascending n.keyvals)
    (ha : n.leaf = true ∨ n.children.length = n.keyvals.length + 1) :
    contains_loop key (fuel + 1) (some n) =
      match n.keyvals[rank key n.keyvals]? with
      | some kv =>
        if key < kv.1 then
          if n.leaf then .ok false else contains_loop key fuel (n.child (rank key n.keyvals))
        else .ok true
      | none =>
        if n.leaf then .ok false else contains_loop key fuel (n.child (rank key n.keyvals)) := by
  have hlast : ∃ last, n.keyvals[n.keyvals.length - 1]? = some last :=
    ⟨n.keyvals[n.keyvals.length - 1], List.getElem?_eq_getElem (by omega)⟩
  obtain ⟨last, hlast⟩ := hlast
  have hr := rank_last key n.keyvals hs last hlast
  have hkey : n.key (n.keyvals.length - 1) = some last.1 := by
    simp [Node.key, ArraySeq.get, hlast]
  rw [contains_loop, contains_for_eq]
  cases hj : n.keyvals[rank key n.keyvals]? with
  | none =>
    have hlt : last.1 < key := hr.mpr hj
    have hm : rank key n.keyvals = n.keyvals.length :=
      le_antisymm (rank_le_length _ _) (List.getElem?_eq_none_iff.mp hj)
    simp only [hkey, gt_iff_lt, hlt, if_true, hm]
    cases hl : n.leaf with
    | true => simp
    | false =>
      rcases ha with ha | ha
      · simp [ha] at hl
      · have : ∃ c, n.child n.keyvals.length = some c :=
          ⟨n.children[n.keyvals.length], by
            simp [Node.child, ArraySeq.get, List.getElem?_eq_getElem, ha]⟩
        obtain ⟨c, hc⟩ := this
        simp [hc]
  | some kv =>
    have hnlt : ¬ last.1 < key := fun h => by simp [hr.mp h] at hj
    by_cases hk : key < kv.1
    · simp only [hk, if_true, Nat.zero_add]
      cases hl : n.leaf with
      | true => simp
      | false =>
        rcases ha with ha | ha
        · simp [ha] at hl
        · have hlt : rank key n.keyvals < n.keyvals.length := (List.getElem?_eq_some_iff.mp hj).1
          have : ∃ c, n.child (rank key n.keyvals) = some c :=
            ⟨n.children[rank key n.keyvals], by
              simp only [Node.child, ArraySeq.get]
              exact List.getElem?_eq_getElem (by omega)⟩
          obtain ⟨c, hc⟩ := this
          simp [hc, hkey, hnlt]
    · simp [hk]

theorem mem_keys_iff (key : K) (l : List (K × V)) :
    key ∈ l.map Prod.fst ↔ ∃ x ∈ l, x.1 = key := by
  simp

theorem Node.Shape.arity {h : Nat} {n : Node K V} (hs : n.Shape h) :
    1 ≤ n.keyvals.length ∧ n.keyvals.length ≤ 3 ∧
      (n.leaf = true ∨ n.children.length = n.keyvals.length + 1) := by
  match h, hs with
  | 1, ⟨a, b, c⟩ => exact ⟨b, c, Or.inl a⟩
  | h + 2, ⟨a, b, c, _⟩ => exact ⟨a, b, Or.inr c⟩

/-- The node's own entries are strictly increasing when the traversal order is. -/
theorem Node.ascending_keyvals {h : Nat} {n : Node K V} (hs : n.Shape h)
    (ha : Ascending n.entries) : Ascending n.keyvals := by
  match h, hs with
  | 1, ⟨a, _, _⟩ => rwa [Node.entries_of_leaf n a] at ha
  | h + 2, ⟨_, _, c, _⟩ =>
    rw [Node.entries_of_children n c] at ha
    exact (ascending_of_weave _ _ (by simpa using c) ha).1

theorem contains_loop_eq : ∀ (h fuel : Nat) (n : Node K V) (key : K),
    n.Shape h → Ascending n.entries → h ≤ fuel →
    contains_loop key fuel (some n) = .ok (decide (key ∈ n.entries.map Prod.fst))
  | 0, _, _, _, hs, _, _ => by simp [Node.Shape] at hs
  | 1, fuel + 1, n, key, hs, ha, _ => by
    have hk := Node.ascending_keyvals hs ha
    obtain ⟨hl, h1, h2⟩ := hs
    rw [contains_loop_step key fuel n h1 hk (Or.inl hl), Node.entries_of_leaf n hl]
    cases hj : n.keyvals[rank key n.keyvals]? with
    | none =>
      have := rank_eq_length key n.keyvals hj
      have hn : ¬ key ∈ n.keyvals.map Prod.fst := by
        rw [mem_keys_iff]
        rintro ⟨x, hx, rfl⟩
        exact lt_irrefl _ (this x hx)
      simp only [hl, if_true, hn, decide_False]
    | some kv =>
      by_cases hlt : key < kv.1
      · have hn : ¬ key ∈ n.keyvals.map Prod.fst := by
          rw [mem_keys_iff]
          rintro ⟨x, hx, rfl⟩
          have := rank_mem x.1 n.keyvals hk x hx rfl
          rw [hj] at this
          simp only [Option.some.injEq] at this
          subst this
          exact lt_irrefl _ hlt
        simp only [hlt, if_true, hl, hn, decide_False]
      · have heq : kv.1 = key :=
          le_antisymm (not_lt.mp hlt) (not_lt.mp (rank_getElem?_not_lt key _ kv hj))
        have hy : key ∈ n.keyvals.map Prod.fst :=
          (mem_keys_iff key _).mpr ⟨kv, List.getElem?_mem hj, heq⟩
        simp only [hlt, if_false, hy, decide_True]
  | h + 2, fuel + 1, n, key, hs, ha, hf => by
    have hk := Node.ascending_keyvals hs ha
    obtain ⟨h1, h2, h3, h4⟩ := hs
    have hnl : n.leaf = false := by
      cases hl : n.leaf with
      | false => rfl
      | true => rw [Node.leaf_iff] at hl; simp [hl] at h3
    obtain ⟨c, A, B, hc, he, hA, hB, hB', hhead, -⟩ := Node.locate n key h3 ha
    have hcs : Ascending c.entries := by
      rw [he] at ha
      exact (List.pairwise_append.mp (List.pairwise_append.mp ha).1).2.1
    have ih := contains_loop_eq (h + 1) fuel c key (h4 c (List.getElem?_mem hc)) hcs (by omega)
    have hdown : (∀ kv, n.keyvals[rank key n.keyvals]? = some kv → kv.1 ≠ key) →
        (decide (key ∈ n.entries.map Prod.fst) = decide (key ∈ c.entries.map Prod.fst)) := by
      intro hnf
      have hB2 := Node.locate_above n key B hB hB' hhead hnf
      congr 1
      rw [he]
      simp only [mem_keys_iff, List.mem_append, eq_iff_iff]
      constructor
      · rintro ⟨x, (hx | hx) | hx, rfl⟩
        · exact absurd (hA x hx) (lt_irrefl _)
        · exact ⟨x, hx, rfl⟩
        · exact absurd (hB2 x hx) (lt_irrefl _)
      · rintro ⟨x, hx, rfl⟩
        exact ⟨x, Or.inl (Or.inr hx), rfl⟩
    rw [contains_loop_step key fuel n h1 hk (Or.inr h3)]
    cases hj : n.keyvals[rank key n.keyvals]? with
    | none =>
      simp only [hnl, hc, ih]
      rw [hdown (by simp [hj])]
      simp
    | some kv =>
      by_cases hlt : key < kv.1
      · simp only [hlt, if_true, hnl, hc, ih]
        rw [hdown (by
          intro kv' hkv'
          rw [hj] at hkv'
          simp only [Option.some.injEq] at hkv'
          subst hkv'
          exact fun h => by rw [h] at hlt; exact lt_irrefl _ hlt)]
        simp
      · have heq : kv.1 = key :=
          le_antisymm (not_lt.mp hlt) (not_lt.mp (rank_getElem?_not_lt key _ kv hj))
        have hy : key ∈ n.entries.map Prod.fst := by
          rw [mem_keys_iff]
          refine ⟨kv, ?_, heq⟩
          rw [he]
          have : B.head? = some kv := by rw [← hhead, hj]
          have : kv ∈ B := List.mem_of_mem_head? this
          simp [this]
        simp only [hlt, if_false, hy, decide_True]

/-- A strictly increasing list holds a key once. -/
theorem ascending_unique : ∀ (l : List (K × V)), Ascending l → ∀ x y : K × V,
    x ∈ l → y ∈ l → x.1 = y.1 → x = y
  | [], _, _, _, hx, _, _ => by simp at hx
  | a :: l, hs, x, y, hx, hy, h => by
    simp only [Ascending, List.pairwise_cons] at hs
    simp only [List.mem_cons] at hx hy
    rcases hx with rfl | hx <;> rcases hy with rfl | hy
    · rfl
    · exact absurd (hs.1 y hy) (by rw [h]; exact lt_irrefl _)
    · exact absurd (hs.1 x hx) (by rw [← h]; exact lt_irrefl _)
    · exact ascending_unique l hs.2 x y hx hy h

theorem index_for_above (key : K) (n : Node K V) (hl : n.leaf = true) :
    ∀ (kvs : List (K × V)) (i : Nat), (∀ x ∈ kvs, key < x.1) →
      index_for key n kvs i none = .next none
  | [], i, _ => by simp [index_for]
  | (k, v) :: kvs, i, h => by
    have hk : key < k := h (k, v) (by simp)
    simp only [index_for, hk, if_true, hl]
    exact index_for_above key n hl kvs (i + 1) (fun x hx => h x (by simp [hx]))

theorem index_for_eq (key : K) (n : Node K V) : ∀ (kvs : List (K × V)) (i : Nat)
    (sn : Option (Node K V)), Ascending kvs →
    index_for key n kvs i sn =
      match kvs[rank key kvs]? with
      | none => .next sn
      | some kv =>
        if key < kv.1 then
          if n.leaf then .next none
          else
            match n.child (i + rank key kvs) with
            | none => .fault
            | some c => .next (some c)
        else .ret kv.2
  | [], i, sn, _ => by simp [index_for, rank]
  | (k, v) :: kvs, i, sn, hs => by
    simp only [Ascending, List.pairwise_cons] at hs
    by_cases hlt : k < key
    · have h1 : ¬ key < k := not_lt.mpr (le_of_lt hlt)
      have h2 : ¬ key = k := fun h => by rw [h] at hlt; exact lt_irrefl _ hlt
      have := index_for_eq key n kvs (i + 1) sn hs.2
      simp only [index_for, h1, h2, if_false, rank, hlt, if_true, List.getElem?_cons_succ, this]
      have : i + 1 + rank key kvs = i + (rank key kvs + 1) := by omega
      rw [this]
    · by_cases hlt' : key < k
      · simp only [index_for, rank, hlt, hlt', if_true, if_false, List.getElem?_cons_zero,
          Nat.add_zero]
        cases hl : n.leaf with
        | true =>
          simp only [if_true]
          exact index_for_above key n hl kvs (i + 1) (fun x hx => lt_trans hlt' (hs.1 x hx))
        | false => rfl
      · have : key = k := le_antisymm (not_lt.mp hlt) (not_lt.mp hlt')
        simp [index_for, rank, hlt, hlt', this]

theorem index_loop_none (key : K) (fuel : Nat) (sn : Option (Node K V)) :
    index_loop key fuel (none : Option (Node K V)) sn = (.raised () : Outcome Unit V) := by
  cases fuel <;> rfl

/-- One iteration of the `while` loop of `operator[]`. -/
theorem index_loop_step (key : K) (fuel : Nat) (n : Node K V) (sn : Option (Node K V))
    (h1 : 1 ≤ n.keyvals.length) (hs : Ascending n.keyvals)
    (ha : n.leaf = true ∨ n.children.length = n.keyvals.length + 1) :
    index_loop key (fuel + 1) (some n) sn =
      match n.keyvals[rank key n.keyvals]? with
      | some kv =>
        if key < kv.1 then
          if n.leaf then .raised ()
          else index_loop key fuel (n.child (rank key n.keyvals)) (n.child (rank key n.keyvals))
        else .ok kv.2
      | none =>
        if n.leaf then .raised ()
        else index_loop key fuel (n.child (rank key n.keyvals))
          (n.child (rank key n.keyvals)) := by
  have hlast : ∃ last, n.keyvals[n.keyvals.length - 1]? = some last :=
    ⟨n.keyvals[n.keyvals.length - 1], List.getElem?_eq_getElem (by omega)⟩
  obtain ⟨last, hlast⟩ := hlast
  have hr := rank_last key n.keyvals hs last hlast
  have hkey : n.key (n.keyvals.length - 1) = some last.1 := by
    simp [Node.key, ArraySeq.get, hlast]
  rw [index_loop, index_for_eq key n n.keyvals 0 sn hs]
  cases hj : n.keyvals[rank key n.keyvals]? with
  | none =>
    have hlt : last.1 < key := hr.mpr hj
    have hm : rank key n.keyvals = n.keyvals.length :=
      le_antisymm (rank_le_length _ _) (List.getElem?_eq_none_iff.mp hj)
    simp only [hkey, gt_iff_lt, hlt, if_true, hm]
    cases hl : n.leaf with
    | true => simp [index_loop_none]
    | false =>
      rcases ha with ha | ha
      · simp [ha] at hl
      · have : ∃ c, n.child n.keyvals.length = some c :=
          ⟨n.children[n.keyvals.length], by
            simp [Node.child, ArraySeq.get, List.getElem?_eq_getElem, ha]⟩
        obtain ⟨c, hc⟩ := this
        simp [hc]
  | some kv =>
    have hnlt : ¬ last.1 < key := fun h => by simp [hr.mp h] at hj
    by_cases hk : key < kv.1
    · simp only [hk, if_true, Nat.zero_add]
      cases hl : n.leaf with
      | true => simp [hkey, hnlt, index_loop_none]
      | false =>
        rcases ha with ha | ha
        · simp [ha] at hl
        · have hlt : rank key n.keyvals < n.keyvals.length := (List.getElem?_eq_some_iff.mp hj).1
          have : ∃ c, n.child (rank key n.keyvals) = some c :=
            ⟨n.children[rank key n.keyvals], by
              simp only [Node.child, ArraySeq.get]
              exact List.getElem?_eq_getElem (by omega)⟩
          obtain ⟨c, hc⟩ := this
          simp [hc, hkey, hnlt]
    · simp [hk]

theorem stored_eq_some (key : K) (l : List (K × V)) (hs : Ascending l) (v : V) :
    stored key l = some v ↔ (key, v) ∈ l := by
  unfold stored
  constructor
  · intro h
    obtain ⟨x, hx, rfl⟩ := Option.map_eq_some'.mp h
    have h1 := List.find?_some hx
    have h2 := List.mem_of_find?_eq_some hx
    simp only [decide_eq_true_eq] at h1
    subst h1
    exact h2
  · intro h
    cases hf : l.find? (fun x => decide (x.1 = key)) with
    | none =>
      have := List.find?_eq_none.mp hf (key, v) h
      simp at this
    | some x =>
      have h1 := List.find?_some hf
      have h2 := List.mem_of_find?_eq_some hf
      simp only [decide_eq_true_eq] at h1
      have := ascending_unique l hs x (key, v) h2 h h1
      simp [this]

theorem stored_eq_none (key : K) (l : List (K × V)) :
    stored key l = none ↔ ∀ x ∈ l, x.1 ≠ key := by
  unfold stored
  simp [List.find?_eq_none]

theorem index_loop_eq : ∀ (h fuel : Nat) (n : Node K V) (key : K) (sn : Option (Node K V)),
    n.Shape h → Ascending n.entries → h ≤ fuel →
    index_loop key fuel (some n) sn =
      match stored key n.entries with
      | some v => .ok v
      | none => .raised ()
  | 0, _, _, _, _, hs, _, _ => by simp [Node.Shape] at hs
  | 1, fuel + 1, n, key, sn, hs, ha, _ => by
    have hk := Node.ascending_keyvals hs ha
    obtain ⟨hl, h1, h2⟩ := hs
    rw [index_loop_step key fuel n sn h1 hk (Or.inl hl), Node.entries_of_leaf n hl]
    cases hj : n.keyvals[rank key n.keyvals]? with
    | none =>
      have := rank_eq_length key n.keyvals hj
      have hn : stored key n.keyvals = none := by
        rw [stored_eq_none]
        rintro x hx rfl
        exact lt_irrefl _ (this x hx)
      simp only [hl, if_true, hn]
    | some kv =>
      by_cases hlt : key < kv.1
      · have hn : stored key n.keyvals = none := by
          rw [stored_eq_none]
          rintro x hx rfl
          have := rank_mem x.1 n.keyvals hk x hx rfl
          rw [hj] at this
          simp only [Option.some.injEq] at this
          subst this
          exact lt_irrefl _ hlt
        simp only [hlt, if_true, hl, hn]
      · have heq : kv.1 = key :=
          le_antisymm (not_lt.mp hlt) (not_lt.mp (rank_getElem?_not_lt key _ kv hj))
        have hy : stored key n.keyvals = some kv.2 := by
          rw [stored_eq_some key _ hk, ← heq]
          exact List.getElem?_mem hj
        simp only [hlt, if_false, hy]
  | h + 2, fuel + 1, n, key, sn, hs, ha, hf => by
    have hk := Node.ascending_keyvals hs ha
    obtain ⟨h1, h2, h3, h4⟩ := hs
    have hnl : n.leaf = false := by
      cases hl : n.leaf with
      | false => rfl
      | true => rw [Node.leaf_iff] at hl; simp [hl] at h3
    obtain ⟨c, A, B, hc, he, hA, hB, hB', hhead, -⟩ := Node.locate n key h3 ha
    have hcs : Ascending c.entries := by
      rw [he] at ha
      exact (List.pairwise_append.mp (List.pairwise_append.mp ha).1).2.1
    have ih := index_loop_eq (h + 1) fuel c key (some c) (h4 c (List.getElem?_mem hc)) hcs
      (by omega)
    have hdown : (∀ kv, n.keyvals[rank key n.keyvals]? = some kv → kv.1 ≠ key) →
        stored key n.entries = stored key c.entries := by
      intro hnf
      have hB2 := Node.locate_above n key B hB hB' hhead hnf
      have hAn : A.find? (fun x => decide (x.1 = key)) = none := by
        rw [List.find?_eq_none]
        intro x hx
        simpa using ne_of_lt (hA x hx)
      have hBn : B.find? (fun x => decide (x.1 = key)) = none := by
        rw [List.find?_eq_none]
        intro x hx
        simpa using (ne_of_lt (hB2 x hx)).symm
      unfold stored
      rw [he, List.find?_append, List.find?_append, hAn, hBn]
      simp
    rw [index_loop_step key fuel n sn h1 hk (Or.inr h3)]
    cases hj : n.keyvals[rank key n.keyvals]? with
    | none =>
      simp only [hnl, hc, ih]
      rw [hdown (by simp [hj])]
      simp
    | some kv =>
      by_cases hlt : key < kv.1
      · simp only [hlt, if_true, hnl, hc, ih]
        rw [hdown (by
          intro kv' hkv'
          rw [hj] at hkv'
          simp only [Option.some.injEq] at hkv'
          subst hkv'
          exact fun h => by rw [h] at hlt; exact lt_irrefl _ hlt)]
        simp
      · have heq : kv.1 = key :=
          le_antisymm (not_lt.mp hlt) (not_lt.mp (rank_getElem?_not_lt key _ kv hj))
        have hy : stored key n.entries = some kv.2 := by
          rw [stored_eq_some key _ ha, ← heq, he]
          have : B.head? = some kv := by rw [← hhead, hj]
          have : kv ∈ B := List.mem_of_mem_head? this
          simp [this]
        simp only [hlt, if_false, hy]

/-- The child a downward closed `p` leads to, and the entries around it. -/
theorem Node.locate_by (n : Node K V) (p : K → Bool)
    (hp : ∀ a b : K, a < b → p b = true → p a = true)
    (ha : n.children.length = n.keyvals.length + 1) (hs : Ascending n.entries) :
    ∃ c A B, n.child (rankBy p n.keyvals) = some c ∧ n.entries = A ++ c.entries ++ B ∧
      (∀ x ∈ A, p x.1 = true) ∧ (∀ x ∈ B, p x.1 = false) ∧
      n.keyvals[rankBy p n.keyvals]? = B.head? := by
  rw [Node.entries_of_children n ha] at hs
  obtain ⟨c, A, B, h1, h2, h3, h4, h6, -, -⟩ :=
    weave_locate_by p hp n.keyvals (n.children.map Node.entries) (by simpa using ha) hs
  rw [List.getElem?_map] at h1
  obtain ⟨c', hc', rfl⟩ := Option.map_eq_some'.mp h1
  refine ⟨c', A, B, hc', ?_, h3, h4, h6⟩
  rw [Node.entries_of_children n ha, h2]

theorem find?_rankBy (p : K → Bool) : ∀ (kvs : List (K × V)),
    kvs.find? (fun x => !p x.1) = kvs[rankBy p kvs]?
  | [] => by simp [rankBy]
  | (k, v) :: kvs => by
    cases hp : p k with
    | true => simp [rankBy, hp, List.find?_cons, find?_rankBy p kvs]
    | false => simp [rankBy, hp, List.find?_cons]

theorem notAbove_closed (key : K) :
    ∀ a b : K, a < b → notAbove key b = true → notAbove key a = true := by
  intro a b hab hb
  simp only [notAbove, decide_eq_true_eq] at hb ⊢
  exact le_trans (le_of_lt hab) hb

theorem next_key_for_skip (key : K) (n : Node K V) : ∀ (kvs : List (K × V)) (i : Nat)
    (hold : Option K) (sn : Option (Node K V)), (∀ x ∈ kvs, x.1 < key) →
    next_key_for key n kvs i hold sn = some (hold, sn)
  | [], _, _, _, _ => by simp [next_key_for]
  | (k, v) :: kvs, i, hold, sn, h => by
    have hk : k < key := h (k, v) (by simp)
    have h1 : ¬ key < k := not_lt.mpr (le_of_lt hk)
    have h2 : ¬ key = k := fun e => by rw [e] at hk; exact lt_irrefl _ hk
    simp only [next_key_for, h1, h2, if_false]
    exact next_key_for_skip key n kvs (i + 1) hold sn (fun x hx => h x (by simp [hx]))

theorem rankBy_zero_of_above (key : K) : ∀ (kvs : List (K × V)),
    (∀ x ∈ kvs, key < x.1) → rankBy (notAbove key) kvs = 0
  | [], _ => rfl
  | (k, v) :: kvs, h => by
    have hk : key < k := h (k, v) (by simp)
    simp [rankBy, notAbove, not_le.mpr hk]

theorem rankBy_all_below (key : K) : ∀ (kvs : List (K × V)),
    (∀ x ∈ kvs, x.1 < key) → rankBy (notAbove key) kvs = kvs.length
  | [], _ => rfl
  | (k, v) :: kvs, h => by
    have hk : k < key := h (k, v) (by simp)
    simp [rankBy, notAbove, le_of_lt hk,
      rankBy_all_below key kvs (fun x hx => h x (by simp [hx]))]

/-- The `for` loop of `next_key` on strictly increasing entries that are not all below the
key. -/
theorem next_key_for_eq (key : K) (n : Node K V) : ∀ (kvs : List (K × V)) (i : Nat)
    (hold : Option K) (sn : Option (Node K V)), Ascending kvs →
    ¬ (∀ x ∈ kvs, x.1 < key) →
    (n.leaf = false → ∀ j, j ≤ kvs.length → ∃ c, n.child (i + j) = some c) →
    next_key_for key n kvs i hold sn =
      some (match kvs[rankBy (notAbove key) kvs]? with
            | some kv => some kv.1
            | none => hold,
        if n.leaf then none else n.child (i + rankBy (notAbove key) kvs))
  | [], _, _, _, _, hn, _ => by simp at hn
  | (k, v) :: kvs, i, hold, sn, hs, hn, hc => by
    simp only [Ascending, List.pairwise_cons] at hs
    by_cases hlt : k < key
    · have h1 : ¬ key < k := not_lt.mpr (le_of_lt hlt)
      have h2 : ¬ key = k := fun e => by rw [e] at hlt; exact lt_irrefl _ hlt
      have hn' : ¬ (∀ x ∈ kvs, x.1 < key) := by
        intro hall
        apply hn
        intro x hx
        simp only [List.mem_cons] at hx
        rcases hx with rfl | hx
        · exact hlt
        · exact hall x hx
      have ih := next_key_for_eq key n kvs (i + 1) hold sn hs.2 hn'
        (fun hl j hj => by
          have := hc hl (j + 1) (by simp; omega)
          rwa [show i + (j + 1) = i + 1 + j by omega] at this)
      simp only [next_key_for, h1, h2, if_false, ih, rankBy, notAbove, le_of_lt hlt,
        decide_True, if_true, List.getElem?_cons_succ]
      rw [show i + 1 + rankBy (notAbove key) kvs
        = i + (rankBy (notAbove key) kvs + 1) by omega]
    · by_cases hlt' : key < k
      · simp only [next_key_for, hlt', if_true, rankBy, notAbove, not_le.mpr hlt',
          decide_False, List.getElem?_cons_zero, Nat.add_zero]
        cases hl : n.leaf with
        | true => simp
        | false =>
          obtain ⟨c, hc0⟩ := hc hl 0 (by simp)
          simp only [Nat.add_zero] at hc0
          simp [hc0]
      · have heq : key = k := le_antisymm (not_lt.mp hlt) (not_lt.mp hlt')
        subst heq
        have habove : ∀ x ∈ kvs, key < x.1 := hs.1
        have hr0 := rankBy_zero_of_above key kvs habove
        simp only [notAbove] at hr0
        simp only [next_key_for, lt_irrefl, if_false, if_true, rankBy, notAbove, le_refl,
          decide_True, hr0, List.getElem?_cons_succ, Nat.zero_add]
        cases kvs with
        | nil =>
          cases hl : n.leaf with
          | true => simp [next_key_for]
          | false =>
            obtain ⟨c, hc1⟩ := hc hl 1 (by simp)
            simp [next_key_for, hc1]
        | cons kv' kvs' =>
          obtain ⟨k', v'⟩ := kv'
          have hk' : key < k' := habove (k', v') (by simp)
          cases hl : n.leaf with
          | true => simp [next_key_for, hk', hl]
          | false =>
            obtain ⟨c, hc1⟩ := hc hl 1 (by simp)
            simp [next_key_for, hk', hl, hc1]

theorem next_key_loop_none (key : K) (fuel : Nat) (hold : Option K) :
    next_key_loop key fuel (none : Option (Node K V)) hold = .ok hold := by
  cases fuel <;> rfl

/-- One iteration of the `while` loop of `next_key`. -/
theorem next_key_loop_step (key : K) (fuel : Nat) (n : Node K V) (hold : Option K)
    (h1 : 1 ≤ n.keyvals.length) (hs : Ascending n.keyvals)
    (ha : n.leaf = true ∨ n.children.length = n.keyvals.length + 1) :
    next_key_loop key (fuel + 1) (some n) hold =
      if n.leaf then
        .ok (match n.keyvals[rankBy (notAbove key) n.keyvals]? with
          | some kv => some kv.1
          | none => hold)
      else
        next_key_loop key fuel (n.child (rankBy (notAbove key) n.keyvals))
          (match n.keyvals[rankBy (notAbove key) n.keyvals]? with
          | some kv => some kv.1
          | none => hold) := by
  have hlast : ∃ last, n.keyvals[n.keyvals.length - 1]? = some last :=
    ⟨n.keyvals[n.keyvals.length - 1], List.getElem?_eq_getElem (by omega)⟩
  obtain ⟨last, hlast⟩ := hlast
  have hr := rank_last key n.keyvals hs last hlast
  have hkey : n.key (n.keyvals.length - 1) = some last.1 := by
    simp [Node.key, ArraySeq.get, hlast]
  have hchild : n.leaf = false → ∀ j, j ≤ n.keyvals.length → ∃ c, n.child (0 + j) = some c := by
    intro hl j hj
    rcases ha with ha | ha
    · simp [ha] at hl
    · refine ⟨n.children[j], ?_⟩
      simp only [Node.child, ArraySeq.get, Nat.zero_add]
      exact List.getElem?_eq_getElem (by omega)
  rw [next_key_loop]
  by_cases hall : ∀ x ∈ n.keyvals, x.1 < key
  · have hlt : last.1 < key := hall last (List.getElem?_mem hlast)
    have hu := rankBy_all_below key n.keyvals hall
    rw [next_key_for_skip key n n.keyvals 0 hold none hall]
    simp only [hkey, gt_iff_lt, hlt, if_true, hu, List.getElem?_eq_none_iff.mpr (le_refl _)]
    cases hl : n.leaf with
    | true => simp [next_key_loop_none]
    | false =>
      rcases ha with ha | ha
      · simp [ha] at hl
      · obtain ⟨c, hc⟩ := hchild hl n.keyvals.length (le_refl _)
        simp only [Nat.zero_add] at hc
        simp [ha, hc]
  · have hnlt : ¬ last.1 < key := by
      intro hlt
      exact hall (rank_eq_length key n.keyvals (hr.mp hlt))
    rw [next_key_for_eq key n n.keyvals 0 hold none hs hall hchild]
    simp only [hkey, gt_iff_lt, hnlt, if_false, Nat.zero_add]
    cases hl : n.leaf with
    | true => simp [next_key_loop_none]
    | false => simp

theorem find?_above_eq (key : K) (l : List (K × V)) :
    l.find? (fun x => decide (key < x.1)) = l.find? (fun x => !notAbove key x.1) := by
  congr 1
  funext x
  by_cases h : key < x.1
  · simp [notAbove, h, not_le.mpr h]
  · simp [notAbove, h, not_lt.mp h]

theorem next_key_loop_eq : ∀ (h fuel : Nat) (n : Node K V) (key : K) (hold : Option K),
    n.Shape h → Ascending n.entries → h ≤ fuel →
    next_key_loop key fuel (some n) hold =
      .ok (match successor key n.entries with
        | some k => some k
        | none => hold)
  | 0, _, _, _, _, hs, _, _ => by simp [Node.Shape] at hs
  | 1, fuel + 1, n, key, hold, hs, ha, _ => by
    have hk := Node.ascending_keyvals hs ha
    obtain ⟨hl, h1, h2⟩ := hs
    rw [next_key_loop_step key fuel n hold h1 hk (Or.inl hl), Node.entries_of_leaf n hl]
    simp only [hl, if_true, successor, find?_above_eq, find?_rankBy]
    cases n.keyvals[rankBy (notAbove key) n.keyvals]? <;> rfl
  | h + 2, fuel + 1, n, key, hold, hs, ha, hf => by
    have hk := Node.ascending_keyvals hs ha
    obtain ⟨h1, h2, h3, h4⟩ := hs
    have hnl : n.leaf = false := by
      cases hl : n.leaf with
      | false => rfl
      | true => rw [Node.leaf_iff] at hl; simp [hl] at h3
    obtain ⟨c, A, B, hc, he, hA, hB, hhead⟩ :=
      Node.locate_by n (notAbove key) (notAbove_closed key) h3 ha
    have hcs : Ascending c.entries := by
      rw [he] at ha
      exact (List.pairwise_append.mp (List.pairwise_append.mp ha).1).2.1
    have ih := fun hold' => next_key_loop_eq (h + 1) fuel c key hold'
      (h4 c (List.getElem?_mem hc)) hcs (by omega)
    rw [next_key_loop_step key fuel n hold h1 hk (Or.inr h3)]
    simp only [hnl, hc, ih, Bool.false_eq_true, if_false]
    have hAn : A.find? (fun x => !notAbove key x.1) = none := by
      rw [List.find?_eq_none]
      intro x hx
      simp [hA x hx]
    have hBn : B.find? (fun x => !notAbove key x.1) = B.head? := by
      cases B with
      | nil => rfl
      | cons b B => simp [List.find?_cons, hB b (by simp)]
    have hsucc : successor key n.entries
        = match successor key c.entries with
          | some k => some k
          | none => (n.keyvals[rankBy (notAbove key) n.keyvals]?).map Prod.fst := by
      simp only [successor, find?_above_eq]
      rw [he, List.find?_append, List.find?_append, hAn, hBn, hhead]
      cases c.entries.find? (fun x => !notAbove key x.1) <;> simp
    rw [hsucc]
    cases successor key c.entries with
    | some k => rfl
    | none => cases n.keyvals[rankBy (notAbove key) n.keyvals]? <;> rfl

theorem insert_for_from (key : K) (n : Node K V) : ∀ (kvs : List (K × V)) (i : Nat)
    (cur : Cursor K V), (∀ x ∈ kvs, x.1 ≠ key) → cursorAt n i = some cur →
    (n.leaf = false → ∀ j, j ≤ kvs.length → ∃ c, n.child (i + j) = some c) →
    ∃ cur', cursorAt n (i + rank key kvs) = some cur' ∧
      insert_for key n kvs i ((i : Int), cur) = some (((i + rank key kvs : Nat) : Int), cur')
  | [], i, cur, _, hcur, _ => ⟨cur, by simpa [rank] using hcur, by simp [insert_for, rank]⟩
  | (k, v) :: kvs, i, cur, hne, hcur, hc => by
    have hk : k ≠ key := hne (k, v) (by simp)
    by_cases hlt : key < k
    · have hnlt : ¬ k < key := not_lt.mpr (le_of_lt hlt)
      refine ⟨cur, by simpa [rank, hnlt] using hcur, ?_⟩
      simp only [insert_for, hlt, if_true, rank, hnlt, if_false, Nat.add_zero]
      simp only [cursorAt] at hcur
      cases hl : n.leaf with
      | true =>
        simp only [hl, if_true, Option.some.injEq] at hcur
        simp [hcur]
      | false =>
        simp only [hl, Bool.false_eq_true, if_false, Option.map_eq_some'] at hcur
        obtain ⟨c, hc0, rfl⟩ := hcur
        simp [hc0]
    · have hgt : k < key := lt_of_le_of_ne (not_lt.mp hlt) hk
      have hcur1 : ∃ cur1, cursorAt n (i + 1) = some cur1 := by
        simp only [cursorAt]
        cases hl : n.leaf with
        | true => exact ⟨.null, by simp⟩
        | false =>
          obtain ⟨c, hc1⟩ := hc hl 1 (by simp)
          exact ⟨.child c, by simp [hc1]⟩
      obtain ⟨cur1, hcur1⟩ := hcur1
      obtain ⟨cur', h1, h2⟩ := insert_for_from key n kvs (i + 1) cur1
        (fun x hx => hne x (by simp [hx])) hcur1
        (fun hl j hj => by
          have := hc hl (j + 1) (by simp; omega)
          rwa [show i + (j + 1) = i + 1 + j by omega] at this)
      refine ⟨cur', ?_, ?_⟩
      · simp only [rank, hgt, if_true]
        rwa [show i + (rank key kvs + 1) = i + 1 + rank key kvs by omega]
      · simp only [insert_for, hlt, if_false, gt_iff_lt, hgt, if_true, rank]
        simp only [cursorAt] at hcur1
        cases hl : n.leaf with
        | true =>
          simp only [hl, if_true, Option.some.injEq] at hcur1
          subst hcur1
          simp only [if_true]
          have : ((i : Int) + 1) = ((i + 1 : Nat) : Int) := by push_cast; ring
          rw [this, h2]
          congr 3
          omega
        | false =>
          simp only [hl, Bool.false_eq_true, if_false, Option.map_eq_some'] at hcur1
          obtain ⟨c, hc1, rfl⟩ := hcur1
          simp only [hc1, Bool.false_eq_true, if_false]
          have : ((i : Int) + 1) = ((i + 1 : Nat) : Int) := by push_cast; ring
          rw [this, h2]
          congr 3
          omega

/-- The `for` loop of `insert` on a node that does not hold the key: it stops at the rank of
the key. -/
theorem insert_for_eq (key : K) (n : Node K V) (st : Int × Cursor K V)
    (h1 : 1 ≤ n.keyvals.length) (hne : ∀ x ∈ n.keyvals, x.1 ≠ key)
    (hc : n.leaf = false → ∀ j, j ≤ n.keyvals.length → ∃ c, n.child j = some c) :
    ∃ cur, cursorAt n (rank key n.keyvals) = some cur ∧
      insert_for key n n.keyvals 0 st = some (((rank key n.keyvals : Nat) : Int), cur) := by
  cases hkvs : n.keyvals with
  | nil => simp [hkvs] at h1
  | cons kv kvs =>
    obtain ⟨k, v⟩ := kv
    rw [hkvs] at hne hc
    have hk : k ≠ key := hne (k, v) (by simp)
    by_cases hlt : key < k
    · have hnlt : ¬ k < key := not_lt.mpr (le_of_lt hlt)
      simp only [insert_for, hlt, if_true, rank, hnlt, if_false, cursorAt]
      cases hl : n.leaf with
      | true => exact ⟨.null, by simp⟩
      | false =>
        obtain ⟨c, hc0⟩ := hc hl 0 (by simp)
        exact ⟨.child c, by simp [hc0]⟩
    · have hgt : k < key := lt_of_le_of_ne (not_lt.mp hlt) hk
      have hcur1 : ∃ cur1, cursorAt n (0 + 1) = some cur1 := by
        simp only [cursorAt]
        cases hl : n.leaf with
        | true => exact ⟨.null, by simp⟩
        | false =>
          obtain ⟨c, hc1⟩ := hc hl 1 (by simp)
          exact ⟨.child c, by simp [hc1]⟩
      obtain ⟨cur1, hcur1⟩ := hcur1
      obtain ⟨cur', h1', h2⟩ := insert_for_from key n kvs (0 + 1) cur1
        (fun x hx => hne x (by simp [hx])) hcur1
        (fun hl j hj => by
          have := hc hl (j + 1) (by simp; omega)
          rwa [show j + 1 = 0 + 1 + j by omega] at this)
      refine ⟨cur', ?_, ?_⟩
      · simp only [rank, hgt, if_true]
        rwa [show rank key kvs + 1 = 0 + 1 + rank key kvs by omega]
      · simp only [insert_for, hlt, if_false, gt_iff_lt, hgt, if_true, rank]
        simp only [cursorAt] at hcur1
        cases hl : n.leaf with
        | true =>
          simp only [hl, if_true, Option.some.injEq] at hcur1
          subst hcur1
          simp only [if_true]
          have : (((0 : Nat) : Int) + 1) = ((0 + 1 : Nat) : Int) := by norm_num
          rw [this, h2]
          congr 3
          omega
        | false =>
          simp only [hl, Bool.false_eq_true, if_false, Option.map_eq_some'] at hcur1
          obtain ⟨c, hc1, rfl⟩ := hcur1
          simp only [Nat.zero_add] at hc1
          simp only [Nat.zero_add, hc1, Bool.false_eq_true, if_false]
          have : (((0 : Nat) : Int) + 1) = ((0 + 1 : Nat) : Int) := by norm_num
          rw [this, h2]
          congr 3
          omega

theorem set_after_insert {α : Type} : ∀ (cs : List α) (j : Nat) (c l r : α),
    cs[j]? = some c →
    (cs.take (j + 1) ++ r :: cs.drop (j + 1)).set j l = cs.take j ++ l :: r :: cs.drop (j + 1)
  | [], j, c, l, r, h => by simp at h
  | x :: xs, 0, c, l, r, _ => by simp
  | x :: xs, j + 1, c, l, r, h => by
    have := set_after_insert xs j c l r (by simpa using h)
    simpa using this

/-- What `split` computes on a parent whose child `j` is full. -/
theorem split_eq (kvs : List (K × V)) (cs : List (Node K V)) (j : Nat) (a b d : K × V)
    (gcs : List (Node K V)) (hc : cs[j]? = some (.mk [a, b, d] gcs))
    (hg : gcs = [] ∨ ∃ g0 g1 g2 g3, gcs = [g0, g1, g2, g3]) (hj : j ≤ kvs.length) :
    split (.mk kvs cs) j = some (.mk (kvs.take j ++ b :: kvs.drop j)
      (cs.take j ++ .mk [a] (gcs.take 2) :: .mk [d] (gcs.drop 2) :: cs.drop (j + 1))) := by
  have hlt : j < cs.length := (List.getElem?_eq_some_iff.mp hc).1
  have hset := fun l r => set_after_insert cs j _ l r hc
  rcases hg with rfl | ⟨g0, g1, g2, g3, rfl⟩
  · simp [split, Node.child, ArraySeq.get, ArraySeq.insert, ArraySeq.erase, hc, Node.leaf,
      hj, hset, Nat.succ_le_of_lt hlt]
  · simp [split, Node.child, ArraySeq.get, ArraySeq.insert, ArraySeq.erase, hc, Node.leaf,
      hj, hset, Nat.succ_le_of_lt hlt]

theorem Node.shape_full_cases {h : Nat} {c : Node K V} (hs : c.Shape h) (hf : c.full = true) :
    ∃ a b d gcs, c = .mk [a, b, d] gcs ∧
      (gcs = [] ∨ ∃ g0 g1 g2 g3, gcs = [g0, g1, g2, g3]) := by
  cases c with
  | mk kvs gcs =>
    simp only [Node.full, Node.keyvals_mk, beq_iff_eq] at hf
    match kvs, hf with
    | [a, b, d], _ =>
      refine ⟨a, b, d, gcs, rfl, ?_⟩
      match h, hs with
      | 1, ⟨hl, _, _⟩ =>
        left
        simpa [Node.leaf_iff] using hl
      | h + 2, ⟨_, _, h3, _⟩ =>
        right
        simp only [Node.children_mk, Node.keyvals_mk, List.length_cons, List.length_nil] at h3
        match gcs, h3 with
        | [g0, g1, g2, g3], _ => exact ⟨g0, g1, g2, g3, rfl⟩

/-- The halves of a full node hold the entries of the node around its middle entry. -/
theorem split_halves_entries (a b d : K × V) (gcs : List (Node K V))
    (hg : gcs = [] ∨ ∃ g0 g1 g2 g3, gcs = [g0, g1, g2, g3]) :
    (Node.mk [a] (gcs.take 2)).entries ++ b :: (Node.mk [d] (gcs.drop 2)).entries
      = (Node.mk [a, b, d] gcs).entries := by
  rcases hg with rfl | ⟨g0, g1, g2, g3, rfl⟩
  · simp [Node.entries_mk]
  · simp [Node.entries_mk, weave]

/-- The halves of a full node have the shape of the node. -/
theorem split_halves_shape (h : Nat) (a b d : K × V) (gcs : List (Node K V))
    (hs : (Node.mk [a, b, d] gcs).Shape h) :
    (Node.mk [a] (gcs.take 2)).Shape h ∧ (Node.mk [d] (gcs.drop 2)).Shape h := by
  match h, hs with
  | 1, ⟨hl, _, _⟩ =>
    have : gcs = [] := by simpa [Node.leaf_iff] using hl
    subst this
    simp [Node.Shape, Node.leaf]
  | h + 2, ⟨_, _, h3, h4⟩ =>
    simp only [Node.children_mk, Node.keyvals_mk, List.length_cons, List.length_nil] at h3
    match gcs, h3 with
    | [g0, g1, g2, g3], _ =>
      simp only [Node.children_mk] at h4
      simp only [Node.Shape, Node.keyvals_mk, Node.children_mk, List.length_cons,
        List.length_nil, List.take, List.drop, List.mem_cons, List.mem_singleton]
      refine ⟨⟨by simp, by simp, by simp, ?_⟩, ⟨by simp, by simp, by simp, ?_⟩⟩
      · rintro c (rfl | rfl | hc)
        · exact h4 _ (by simp)
        · exact h4 _ (by simp)
        · simp at hc
      · rintro c (rfl | rfl | hc)
        · exact h4 _ (by simp)
        · exact h4 _ (by simp)
        · simp at hc

/-- The parent of a split full child keeps the shape when it had room. -/
theorem split_shape (h : Nat) (kvs : List (K × V)) (cs : List (Node K V)) (j : Nat)
    (a b d : K × V) (gcs : List (Node K V)) (hc : cs[j]? = some (.mk [a, b, d] gcs))
    (h2 : kvs.length ≤ 2) (h3 : cs.length = kvs.length + 1)
    (h4 : ∀ c ∈ cs, c.Shape (h + 1)) :
    (Node.mk (kvs.take j ++ b :: kvs.drop j)
      (cs.take j ++ .mk [a] (gcs.take 2) :: .mk [d] (gcs.drop 2) :: cs.drop (j + 1))).Shape
      (h + 2) := by
  have hlt : j < cs.length := (List.getElem?_eq_some_iff.mp hc).1
  obtain ⟨hl, hr⟩ := split_halves_shape (h + 1) a b d gcs (h4 _ (List.getElem?_mem hc))
  simp only [Node.Shape, Node.keyvals_mk, Node.children_mk, List.length_append,
    List.length_cons, List.length_take, List.length_drop, List.mem_append, List.mem_cons]
  refine ⟨by omega, by omega, by omega, ?_⟩
  rintro c (hc' | rfl | rfl | hc')
  · exact h4 c (List.mem_of_mem_take hc')
  · exact hl
  · exact hr
  · exact h4 c (List.mem_of_mem_drop hc')

theorem inserted_ascending {key : K} {value : V} {l l' : List (K × V)}
    (h : Inserted key value l l') (hs : Ascending l) : Ascending l' := by
  obtain ⟨l1, l2, rfl, rfl, h1, h2⟩ := h
  simp only [Ascending, List.pairwise_append, List.pairwise_cons, List.mem_cons] at hs ⊢
  refine ⟨hs.1, ⟨h2, hs.2.1⟩, ?_⟩
  rintro a ha b (rfl | hb)
  · exact h1 a ha
  · exact hs.2.2 a ha b hb

theorem Node.keyvals_subset_entries {h : Nat} {n : Node K V} (hs : n.Shape h) :
    ∀ x ∈ n.keyvals, x ∈ n.entries := by
  intro x hx
  match h, hs with
  | 1, ⟨hl, _, _⟩ => rwa [Node.entries_of_leaf n hl]
  | h + 2, ⟨_, _, h3, _⟩ =>
    rw [Node.entries_of_children n h3, mem_weave x _ _ (by simpa using h3)]
    exact Or.inl hx

theorem rank_insert (key : K) (b : K × V) : ∀ (kvs : List (K × V)),
    rank key (kvs.take (rank key kvs) ++ b :: kvs.drop (rank key kvs))
      = if b.1 < key then rank key kvs + 1 else rank key kvs
  | [] => by
    obtain ⟨bk, bv⟩ := b
    simp [rank]
  | (k, v) :: kvs => by
    obtain ⟨bk, bv⟩ := b
    by_cases hlt : k < key
    · have := rank_insert key (bk, bv) kvs
      simp only [rank, hlt, if_true, List.take_succ_cons, List.drop_succ_cons, List.cons_append,
        this]
      split <;> rfl
    · by_cases hb : bk < key
      · simp [rank, hlt, hb]
      · simp [rank, hlt, hb]

/-- The leaf case of `insert`: the entry goes to its rank. -/
theorem insert_loop_leaf (key : K) (value : V) (fuel : Nat) (n : Node K V) (index : Int)
    (hs : n.Shape 1) (ha : Ascending n.entries) (hf : n.full = false)
    (hne : ∀ x ∈ n.entries, x.1 ≠ key) :
    ∃ n', insert_loop key value (fuel + 1) n index = .ok n' ∧ n'.Shape 1 ∧
      Inserted key value n.entries n'.entries := by
  obtain ⟨hl, h1, h2⟩ := hs
  rw [Node.entries_of_leaf n hl] at ha hne ⊢
  obtain ⟨cur, hcur, hfor⟩ := insert_for_eq key n (index, .same) h1 hne
    (fun h => by simp [hl] at h)
  simp only [cursorAt, hl, if_true, Option.some.injEq] at hcur
  subst hcur
  have hr := rank_le_length key n.keyvals
  have hlen : n.keyvals.length ≤ 2 := by
    simp only [Node.full, beq_eq_false_iff_ne, ne_eq] at hf
    omega
  have hch : n.children = [] := (Node.leaf_iff n).mp hl
  refine ⟨.mk (n.keyvals.take (rank key n.keyvals) ++ (key, value) ::
    n.keyvals.drop (rank key n.keyvals)) n.children, ?_, ?_, ?_⟩
  · rw [insert_loop, hfor]
    simp [ArraySeq.insert, hr]
  · refine ⟨by simpa [Node.leaf] using hch, by simp; omega, ?_⟩
    simp only [Node.keyvals_mk, List.length_append, List.length_cons, List.length_take,
      List.length_drop]
    omega
  · rw [hch, Node.entries_leaf]
    refine ⟨_, _, (List.take_append_drop _ _).symm, rfl, rank_lt_of_mem_take key _, ?_⟩
    intro x hx
    have h1 := ascending_drop_rank key n.keyvals ha x hx
    exact lt_of_le_of_ne h1 (Ne.symm (hne x (List.mem_of_mem_drop hx)))

theorem Node.setChild_shape {h : Nat} (n : Node K V) (i : Nat) (c : Node K V)
    (hs : n.Shape (h + 2)) (hc : c.Shape (h + 1)) : (n.setChild i c).Shape (h + 2) := by
  obtain ⟨h1, h2, h3, h4⟩ := hs
  refine ⟨h1, h2, by simpa [Node.setChild] using h3, ?_⟩
  intro x hx
  simp only [Node.setChild, Node.children_mk] at hx
  rcases List.mem_or_eq_of_mem_set hx with hx | rfl
  · exact h4 x hx
  · exact hc

/-- The descent of `insert` into a child that has room. -/
theorem insert_loop_descend (key : K) (value : V) (h fuel : Nat) (n : Node K V) (index : Int)
    (hs : n.Shape (h + 2)) (ha : Ascending n.entries) (hne : ∀ x ∈ n.entries, x.1 ≠ key)
    (hroom : ∀ c, n.child (rank key n.keyvals) = some c → c.full = false)
    (ih : ∀ (c : Node K V) (index : Int), c.Shape (h + 1) → Ascending c.entries →
      c.full = false → (∀ x ∈ c.entries, x.1 ≠ key) →
      ∃ c', insert_loop key value fuel c index = .ok c' ∧ c'.Shape (h + 1) ∧
        Inserted key value c.entries c'.entries) :
    ∃ n', insert_loop key value (fuel + 1) n index = .ok n' ∧ n'.Shape (h + 2) ∧
      Inserted key value n.entries n'.entries := by
  have hsub := Node.keyvals_subset_entries hs
  obtain ⟨h1, h2, h3, h4⟩ := id hs
  have hnl : n.leaf = false := by
    cases hl : n.leaf with
    | false => rfl
    | true => rw [Node.leaf_iff] at hl; simp [hl] at h3
  obtain ⟨c, A, B, hc, he, hA, hB, hB', hhead, hset, -⟩ := Node.locate n key h3 ha
  have hB2 := Node.locate_above n key B hB hB' hhead
    (fun kv hkv => hne kv (hsub kv (List.getElem?_mem hkv)))
  obtain ⟨cur, hcur, hfor⟩ := insert_for_eq key n (index, .same) h1
    (fun x hx => hne x (hsub x hx))
    (fun _ j hj => ⟨n.children[j], by
      simp only [Node.child, ArraySeq.get]
      exact List.getElem?_eq_getElem (by omega)⟩)
  simp only [cursorAt, hnl, Bool.false_eq_true, if_false, hc, Option.map_some',
    Option.some.injEq] at hcur
  subst hcur
  have hcs : Ascending c.entries := by
    rw [he] at ha
    exact (List.pairwise_append.mp (List.pairwise_append.mp ha).1).2.1
  have hcne : ∀ x ∈ c.entries, x.1 ≠ key := fun x hx => hne x (by rw [he]; simp [hx])
  obtain ⟨c', hrun, hshape, l1, l2, hl, hl', hl1, hl2⟩ :=
    ih c (rank key n.keyvals : Nat) (h4 c (List.getElem?_mem hc)) hcs (hroom c hc) hcne
  refine ⟨n.setChild (rank key n.keyvals) c', ?_, Node.setChild_shape n _ c' hs hshape, ?_⟩
  · rw [insert_loop, hfor]
    simp [hroom c hc, hrun]
  · refine ⟨A ++ l1, l2 ++ B, ?_, ?_, ?_, ?_⟩
    · rw [he, hl]; simp
    · rw [hset, hl']; simp
    · intro x hx
      rcases List.mem_append.mp hx with hx | hx
      · exact hA x hx
      · exact hl1 x hx
    · intro x hx
      rcases List.mem_append.mp hx with hx | hx
      · exact hl2 x hx
      · exact hB2 x hx

theorem getElem?_around {α : Type} (pre post : List α) (x y : α) :
    (pre ++ x :: y :: post)[pre.length]? = some x ∧
      (pre ++ x :: y :: post)[pre.length + 1]? = some y := by
  induction pre with
  | nil => simp
  | cons p pre ih => simpa using ih

/-- The step of `insert` that splits the full child the key leads to, and what is true of the
parent afterwards. -/
theorem insert_split_step (key : K) (h : Nat) (n : Node K V)
    (hs : n.Shape (h + 2)) (ha : Ascending n.entries) (hf : n.keyvals.length ≤ 2)
    (c : Node K V)
    (hc : n.child (rank key n.keyvals) = some c) (hfull : c.full = true) :
    ∃ n2, split n (rank key n.keyvals) = some n2 ∧ n2.Shape (h + 2) ∧ n2.entries = n.entries ∧
      ∀ c2, n2.child (rank key n2.keyvals) = some c2 → c2.full = false := by
  obtain ⟨h1, h2, h3, h4⟩ := id hs
  obtain ⟨a, b, d, gcs, rfl, hg⟩ := Node.shape_full_cases (h4 c (List.getElem?_mem hc)) hfull
  have hc' : n.children[rank key n.keyvals]? = some (.mk [a, b, d] gcs) := hc
  have hr := rank_le_length key n.keyvals
  obtain ⟨c0, A, B, hc0, he, -, -, -, -, -, hsplit⟩ := Node.locate n key h3 ha
  rw [hc] at hc0
  simp only [Option.some.injEq] at hc0
  subst hc0
  refine ⟨_, ?_, split_shape h n.keyvals n.children _ a b d gcs hc' hf h3 h4, ?_, ?_⟩
  · conv_lhs => rw [← Node.eta n]
    exact split_eq n.keyvals n.children _ a b d gcs hc' hg hr
  · rw [hsplit, split_halves_entries a b d gcs hg, he]
  · intro c2 hc2
    have hlen : (n.children.take (rank key n.keyvals)).length = rank key n.keyvals := by
      simp only [List.length_take]
      omega
    have har := getElem?_around (n.children.take (rank key n.keyvals))
      (n.children.drop (rank key n.keyvals + 1)) (Node.mk [a] (gcs.take 2))
      (Node.mk [d] (gcs.drop 2))
    rw [hlen] at har
    simp only [Node.keyvals_mk, rank_insert, Node.child, ArraySeq.get, Node.children_mk] at hc2
    split at hc2
    · rw [har.2] at hc2
      simp only [Option.some.injEq] at hc2
      subst hc2
      rfl
    · rw [har.1] at hc2
      simp only [Option.some.injEq] at hc2
      subst hc2
      rfl

/-- `insert` below a node that has room: with enough fuel the loop returns, the subtree keeps
its shape and gains exactly the new entry, at its place in the order. -/
theorem insert_loop_ok (key : K) (value : V) : ∀ (h fuel : Nat) (n : Node K V) (index : Int),
    n.Shape h → Ascending n.entries → n.full = false → (∀ x ∈ n.entries, x.1 ≠ key) →
    2 * h ≤ fuel →
    ∃ n', insert_loop key value fuel n index = .ok n' ∧ n'.Shape h ∧
      Inserted key value n.entries n'.entries
  | 0, _, _, _, hs, _, _, _, _ => by simp [Node.Shape] at hs
  | 1, fuel + 1, n, index, hs, ha, hf, hne, _ =>
    insert_loop_leaf key value fuel n index hs ha hf hne
  | h + 2, fuel + 2, n, index, hs, ha, hf, hne, hfuel => by
    have hsub := Node.keyvals_subset_entries hs
    obtain ⟨h1, h2, h3, h4⟩ := id hs
    have hr := rank_le_length key n.keyvals
    obtain ⟨c, hc⟩ : ∃ c, n.child (rank key n.keyvals) = some c :=
      ⟨n.children[rank key n.keyvals], by
        simp only [Node.child, ArraySeq.get]
        exact List.getElem?_eq_getElem (by omega)⟩
    cases hfull : c.full with
    | false =>
      exact insert_loop_descend key value h (fuel + 1) n index hs ha hne
        (fun c' hc' => by rw [hc] at hc'; simp only [Option.some.injEq] at hc'; rwa [← hc'])
        (fun c' index' s1 s2 s3 s4 =>
          insert_loop_ok key value (h + 1) (fuel + 1) c' index' s1 s2 s3 s4 (by omega))
    | true =>
      have hlen : n.keyvals.length ≤ 2 := by
        simp only [Node.full, beq_eq_false_iff_ne, ne_eq] at hf
        omega
      obtain ⟨n2, hsp, hshape2, hent2, hroom2⟩ :=
        insert_split_step key h n hs ha hlen c hc hfull
      have hnl : n.leaf = false := by
        cases hl : n.leaf with
        | false => rfl
        | true => rw [Node.leaf_iff] at hl; simp [hl] at h3
      obtain ⟨cur, hcur, hfor⟩ := insert_for_eq key n (index, .same) h1
        (fun x hx => hne x (hsub x hx))
        (fun _ j hj => ⟨n.children[j], by
          simp only [Node.child, ArraySeq.get]
          exact List.getElem?_eq_getElem (by omega)⟩)
      simp only [cursorAt, hnl, Bool.false_eq_true, if_false, hc, Option.map_some',
        Option.some.injEq] at hcur
      subst hcur
      obtain ⟨n', hrun, hshape, hins⟩ :=
        insert_loop_descend key value h fuel n2 (rank key n.keyvals : Nat) hshape2
          (by rw [hent2]; exact ha) (by rw [hent2]; exact hne) hroom2
          (fun c' index' s1 s2 s3 s4 =>
            insert_loop_ok key value (h + 1) fuel c' index' s1 s2 s3 s4 (by omega))
      refine ⟨n', ?_, hshape, by rw [← hent2]; exact hins⟩
      rw [insert_loop, hfor]
      simp [hfull, hsp, hrun]

/-- `insert` of an absent key into a map that satisfies the invariants: with enough fuel it
returns, the invariants hold afterwards (the tree is as high as before or one level higher),
the entries gain exactly the new one at its place in the order, and `count` grows by one. -/
theorem insert_ok (h : Nat) (t : BTreeMap K V) (key : K) (value : V) (fuel : Nat)
    (hinv : t.TreeInv h) (hne : ∀ x ∈ t.entries, x.1 ≠ key) (hfuel : 2 * h + 1 ≤ fuel) :
    ∃ t' h', insert fuel t key value = .ok t' ∧ (h' = h ∨ h' = h + 1) ∧ t'.TreeInv h' ∧
      Inserted key value t.entries t'.entries ∧ t'.count = t.count + 1 := by
  obtain ⟨count, root⟩ := t
  cases root with
  | none =>
    simp only [TreeInv] at hinv
    subst hinv
    refine ⟨⟨count + 1, some (.mk [(key, value)] [])⟩, 1, rfl, Or.inr rfl, ?_, ?_, rfl⟩
    · simp [TreeInv, Node.WF, Node.leaf]
    · exact ⟨[], [], rfl, rfl, by simp, by simp⟩
  | some r =>
    simp only [TreeInv, Node.wf_iff] at hinv
    obtain ⟨hs, ha⟩ := hinv
    simp only [entries] at hne ⊢
    cases hfull : r.full with
    | false =>
      obtain ⟨r', hrun, hshape, hins⟩ :=
        insert_loop_ok key value h fuel r (-1) hs ha hfull hne (by omega)
      refine ⟨⟨count + 1, some r'⟩, h, ?_, Or.inl rfl, ?_, hins, rfl⟩
      · simp [insert, hfull, hrun]
      · simp only [TreeInv, Node.wf_iff]
        exact ⟨hshape, inserted_ascending hins ha⟩
    | true =>
      obtain ⟨a, b, d, gcs, rfl, hg⟩ := Node.shape_full_cases hs hfull
      match h, hs with
      | h + 1, hs =>
        have hsp := split_eq ([] : List (K × V)) [Node.mk [a, b, d] gcs] 0 a b d gcs rfl hg
          (le_refl _)
        have hshape2 := split_shape h ([] : List (K × V)) [Node.mk [a, b, d] gcs] 0 a b d gcs
          rfl (by simp) rfl (by simpa using hs)
        simp only [List.take_nil, List.drop_nil, List.nil_append, List.take_zero, List.drop_succ_cons,
          List.drop_zero] at hsp hshape2
        have hent2 : (Node.mk [b] [Node.mk [a] (gcs.take 2), Node.mk [d] (gcs.drop 2)]).entries
            = (Node.mk [a, b, d] gcs).entries := by
          rw [← split_halves_entries a b d gcs hg]
          simp [Node.entries_mk, weave]
        cases fuel with
        | zero => omega
        | succ fuel =>
          obtain ⟨r', hrun, hshape, hins⟩ :=
            insert_loop_descend key value h fuel _ (-1) hshape2
              (by rw [hent2]; exact ha) (by rw [hent2]; exact hne)
              (fun c2 hc2 => by
                have hr : rank key [b] ≤ 1 := rank_le_length key [b]
                simp only [Node.keyvals_mk, Node.child, ArraySeq.get, Node.children_mk] at hc2
                rcases Nat.le_one_iff_eq_zero_or_eq_one.mp hr with h0 | h1
                · rw [h0] at hc2
                  simp only [List.getElem?_cons_zero, Option.some.injEq] at hc2
                  subst hc2
                  rfl
                · rw [h1] at hc2
                  simp only [List.getElem?_cons_succ, List.getElem?_cons_zero,
                    Option.some.injEq] at hc2
                  subst hc2
                  rfl)
              (fun c' index' s1 s2 s3 s4 =>
                insert_loop_ok key value (h + 1) fuel c' index' s1 s2 s3 s4 (by omega))
          refine ⟨⟨count + 1, some r'⟩, h + 2, ?_, Or.inr rfl, ?_, by rw [← hent2]; exact hins,
            rfl⟩
          · simp only [insert, hfull, if_true, hsp]
            simp [Node.full, hrun]
          · simp only [TreeInv, Node.wf_iff]
            exact ⟨hshape, inserted_ascending hins (by rw [hent2]; exact ha)⟩

theorem treeInv_ascending {h : Nat} {t : BTreeMap K V} (hinv : t.TreeInv h) :
    Ascending t.entries := by
  obtain ⟨count, root⟩ := t
  cases root with
  | none => simp [entries, Ascending]
  | some r =>
    simp only [TreeInv, Node.wf_iff] at hinv
    exact hinv.2

/-- With enough fuel `sorted_keys` returns the keys of the stored entries, in traversal
order. -/
theorem sorted_keys_eq (h : Nat) (t : BTreeMap K V) (fuel : Nat) (hinv : t.TreeInv h)
    (hfuel : h ≤ fuel) : sorted_keys fuel t = .ok (t.entries.map Prod.fst) := by
  obtain ⟨count, root⟩ := t
  cases root with
  | none => rfl
  | some r =>
    simp only [TreeInv, Node.wf_iff] at hinv
    simpa [sorted_keys, entries] using sorted_keys_node_eq h fuel r [] hinv.1 hfuel

/-- With enough fuel `contains` tells whether the key is stored. -/
theorem contains_eq (h : Nat) (t : BTreeMap K V) (fuel : Nat) (hinv : t.TreeInv h)
    (hfuel : h ≤ fuel) (key : K) :
    contains fuel t key = .ok (decide (key ∈ t.entries.map Prod.fst)) := by
  obtain ⟨count, root⟩ := t
  cases root with
  | none => cases fuel <;> simp [contains, contains_loop, entries]
  | some r =>
    simp only [TreeInv, Node.wf_iff] at hinv
    exact contains_loop_eq h fuel r key hinv.1 hinv.2 hfuel

/-- With enough fuel `operator[]` returns the stored value of the key, and raises when there
is none. -/
theorem operator_index_eq (h : Nat) (t : BTreeMap K V) (fuel : Nat) (hinv : t.TreeInv h)
    (hfuel : h ≤ fuel) (key : K) :
    operator_index fuel t key =
      match stored key t.entries with
      | some v => .ok v
      | none => .raised () := by
  obtain ⟨count, root⟩ := t
  cases root with
  | none => simp [operator_index, index_loop_none, entries, stored]
  | some r =>
    simp only [TreeInv, Node.wf_iff] at hinv
    exact index_loop_eq h fuel r key none hinv.1 hinv.2 hfuel

/-- With enough fuel `next_key` returns the first stored key above the key, when there is
one. -/
theorem next_key_eq (h : Nat) (t : BTreeMap K V) (fuel : Nat) (hinv : t.TreeInv h)
    (hfuel : h ≤ fuel) (key out : K) :
    next_key fuel t key out =
      .ok (match successor key t.entries with
        | some k => (true, k)
        | none => (false, out)) := by
  obtain ⟨count, root⟩ := t
  cases root with
  | none => simp [next_key, empty, entries, successor]
  | some r =>
    simp only [TreeInv, Node.wf_iff] at hinv
    simp only [next_key, empty, Option.isNone_some, Bool.false_eq_true, if_false, entries,
      next_key_loop_eq h fuel r key none hinv.1 hinv.2 hfuel]
    cases successor key r.entries <;> rfl

/-- In strictly increasing entries the first key above `key` is the smallest one. -/
theorem successor_some (key : K) (l : List (K × V)) (hs : Ascending l) (s : K)
    (hmem : s ∈ l.map Prod.fst) (hgt : key < s)
    (hmin : ∀ s' ∈ l.map Prod.fst, key < s' → s ≤ s') : successor key l = some s := by
  induction l with
  | nil => simp at hmem
  | cons x l ih =>
    simp only [Ascending, List.pairwise_cons] at hs
    by_cases hx : key < x.1
    · have h1 : s ≤ x.1 := hmin x.1 (by simp) hx
      have h2 : x.1 ≤ s := by
        simp only [List.map_cons, List.mem_cons, List.mem_map] at hmem
        rcases hmem with rfl | ⟨y, hy, rfl⟩
        · exact le_refl _
        · exact le_of_lt (hs.1 y hy)
      have hxs : x.1 = s := le_antisymm h2 h1
      simp only [successor, List.find?_cons, hx, decide_True, Option.map_some']
      rw [hxs]
    · have hne : s ≠ x.1 := fun e => hx (e ▸ hgt)
      have hmem' : s ∈ l.map Prod.fst := by
        simp only [List.map_cons, List.mem_cons] at hmem
        rcases hmem with h | h
        · exact absurd h hne
        · exact h
      have := ih hs.2 hmem' (fun s' hs' => hmin s' (by simp only [List.map_cons, List.mem_cons]; exact Or.inr hs'))
      simpa [successor, List.find?_cons, hx] using this

theorem successor_none (key : K) (l : List (K × V))
    (h : ∀ s ∈ l.map Prod.fst, ¬ key < s) : successor key l = none := by
  simp only [successor, Option.map_eq_none', List.find?_eq_none, decide_eq_true_eq]
  intro x hx
  exact h x.1 (List.mem_map_of_mem _ hx)

/-! ### height -/

theorem height_node_eq : ∀ (h fuel : Nat) (n : Node K V),
    n.Shape h → h ≤ fuel → height_node fuel n = .ok (h : Int)
  | 0, _, _, hs, _ => by simp [Node.Shape] at hs
  | 1, fuel + 1, n, hs, _ => by
    obtain ⟨hl, h1, -⟩ := hs
    have : n.keyvals.length ≠ 0 := by omega
    simp [height_node, this, hl]
  | h + 2, fuel + 1, n, hs, hf => by
    obtain ⟨h1, h2, h3, h4⟩ := hs
    have hnl : n.leaf = false := by
      cases hl : n.leaf with
      | false => rfl
      | true => rw [Node.leaf_iff] at hl; simp [hl] at h3
    have hne : n.keyvals.length ≠ 0 := by omega
    have hc0 : n.child 0 = some n.children[0] := by
      simp only [Node.child, ArraySeq.get]
      exact List.getElem?_eq_getElem (by omega)
    have hc1 : n.child 1 = some n.children[1] := by
      simp only [Node.child, ArraySeq.get]
      exact List.getElem?_eq_getElem (by omega)
    have e0 := height_node_eq (h + 1) fuel n.children[0] (h4 _ (List.getElem_mem _)) (by omega)
    have e1 := height_node_eq (h + 1) fuel n.children[1] (h4 _ (List.getElem_mem _)) (by omega)
    simp only [height_node, hne, if_false, hnl, Bool.false_eq_true, hc0, e0, hc1, e1,
      gt_iff_lt, lt_irrefl]
    push_cast
    rfl

/-! ### copy and clear -/

theorem Node.depth_le_of_mem : ∀ (cs : List (Node K V)) (c : Node K V),
    c ∈ cs → c.depth ≤ Node.depthList cs
  | [], c, h => by simp at h
  | x :: xs, c, h => by
    simp only [List.mem_cons] at h
    simp only [Node.depthList]
    rcases h with rfl | h
    · exact le_max_left _ _
    · exact le_trans (Node.depth_le_of_mem xs c h) (le_max_right _ _)

theorem Node.depth_child (n c : Node K V) (h : c ∈ n.children) : c.depth + 1 ≤ n.depth := by
  cases n with
  | mk kvs cs =>
    simp only [Node.depth]
    exact Nat.succ_le_succ (Node.depth_le_of_mem cs c h)

theorem copy_for_eq (visit : Node K V → Outcome Unit (Node K V)) :
    ∀ (cs : List (Node K V)) (done : List (Node K V)),
      (∀ c ∈ cs, visit c = .ok c) → copy_for visit cs done.length done = .ok (done ++ cs)
  | [], done, _ => by simp [copy_for]
  | c :: cs, done, h => by
    have ih := copy_for_eq visit cs (done ++ [c]) (fun x hx => h x (by simp [hx]))
    simp only [List.length_append, List.length_singleton, List.append_assoc,
      List.singleton_append] at ih
    simp [copy_for, h c (by simp), ArraySeq.insert, ih]

/-- With enough fuel `copy` returns a node equal to the one it is given. -/
theorem copy_node_eq : ∀ (fuel : Nat) (n : Node K V), n.depth ≤ fuel → copy_node fuel n = .ok n
  | 0, n, h => by cases n; simp [Node.depth] at h
  | fuel + 1, n, h => by
    have := copy_for_eq (copy_node fuel) n.children []
      (fun c hc => copy_node_eq fuel c (by have := Node.depth_child n c hc; omega))
    simp only [List.length_nil, List.nil_append] at this
    simp [copy_node, this, Node.eta]

theorem clear_for_eq (visit : Node K V → Outcome Unit (Node K V)) :
    ∀ (cs : List (Node K V)), (∀ c ∈ cs, ∃ c', visit c = .ok c') → clear_for visit cs = .ok ()
  | [], _ => rfl
  | c :: cs, h => by
    obtain ⟨c', hc'⟩ := h c (by simp)
    simp [clear_for, hc', clear_for_eq visit cs (fun x hx => h x (by simp [hx]))]

/-- With enough fuel `clear(Node *)` returns. -/
theorem clear_node_eq : ∀ (fuel : Nat) (n : Node K V), n.depth ≤ fuel →
    clear_node fuel n = .ok (.mk [] [])
  | 0, n, h => by cases n; simp [Node.depth] at h
  | fuel + 1, n, h => by
    have := clear_for_eq (clear_node fuel) n.children
      (fun c hc => ⟨_, clear_node_eq fuel c (by have := Node.depth_child n c hc; omega)⟩)
    simp [clear_node, this]

/-! ### find_keys -/

theorem in_range_iff (k1 k2 key : K) : in_range k1 k2 key = decide (k1 ≤ key ∧ key ≤ k2) := by
  simp [in_range, Bool.decide_and]

theorem find_keys_for_eq (k1 k2 : K) (visitF visitS : Node K V → List K → Outcome Unit (List K))
    (n : Node K V)
    (hv : ∀ c keys, visitF c (keys.filter (in_range k1 k2))
      = Outcome.map (List.filter (in_range k1 k2)) (visitS c keys)) :
    ∀ (kvs : List (K × V)) (i : Nat) (keys : List K),
      find_keys_for k1 k2 visitF n kvs i (keys.filter (in_range k1 k2))
        = Outcome.map (List.filter (in_range k1 k2)) (sorted_keys_for visitS n kvs i keys)
  | [], i, keys => by
    simp only [find_keys_for, sorted_keys_for]
    cases n.child i with
    | none => rfl
    | some c => exact hv c keys
  | (k, v) :: kvs, i, keys => by
    simp only [find_keys_for, sorted_keys_for]
    cases n.child i with
    | none => rfl
    | some c =>
      simp only [hv c keys]
      cases visitS c keys with
      | ok keys' =>
        have ih := find_keys_for_eq k1 k2 visitF visitS n hv kvs (i + 1) (keys' ++ [k])
        have hk : (if in_range k1 k2 k = true then List.filter (in_range k1 k2) keys' ++ [k]
            else List.filter (in_range k1 k2) keys')
            = List.filter (in_range k1 k2) (keys' ++ [k]) := by
          by_cases hk : in_range k1 k2 k = true
          · simp [List.filter_append, hk]
          · simp [List.filter_append, hk]
        simp only [Outcome.map, hk]
        exact ih
      | raised s => rfl
      | fault => rfl
      | stuck => rfl

/-- On every node and with every fuel the helper of `find_keys` does what the helper of
`sorted_keys` does, keeping only the keys in range. -/
theorem find_keys_node_eq (k1 k2 : K) : ∀ (fuel : Nat) (n : Node K V) (keys : List K),
    find_keys_node k1 k2 fuel n (keys.filter (in_range k1 k2))
      = Outcome.map (List.filter (in_range k1 k2)) (sorted_keys_node fuel n keys)
  | 0, _, _ => rfl
  | fuel + 1, n, keys => by
    simp only [find_keys_node, sorted_keys_node]
    cases n.leaf with
    | true => simp [Outcome.map, List.filter_append]
    | false =>
      simp only [Bool.not_false, if_true]
      exact find_keys_for_eq k1 k2 _ _ n (fun c keys => find_keys_node_eq k1 k2 fuel c keys)
        n.keyvals 0 keys

/-! ### prev_key -/

/-- The `for` loop of `prev_key` on the entries from position `i` on. -/
theorem prev_key_for_eq (key : K) (n : Node K V) (m : Nat) :
    ∀ (kvs : List (K × V)) (i : Nat) (hold : Option K) (sn : Option (Node K V)),
    i + kvs.length = m →
    (n.leaf = false → ∀ j, j ≤ kvs.length → ∃ c, n.child (i + j) = some c) →
    prev_key_for key n m kvs i hold sn =
      some (lastBelow key hold kvs,
        if rank key kvs < kvs.length then
          (if n.leaf then none else n.child (i + rank key kvs))
        else if rank key kvs = 0 then sn
        else if n.leaf then sn else n.child (i + rank key kvs))
  | [], i, hold, sn, _, _ => by simp [prev_key_for, lastBelow, rank]
  | (k, v) :: kvs, i, hold, sn, hm, hc => by
    rcases lt_trichotomy key k with hlt | heq | hgt
    · have hn : ¬ k < key := not_lt.mpr (le_of_lt hlt)
      cases hl : n.leaf with
      | true => simp [prev_key_for, lastBelow, rank, hlt, hn, hl]
      | false =>
        obtain ⟨c, hc0⟩ := hc hl 0 (Nat.zero_le _)
        simp only [Nat.add_zero] at hc0
        simp [prev_key_for, lastBelow, rank, hlt, hn, hl, hc0]
    · subst heq
      cases hl : n.leaf with
      | true => simp [prev_key_for, lastBelow, rank, hl]
      | false =>
        obtain ⟨c, hc0⟩ := hc hl 0 (Nat.zero_le _)
        simp only [Nat.add_zero] at hc0
        simp [prev_key_for, lastBelow, rank, hl, hc0]
    · have hn1 : ¬ key < k := not_lt.mpr (le_of_lt hgt)
      have hn2 : ¬ key = k := ne_of_gt hgt
      simp only [List.length_cons] at hm
      have hc' : n.leaf = false → ∀ j, j ≤ kvs.length → ∃ c, n.child (i + 1 + j) = some c := by
        intro hl j hj
        obtain ⟨c, hcj⟩ := hc hl (j + 1) (by simp only [List.length_cons]; omega)
        exact ⟨c, by rw [← hcj]; congr 1; omega⟩
      have hr := rank_le_length key kvs
      simp only [prev_key_for, hn1, hn2, if_false, gt_iff_lt, hgt, if_true, lastBelow, rank,
        List.length_cons]
      by_cases hlast : i = m - 1 ∧ n.leaf = false
      · have hnil : kvs = [] := by
          have : kvs.length = 0 := by omega
          exact List.length_eq_zero.mp this
        subst hnil
        obtain ⟨c, hc1⟩ := hc hlast.2 1 (by simp)
        rw [if_pos hlast]
        simp [hc1, prev_key_for, lastBelow, rank, hlast.2]
      · rw [if_neg hlast, prev_key_for_eq key n m kvs (i + 1) (some k) sn (by omega) hc']
        have e : i + 1 + rank key kvs = i + (rank key kvs + 1) := by omega
        rw [e]
        by_cases hlt : rank key kvs < kvs.length
        · simp [hlt]
        · have heq : rank key kvs = kvs.length := by omega
          simp only [hlt, if_false, Nat.add_lt_add_iff_right, Nat.add_one_ne_zero]
          cases hl : n.leaf with
          | true =>
            by_cases h0 : rank key kvs = 0
            · simp [h0]
            · simp [h0]
          | false =>
            have hne : kvs.length ≠ 0 := by
              intro h0
              exact hlast ⟨by omega, hl⟩
            have h0 : rank key kvs ≠ 0 := by omega
            simp [h0]

theorem prev_key_loop_none (key : K) (fuel : Nat) (hold : Option K) :
    prev_key_loop key fuel (none : Option (Node K V)) hold = .ok hold := by
  cases fuel <;> rfl

/-- One iteration of the `while` loop of `prev_key`. -/
theorem prev_key_loop_step (key : K) (fuel : Nat) (n : Node K V) (hold : Option K)
    (h1 : 1 ≤ n.keyvals.length)
    (ha : n.leaf = true ∨ n.children.length = n.keyvals.length + 1) :
    prev_key_loop key (fuel + 1) (some n) hold =
      if n.leaf then .ok (lastBelow key hold n.keyvals)
      else prev_key_loop key fuel (n.child (rank key n.keyvals))
        (lastBelow key hold n.keyvals) := by
  have hchild : n.leaf = false → ∀ j, j ≤ n.keyvals.length → ∃ c, n.child (0 + j) = some c := by
    intro hl j hj
    rcases ha with ha | ha
    · simp [ha] at hl
    · refine ⟨n.children[j], ?_⟩
      simp only [Node.child, ArraySeq.get, Nat.zero_add]
      exact List.getElem?_eq_getElem (by omega)
  have hr := rank_le_length key n.keyvals
  rw [prev_key_loop, prev_key_for_eq key n n.keyvals.length n.keyvals 0 hold none (by simp) hchild]
  simp only [Nat.zero_add]
  cases hl : n.leaf with
  | true => simp [prev_key_loop_none]
  | false =>
    by_cases hlt : rank key n.keyvals < n.keyvals.length
    · simp [hlt]
    · have h0 : rank key n.keyvals ≠ 0 := by omega
      simp [hlt, h0]

/-- On strictly increasing entries `lastBelow` is the last key below `key`. -/
theorem lastBelow_eq (key : K) : ∀ (kvs : List (K × V)) (hold : Option K), Ascending kvs →
    lastBelow key hold kvs =
      match predecessor key kvs with
      | some k => some k
      | none => hold
  | [], hold, _ => rfl
  | (k, v) :: kvs, hold, hs => by
    simp only [Ascending, List.pairwise_cons] at hs
    by_cases hlt : k < key
    · have ih := lastBelow_eq key kvs (some k) hs.2
      simp only [lastBelow, hlt, if_true, ih, predecessor, List.filter_cons, decide_True]
      cases hf : List.filter (fun x => decide (x.1 < key)) kvs with
      | nil => simp
      | cons y ys =>
        obtain ⟨z, hz⟩ : ∃ z, (y :: ys).getLast? = some z :=
          ⟨(y :: ys).getLast (by simp), List.getLast?_eq_getLast _ _⟩
        simp [List.getLast?_cons_cons, hz]
    · have hnil : List.filter (fun x => decide (x.1 < key)) kvs = [] := by
        rw [List.filter_eq_nil_iff]
        intro x hx
        simp only [decide_eq_true_eq]
        exact fun hxk => hlt (lt_trans (hs.1 x hx) hxk)
      simp [lastBelow, hlt, predecessor, List.filter_cons, hnil]

/-- The child a search for `key` goes down to, the entries around it, and the last entry
before it. -/
theorem weave_below (key : K) : ∀ (kvs : List (K × V)) (cs : List (List (K × V))),
    cs.length = kvs.length + 1 → (weave kvs cs).Pairwise (fun a b => a.1 < b.1) →
    ∃ c A B, cs[rank key kvs]? = some c ∧ weave kvs cs = A ++ c ++ B ∧
      (∀ x ∈ A, x.1 < key) ∧ (∀ x ∈ B, ¬ x.1 < key) ∧
      ∀ hold : Option K, lastBelow key hold kvs =
        match A.getLast? with
        | some x => some x.1
        | none => hold
  | [], cs, hlen, _ => by
    match cs, hlen with
    | [c], _ => exact ⟨c, [], [], by simp [rank, weave, lastBelow]⟩
  | (k, v) :: kvs, cs, hlen, hs => by
    match cs, hlen with
    | c :: cs, hlen =>
      simp only [weave, List.pairwise_append, List.pairwise_cons] at hs
      obtain ⟨hc, ⟨hk, hw⟩, hck⟩ := hs
      by_cases hlt : k < key
      · have hlen' : cs.length = kvs.length + 1 := by simpa using hlen
        obtain ⟨c', A, B, h1, h2, h3, h4, h5⟩ := weave_below key kvs cs hlen' hw
        refine ⟨c', c ++ (k, v) :: A, B, ?_, ?_, ?_, h4, ?_⟩
        · simp [rank, hlt, h1]
        · simp [weave, h2]
        · intro x hx
          simp only [List.mem_append, List.mem_cons] at hx
          rcases hx with hx | rfl | hx
          · exact lt_trans (hck x hx (k, v) (by simp)) hlt
          · exact hlt
          · exact h3 x hx
        · intro hold
          simp only [lastBelow, hlt, if_true, h5]
          rw [List.getLast?_append_of_ne_nil _ (by simp)]
          cases A with
          | nil => simp
          | cons y ys =>
            obtain ⟨z, hz⟩ : ∃ z, (y :: ys).getLast? = some z :=
              ⟨(y :: ys).getLast (by simp), List.getLast?_eq_getLast _ _⟩
            simp [List.getLast?_cons_cons, hz]
      · refine ⟨c, [], (k, v) :: weave kvs cs, ?_, ?_, ?_, ?_, ?_⟩
        · simp [rank, hlt]
        · simp [weave]
        · simp
        · intro x hx
          simp only [List.mem_cons] at hx
          rcases hx with rfl | hx
          · exact hlt
          · exact fun hxk => hlt (lt_trans (hk x hx) hxk)
        · intro hold
          simp [lastBelow, hlt]

theorem Node.locate_below (n : Node K V) (key : K)
    (ha : n.children.length = n.keyvals.length + 1) (hs : Ascending n.entries) :
    ∃ c A B, n.child (rank key n.keyvals) = some c ∧ n.entries = A ++ c.entries ++ B ∧
      (∀ x ∈ A, x.1 < key) ∧ (∀ x ∈ B, ¬ x.1 < key) ∧
      ∀ hold : Option K, lastBelow key hold n.keyvals =
        match A.getLast? with
        | some x => some x.1
        | none => hold := by
  rw [Node.entries_of_children n ha] at hs
  obtain ⟨c, A, B, h1, h2, h3, h4, h5⟩ :=
    weave_below key n.keyvals (n.children.map Node.entries) (by simpa using ha) hs
  rw [List.getElem?_map] at h1
  obtain ⟨c', hc', rfl⟩ := Option.map_eq_some'.mp h1
  exact ⟨c', A, B, hc', by rw [Node.entries_of_children n ha, h2], h3, h4, h5⟩

theorem prev_key_loop_eq : ∀ (h fuel : Nat) (n : Node K V) (key : K) (hold : Option K),
    n.Shape h → Ascending n.entries → h ≤ fuel →
    prev_key_loop key fuel (some n) hold =
      .ok (match predecessor key n.entries with
        | some k => some k
        | none => hold)
  | 0, _, _, _, _, hs, _, _ => by simp [Node.Shape] at hs
  | 1, fuel + 1, n, key, hold, hs, ha, _ => by
    have hk := Node.ascending_keyvals hs ha
    obtain ⟨hl, h1, h2⟩ := hs
    rw [prev_key_loop_step key fuel n hold h1 (Or.inl hl), Node.entries_of_leaf n hl]
    simp only [hl, if_true, lastBelow_eq key n.keyvals hold hk]
  | h + 2, fuel + 1, n, key, hold, hs, ha, hf => by
    obtain ⟨h1, h2, h3, h4⟩ := hs
    have hnl : n.leaf = false := by
      cases hl : n.leaf with
      | false => rfl
      | true => rw [Node.leaf_iff] at hl; simp [hl] at h3
    obtain ⟨c, A, B, hc, he, hA, hB, hlast⟩ := Node.locate_below n key h3 ha
    have hcs : Ascending c.entries := by
      rw [he] at ha
      exact (List.pairwise_append.mp (List.pairwise_append.mp ha).1).2.1
    have ih := fun hold' => prev_key_loop_eq (h + 1) fuel c key hold'
      (h4 c (List.getElem?_mem hc)) hcs (by omega)
    rw [prev_key_loop_step key fuel n hold h1 (Or.inr h3)]
    simp only [hnl, hc, ih, Bool.false_eq_true, if_false, hlast]
    have hAf : A.filter (fun x => decide (x.1 < key)) = A := by
      rw [List.filter_eq_self]
      intro x hx
      simpa using hA x hx
    have hBf : B.filter (fun x => decide (x.1 < key)) = [] := by
      rw [List.filter_eq_nil_iff]
      intro x hx
      simpa using hB x hx
    have hpred : predecessor key n.entries
        = match predecessor key c.entries with
          | some k => some k
          | none => A.getLast?.map Prod.fst := by
      simp only [predecessor]
      rw [he, List.filter_append, List.filter_append, hAf, hBf, List.append_nil]
      cases hf : List.filter (fun x => decide (x.1 < key)) c.entries with
      | nil => simp
      | cons y ys =>
        rw [List.getLast?_append_of_ne_nil _ (by simp)]
        have : ∃ z, (y :: ys).getLast? = some z := ⟨(y :: ys).getLast (by simp), List.getLast?_eq_getLast _ _⟩
        obtain ⟨z, hz⟩ := this
        simp [hz]
    rw [hpred]
    cases predecessor key c.entries with
    | some k => rfl
    | none => cases A.getLast? <;> rfl

theorem prev_key_eq (h : Nat) (t : BTreeMap K V) (fuel : Nat) (hinv : t.TreeInv h)
    (hfuel : h ≤ fuel) (key out : K) :
    prev_key fuel t key out =
      .ok (match predecessor key t.entries with
        | some k => (true, k)
        | none => (false, out)) := by
  obtain ⟨count, root⟩ := t
  cases root with
  | none => simp [prev_key, empty, entries, predecessor]
  | some r =>
    simp only [TreeInv, Node.wf_iff] at hinv
    simp only [prev_key, empty, Option.isNone_some, Bool.false_eq_true, if_false, entries,
      prev_key_loop_eq h fuel r key none hinv.1 hinv.2 hfuel]
    cases predecessor key r.entries <;> rfl

/-- In strictly increasing entries the last key below `key` is the largest one. -/
theorem predecessor_some (key : K) (l : List (K × V)) (hs : Ascending l) (s : K)
    (hmem : s ∈ l.map Prod.fst) (hlt : s < key)
    (hmax : ∀ s' ∈ l.map Prod.fst, s' < key → s' ≤ s) : predecessor key l = some s := by
  have hne : l.filter (fun x => decide (x.1 < key)) ≠ [] := by
    obtain ⟨x, hx, rfl⟩ := List.mem_map.mp hmem
    intro hnil
    have := List.filter_eq_nil_iff.mp hnil x hx
    simp [hlt] at this
  have hlastmem := List.getLast_mem hne
  have hsub : (l.filter (fun x => decide (x.1 < key))).Pairwise (fun a b => a.1 < b.1) :=
    List.Pairwise.sublist (List.filter_sublist l) hs
  obtain ⟨x, hx, rfl⟩ := List.mem_map.mp hmem
  have hxf : x ∈ l.filter (fun x => decide (x.1 < key)) := by
    simp [List.mem_filter, hx, hlt]
  set z := (l.filter (fun x => decide (x.1 < key))).getLast hne with hz
  have hzk : z.1 < key := by
    have := (List.mem_filter.mp hlastmem).2
    simpa using this
  have hzl : z ∈ l := (List.mem_filter.mp hlastmem).1
  have h1 : z.1 ≤ x.1 := hmax z.1 (List.mem_map_of_mem _ hzl) hzk
  have h2 : x.1 ≤ z.1 := by
    obtain ⟨pre, hpre⟩ : ∃ pre, l.filter (fun x => decide (x.1 < key)) = pre ++ [z] :=
      ⟨_, (List.dropLast_append_getLast hne).symm⟩
    rw [hpre] at hxf hsub
    simp only [List.mem_append, List.mem_singleton] at hxf
    rcases hxf with hxp | rfl
    · exact le_of_lt ((List.pairwise_append.mp hsub).2.2 x hxp z (by simp))
    · exact le_refl _
  simp only [predecessor, List.getLast?_eq_getLast _ hne, Option.map_some']
  exact congrArg some (le_antisymm h1 h2)

theorem predecessor_none (key : K) (l : List (K × V))
    (h : ∀ s ∈ l.map Prod.fst, ¬ s < key) : predecessor key l = none := by
  have hnil : l.filter (fun x => decide (x.1 < key)) = [] := by
    rw [List.filter_eq_nil_iff]
    intro x hx
    simpa using h x.1 (List.mem_map_of_mem _ hx)
  simp [predecessor, hnil]

/-! ### insert of a key that may be stored -/

theorem slot_orElse (key : K) : ∀ (kvs : List (K × V)) (j : Nat) (s : Option Nat),
    slot key kvs j s = match slot key kvs j none with
      | some i => some i
      | none => s
  | [], _, _ => rfl
  | (k, v) :: kvs, j, s => by
    simp only [slot]
    by_cases hlt : key < k
    · simp [hlt]
    · by_cases hgt : key > k
      · simp only [hlt, hgt, if_false, if_true]
        rw [slot_orElse key kvs (j + 1) (some (j + 1))]
        cases slot key kvs (j + 1) none <;> rfl
      · simp only [hlt, hgt, if_false]
        exact slot_orElse key kvs (j + 1) s

theorem slot_none_shift (key : K) : ∀ (kvs : List (K × V)) (j j' : Nat),
    slot key kvs j none = none → slot key kvs j' none = none
  | [], _, _, _ => rfl
  | (k, v) :: kvs, j, j', h => by
    simp only [slot] at h ⊢
    by_cases hlt : key < k
    · simp [hlt] at h
    · by_cases hgt : key > k
      · simp only [hlt, hgt, if_false, if_true] at h
        rw [slot_orElse] at h
        cases hs : slot key kvs (j + 1) none with
        | none => simp [hs] at h
        | some i => simp [hs] at h
      · simp only [hlt, hgt, if_false] at h ⊢
        exact slot_none_shift key kvs (j + 1) (j' + 1) h

theorem slot_bound (key : K) : ∀ (kvs : List (K × V)) (j i : Nat),
    slot key kvs j none = some i → ∃ d, i = j + d ∧ d ≤ kvs.length
  | [], _, _, h => by simp [slot] at h
  | (k, v) :: kvs, j, i, h => by
    simp only [slot] at h
    by_cases hlt : key < k
    · simp only [hlt, if_true, Option.some.injEq] at h
      exact ⟨0, by omega, by simp⟩
    · by_cases hgt : key > k
      · simp only [hlt, hgt, if_false, if_true] at h
        rw [slot_orElse] at h
        cases hs : slot key kvs (j + 1) none with
        | none =>
          simp only [hs, Option.some.injEq] at h
          exact ⟨1, by omega, by simp⟩
        | some x =>
          simp only [hs, Option.some.injEq] at h
          obtain ⟨d, hd, hd'⟩ := slot_bound key kvs (j + 1) x hs
          exact ⟨d + 1, by omega, by simp; omega⟩
      · simp only [hlt, hgt, if_false] at h
        obtain ⟨d, hd, hd'⟩ := slot_bound key kvs (j + 1) i h
        exact ⟨d + 1, by omega, by simp; omega⟩

/-- After an entry is put in at the position the loop stopped at, the loop stops there or
one position later. -/
theorem slot_split (key : K) (b : K × V) : ∀ (kvs : List (K × V)) (j d : Nat),
    slot key kvs j none = some (j + d) →
    slot key (kvs.take d ++ b :: kvs.drop d) j none = some (j + d) ∨
      slot key (kvs.take d ++ b :: kvs.drop d) j none = some (j + d + 1)
  | [], _, _, h => by simp [slot] at h
  | (k, v) :: kvs, j, d, h => by
    obtain ⟨bk, bv⟩ := b
    simp only [slot] at h
    by_cases hlt : key < k
    · simp only [hlt, if_true, Option.some.injEq] at h
      have hd : d = 0 := by omega
      subst hd
      simp only [List.take_zero, List.nil_append, List.drop_zero, slot, hlt, if_true,
        Nat.add_zero]
      by_cases h1 : key < bk
      · simp [h1]
      · by_cases h2 : key > bk
        · simp [h1, h2]
        · simp [h1, h2]
    · by_cases hgt : key > k
      · simp only [hlt, hgt, if_false, if_true] at h
        rw [slot_orElse] at h
        cases hs : slot key kvs (j + 1) none with
        | none =>
          simp only [hs, Option.some.injEq] at h
          have hd : d = 1 := by omega
          subst hd
          have hs2 := slot_none_shift key kvs (j + 1) (j + 1 + 1) hs
          simp only [List.take_succ_cons, List.take_zero, List.drop_succ_cons, List.drop_zero,
            List.cons_append, List.nil_append, slot, hlt, hgt, if_false, if_true]
          by_cases h1 : key < bk
          · simp [h1]
          · by_cases h2 : key > bk
            · simp only [h1, h2, if_false, if_true]
              rw [slot_orElse, hs2]
              simp
            · simp only [h1, h2, if_false]
              rw [slot_orElse, hs2]
              simp
        | some x =>
          simp only [hs, Option.some.injEq] at h
          obtain ⟨d', hd1, -⟩ := slot_bound key kvs (j + 1) x hs
          have hd : d = d' + 1 := by omega
          subst hd
          have hx : slot key kvs (j + 1) none = some (j + 1 + d') := by rw [hs, hd1]
          have ih := slot_split key (bk, bv) kvs (j + 1) d' hx
          simp only [List.take_succ_cons, List.drop_succ_cons, List.cons_append, slot, hlt,
            hgt, if_false, if_true]
          rw [slot_orElse]
          simp only [List.append_eq]
          rcases ih with ih | ih
          · left; rw [ih]; simp only [Option.some.injEq]; omega
          · right; rw [ih]; simp only [Option.some.injEq]; omega
      · simp only [hlt, hgt, if_false] at h
        obtain ⟨d', hd1, -⟩ := slot_bound key kvs (j + 1) _ h
        have hd : d = d' + 1 := by omega
        subst hd
        have hx : slot key kvs (j + 1) none = some (j + 1 + d') := by rw [h, hd1]
        have ih := slot_split key (bk, bv) kvs (j + 1) d' hx
        simp only [List.take_succ_cons, List.drop_succ_cons, List.cons_append, slot, hlt,
          hgt, if_false, List.append_eq]
        rcases ih with ih | ih
        · left; rw [ih]; simp only [Option.some.injEq]; omega
        · right; rw [ih]; simp only [Option.some.injEq]; omega

/-- The `for` loop of `insert` on any node, the key stored in it or not. -/
theorem insert_for_slot (key : K) (n : Node K V) : ∀ (kvs : List (K × V)) (j : Nat)
    (st : Int × Cursor K V),
    (n.leaf = false → ∀ i, i ≤ kvs.length → ∃ c, n.child (j + i) = some c) →
    insert_for key n kvs j st =
      match slot key kvs j none with
      | none => some st
      | some i => (cursorAt n i).map (fun cur => ((i : Int), cur))
  | [], _, _, _ => rfl
  | (k, v) :: kvs, j, st, hc => by
    have hc' : n.leaf = false → ∀ i, i ≤ kvs.length → ∃ c, n.child (j + 1 + i) = some c := by
      intro hl i hi
      obtain ⟨c, hci⟩ := hc hl (i + 1) (by simp only [List.length_cons]; omega)
      exact ⟨c, by rw [← hci]; congr 1; omega⟩
    simp only [insert_for, slot]
    by_cases hlt : key < k
    · simp only [hlt, if_true, cursorAt]
      cases hl : n.leaf with
      | true => simp
      | false =>
        obtain ⟨c, hc0⟩ := hc hl 0 (Nat.zero_le _)
        simp only [Nat.add_zero] at hc0
        simp [hc0]
    · by_cases hgt : key > k
      · simp only [hlt, hgt, if_false, if_true]
        rw [slot_orElse key kvs (j + 1) (some (j + 1))]
        cases hl : n.leaf with
        | true =>
          simp only [if_true]
          rw [insert_for_slot key n kvs (j + 1) _ hc']
          cases slot key kvs (j + 1) none with
          | none => simp [cursorAt, hl]
          | some i => rfl
        | false =>
          obtain ⟨c, hc1⟩ := hc hl 1 (by simp)
          simp only [hc1, Bool.false_eq_true, if_false]
          rw [insert_for_slot key n kvs (j + 1) _ hc']
          cases slot key kvs (j + 1) none with
          | none => simp [cursorAt, hl, hc1]
          | some i => rfl
      · simp only [hlt, hgt, if_false]
        exact insert_for_slot key n kvs (j + 1) st hc'

/-- The child at a position of a node and the entries around it, whatever the order of the
entries. -/
theorem weave_at {α : Type} : ∀ (kvs : List α) (cs : List (List α)) (j : Nat),
    cs.length = kvs.length + 1 → j ≤ kvs.length →
    ∃ c A B, cs[j]? = some c ∧ weave kvs cs = A ++ c ++ B ∧
      (∀ c', weave kvs (cs.set j c') = A ++ c' ++ B) ∧
      (∀ l r b, weave (kvs.take j ++ b :: kvs.drop j) (cs.take j ++ l :: r :: cs.drop (j + 1))
        = A ++ (l ++ b :: r) ++ B)
  | [], cs, j, hlen, hj => by
    match cs, hlen with
    | [c], _ =>
      have : j = 0 := by simpa using hj
      subst this
      exact ⟨c, [], [], by simp [weave]⟩
  | kv :: kvs, cs, 0, hlen, _ => by
    match cs, hlen with
    | c :: cs, hlen => exact ⟨c, [], kv :: weave kvs cs, by simp [weave]⟩
  | kv :: kvs, cs, j + 1, hlen, hj => by
    match cs, hlen with
    | c :: cs, hlen =>
      obtain ⟨c', A, B, h1, h2, h3, h4⟩ :=
        weave_at kvs cs j (by simpa using hlen) (by simpa using hj)
      refine ⟨c', c ++ kv :: A, B, by simpa using h1, by simp [weave, h2], ?_, ?_⟩
      · intro c''
        simp [weave, h3]
      · intro l r b
        simp [weave, h4]

theorem Node.locate_at (n : Node K V) (j : Nat)
    (ha : n.children.length = n.keyvals.length + 1) (hj : j ≤ n.keyvals.length) :
    ∃ c A B, n.child j = some c ∧ n.entries = A ++ c.entries ++ B ∧
      (∀ c', (n.setChild j c').entries = A ++ c'.entries ++ B) ∧
      (∀ (l r : Node K V) (b : K × V),
        (Node.mk (n.keyvals.take j ++ b :: n.keyvals.drop j)
          (n.children.take j ++ l :: r :: n.children.drop (j + 1))).entries
          = A ++ (l.entries ++ b :: r.entries) ++ B) := by
  obtain ⟨c, A, B, h1, h2, h3, h4⟩ :=
    weave_at n.keyvals (n.children.map Node.entries) j (by simpa using ha) hj
  rw [List.getElem?_map] at h1
  obtain ⟨c', hc', rfl⟩ := Option.map_eq_some'.mp h1
  refine ⟨c', A, B, hc', ?_, ?_, ?_⟩
  · rw [Node.entries_of_children n ha, h2]
  · intro c''
    rw [Node.setChild_entries n _ c'' ha, h3]
  · intro l r b
    rw [Node.entries_mk, ← h4]
    simp [List.map_take, List.map_drop]

/-- The descent of `insert` into the child at the position the loop stopped at, when that
child has room. -/
theorem insert_loop_into (key : K) (value : V) (f : Nat) (n : Node K V) (index : Int)
    (i : Nat) (ha : n.children.length = n.keyvals.length + 1)
    (hs : slot key n.keyvals 0 none = some i)
    (hnf : ∀ c, n.child i = some c → c.full = false)
    (hrec : ∀ c, n.child i = some c →
      insert_loop key value f c (i : Int) = .stuck ∨
        ∃ c', insert_loop key value f c (i : Int) = .ok c' ∧
          Added key value c.entries c'.entries) :
    insert_loop key value (f + 1) n index = .stuck ∨
      ∃ n', insert_loop key value (f + 1) n index = .ok n' ∧
        Added key value n.entries n'.entries := by
  obtain ⟨d, hd, hdl⟩ := slot_bound key n.keyvals 0 i hs
  obtain ⟨c, A, B, hc, he, hset, -⟩ := Node.locate_at n i ha (by omega)
  have hnl : n.leaf = false := by
    cases hl : n.leaf with
    | false => rfl
    | true => rw [Node.leaf_iff] at hl; simp [hl] at ha
  have hfor : insert_for key n n.keyvals 0 (index, .same) = some ((i : Int), .child c) := by
    rw [insert_for_slot key n n.keyvals 0 _ (fun _ j hj => ⟨n.children[j], by
      simp only [Node.child, ArraySeq.get, Nat.zero_add]
      exact List.getElem?_eq_getElem (by omega)⟩), hs]
    simp [cursorAt, hnl, hc]
  rw [insert_loop, hfor]
  simp only [hnf c hc, Bool.false_eq_true, if_false, Int.toNat_ofNat]
  rcases hrec c hc with h | ⟨c', h, l1, l2, e1, e2⟩
  · left
    rw [h]
  · right
    refine ⟨n.setChild i c', by rw [h], A ++ l1, l2 ++ B, ?_, ?_⟩
    · rw [he, e1]; simp
    · rw [hset, e2]; simp

/-- Whenever the loop of `insert` returns below a node that has room, the subtree has gained
exactly the new entry, whether its key was stored before or not; it never faults and never
raises. -/
theorem insert_loop_adds (key : K) (value : V) (fuel : Nat) : ∀ (h : Nat) (n : Node K V)
    (index : Int), n.Shape h → n.full = false →
    insert_loop key value fuel n index = .stuck ∨
      ∃ n', insert_loop key value fuel n index = .ok n' ∧
        Added key value n.entries n'.entries := by
  induction fuel using Nat.strong_induction_on with
  | _ fuel ih =>
    intro h n index hs hnf
    match fuel, ih with
    | 0, _ => exact Or.inl rfl
    | f + 1, ih =>
      obtain ⟨h1, h2, har⟩ := hs.arity
      have hchild : n.leaf = false → ∀ j, j ≤ n.keyvals.length →
          ∃ c, n.child (0 + j) = some c := by
        intro hl j hj
        rcases har with har | har
        · simp [har] at hl
        · refine ⟨n.children[j], ?_⟩
          simp only [Node.child, ArraySeq.get, Nat.zero_add]
          exact List.getElem?_eq_getElem (by omega)
      cases hslot : slot key n.keyvals 0 none with
      | none =>
        have hfor : insert_for key n n.keyvals 0 (index, .same) = some (index, .same) := by
          rw [insert_for_slot key n n.keyvals 0 _ hchild, hslot]
        rw [insert_loop, hfor]
        simp only [hnf, Bool.false_eq_true, if_false]
        exact ih f (Nat.lt_succ_self f) h n index hs hnf
      | some i =>
        obtain ⟨d, hd, hdl⟩ := slot_bound key n.keyvals 0 i hslot
        have hil : i ≤ n.keyvals.length := by omega
        match h, hs with
        | 1, ⟨hl, _, _⟩ =>
          have hfor : insert_for key n n.keyvals 0 (index, .same) = some ((i : Int), .null) := by
            rw [insert_for_slot key n n.keyvals 0 _ hchild, hslot]
            simp [cursorAt, hl]
          have hch : n.children = [] := (Node.leaf_iff n).mp hl
          right
          refine ⟨.mk (n.keyvals.take i ++ (key, value) :: n.keyvals.drop i) n.children, ?_,
            n.keyvals.take i, n.keyvals.drop i, ?_, ?_⟩
          · rw [insert_loop, hfor]
            simp [ArraySeq.insert, hil]
          · rw [Node.entries_of_leaf n hl, List.take_append_drop]
          · rw [hch, Node.entries_leaf]
        | h + 2, ⟨_, _, h3, h4⟩ =>
          obtain ⟨c, A, B, hc, he, -, hsplit⟩ := Node.locate_at n i h3 hil
          have hcmem : c ∈ n.children := List.getElem?_mem hc
          cases hfull : c.full with
          | false =>
            exact insert_loop_into key value f n index i h3 hslot
              (fun c' hc' => by rw [hc] at hc'; cases hc'; exact hfull)
              (fun c' hc' => ih f (Nat.lt_succ_self f) (h + 1) c' i
                (h4 c' (List.getElem?_mem hc')) (by rw [hc] at hc'; cases hc'; exact hfull))
          | true =>
            obtain ⟨a, b, e, gcs, rfl, hg⟩ := Node.shape_full_cases (h4 c hcmem) hfull
            have hc' : n.children[i]? = some (.mk [a, b, e] gcs) := hc
            have hlen2 : n.keyvals.length ≤ 2 := by
              simp only [Node.full, beq_eq_false_iff_ne, ne_eq] at hnf
              omega
            have hnl : n.leaf = false := by
              cases hl : n.leaf with
              | false => rfl
              | true => rw [Node.leaf_iff] at hl; simp [hl] at h3
            have hfor : insert_for key n n.keyvals 0 (index, .same)
                = some ((i : Int), .child (.mk [a, b, e] gcs)) := by
              rw [insert_for_slot key n n.keyvals 0 _ hchild, hslot]
              simp [cursorAt, hnl, hc]
            have hsp : split n i = some (.mk (n.keyvals.take i ++ b :: n.keyvals.drop i)
                (n.children.take i ++ .mk [a] (gcs.take 2) :: .mk [e] (gcs.drop 2) ::
                  n.children.drop (i + 1))) := by
              conv_lhs => rw [← Node.eta n]
              exact split_eq n.keyvals n.children i a b e gcs hc' hg hil
            have hsh2 := split_shape h n.keyvals n.children i a b e gcs hc' hlen2 h3 h4
            have hent := hsplit (.mk [a] (gcs.take 2)) (.mk [e] (gcs.drop 2)) b
            rw [split_halves_entries a b e gcs hg, ← he] at hent
            obtain ⟨hshl, hshr⟩ := split_halves_shape (h + 1) a b e gcs (h4 _ hcmem)
            rw [insert_loop, hfor]
            simp only [hfull, if_true, Int.toNat_ofNat, hsp,
              show ¬ ((i : Int) < 0) from by omega, if_false]
            match f, ih with
            | 0, _ => exact Or.inl rfl
            | f + 1, ih =>
              have hlt : i < n.children.length := (List.getElem?_eq_some_iff.mp hc').1
              have hlen : (n.children.take i).length = i := by
                simp only [List.length_take]
                omega
              have har2 := getElem?_around (n.children.take i) (n.children.drop (i + 1))
                (Node.mk [a] (gcs.take 2)) (Node.mk [e] (gcs.drop 2))
              rw [hlen] at har2
              have hs0 : slot key n.keyvals 0 none = some (0 + i) := by rw [hslot, Nat.zero_add]
              rw [← hent]
              rcases slot_split key b n.keyvals 0 i hs0 with h2 | h2
              · simp only [Nat.zero_add] at h2
                refine insert_loop_into key value f _ (i : Int) i hsh2.2.2.1 h2 ?_ ?_
                · intro c2 hc2
                  simp only [Node.child, ArraySeq.get, Node.children_mk, har2.1,
                    Option.some.injEq] at hc2
                  subst hc2
                  rfl
                · intro c2 hc2
                  simp only [Node.child, ArraySeq.get, Node.children_mk, har2.1,
                    Option.some.injEq] at hc2
                  subst hc2
                  exact ih f (by omega) (h + 1) _ i hshl rfl
              · simp only [Nat.zero_add] at h2
                refine insert_loop_into key value f _ (i : Int) (i + 1) hsh2.2.2.1 h2 ?_ ?_
                · intro c2 hc2
                  simp only [Node.child, ArraySeq.get, Node.children_mk, har2.2,
                    Option.some.injEq] at hc2
                  subst hc2
                  rfl
                · intro c2 hc2
                  simp only [Node.child, ArraySeq.get, Node.children_mk, har2.2,
                    Option.some.injEq] at hc2
                  subst hc2
                  exact ih f (by omega) (h + 1) _ ((i + 1 : Nat) : Int) hshr rfl

/-- Whenever `insert` returns on a map that satisfies invariants 1 to 3, the map has gained
exactly the new entry and `count` has grown by one, whether the key was stored before or not;
`insert` never faults and never raises. -/
theorem insert_adds (h : Nat) (t : BTreeMap K V) (key : K) (value : V) (fuel : Nat)
    (hinv : t.TreeInv h) :
    insert fuel t key value = .stuck ∨
      ∃ t', insert fuel t key value = .ok t' ∧ t'.count = t.count + 1 ∧
        Added key value t.entries t'.entries := by
  obtain ⟨count, root⟩ := t
  cases root with
  | none =>
    right
    exact ⟨⟨count + 1, some (.mk [(key, value)] [])⟩, rfl, rfl, [], [], rfl, rfl⟩
  | some r =>
    simp only [TreeInv, Node.wf_iff] at hinv
    obtain ⟨hs, -⟩ := hinv
    simp only [entries]
    cases hfull : r.full with
    | false =>
      rcases insert_loop_adds key value fuel h r (-1) hs hfull with hr | ⟨r', hr, hadd⟩
      · left
        simp [insert, hfull, hr]
      · right
        exact ⟨⟨count + 1, some r'⟩, by simp [insert, hfull, hr], rfl, hadd⟩
    | true =>
      obtain ⟨a, b, d, gcs, rfl, hg⟩ := Node.shape_full_cases hs hfull
      match h, hs with
      | h + 1, hs =>
        have hsp := split_eq ([] : List (K × V)) [Node.mk [a, b, d] gcs] 0 a b d gcs rfl hg
          (le_refl _)
        have hshape2 := split_shape h ([] : List (K × V)) [Node.mk [a, b, d] gcs] 0 a b d gcs
          rfl (by simp) rfl (by simpa using hs)
        simp only [List.take_nil, List.drop_nil, List.nil_append, List.take_zero,
          List.drop_succ_cons, List.drop_zero] at hsp hshape2
        have hent2 : (Node.mk [b] [Node.mk [a] (gcs.take 2), Node.mk [d] (gcs.drop 2)]).entries
            = (Node.mk [a, b, d] gcs).entries := by
          rw [← split_halves_entries a b d gcs hg]
          simp [Node.entries_mk, weave]
        rcases insert_loop_adds key value fuel (h + 2) _ (-1) hshape2 rfl with hr | ⟨r', hr, hadd⟩
        · left
          simp only [insert, hfull, if_true, hsp]
          simp [Node.full, hr]
        · right
          refine ⟨⟨count + 1, some r'⟩, ?_, rfl, by rw [← hent2]; exact hadd⟩
          simp only [insert, hfull, if_true, hsp]
          simp [Node.full, hr]

/-- In strictly increasing entries a stored key occurs once; after an entry with that key is
added it occurs twice. -/
theorem count_key_added (key : K) (value : V) (l l' : List (K × V)) (hs : Ascending l)
    (hst : key ∈ l.map Prod.fst) (hadd : Added key value l l') :
    (l'.map Prod.fst).count key = 2 := by
  have hnd : (l.map Prod.fst).Nodup := by
    rw [List.Nodup, List.pairwise_map]
    exact hs.imp (fun h => ne_of_lt h)
  have h1 : (l.map Prod.fst).count key = 1 := List.count_eq_one_of_mem hnd hst
  obtain ⟨l1, l2, rfl, rfl⟩ := hadd
  simp only [List.map_append, List.map_cons, List.count_append, List.count_cons_self] at h1 ⊢
  omega

theorem Node.mem_leafDepthsList (d : Nat) : ∀ (cs : List (Node K V)),
    d ∈ Node.leafDepthsList cs ↔ ∃ c ∈ cs, d ∈ c.leafDepths
  | [] => by simp [Node.leafDepthsList]
  | c :: cs => by
    simp [Node.leafDepthsList, Node.mem_leafDepthsList d cs]

/-- On a node of shape `h` every leaf is `h` levels down. -/
theorem Node.leafDepths_of_shape : ∀ (h : Nat) (n : Node K V), n.Shape h →
    h ∈ n.leafDepths ∧ ∀ d ∈ n.leafDepths, d = h
  | 0, _, hs => by simp [Node.Shape] at hs
  | 1, .mk kvs cs, hs => by
    obtain ⟨hl, -, -⟩ := hs
    have : cs = [] := by simpa [Node.leaf_iff] using hl
    subst this
    simp [Node.leafDepths]
  | h + 2, .mk kvs cs, hs => by
    obtain ⟨h1, -, h3, h4⟩ := hs
    simp only [Node.children_mk, Node.keyvals_mk] at h1 h3 h4
    match cs, h3 with
    | c :: cs, _ =>
      have ih := fun x hx => Node.leafDepths_of_shape (h + 1) x (h4 x hx)
      simp only [Node.leafDepths, List.isEmpty_cons, Bool.false_eq_true, if_false, List.mem_map,
        Node.mem_leafDepthsList]
      constructor
      · exact ⟨h + 1, ⟨c, by simp, (ih c (by simp)).1⟩, rfl⟩
      · rintro d ⟨e, ⟨x, hx, he⟩, rfl⟩
        rw [(ih x hx).2 e he]

/-! ### the recursive call of erase -/

/-- Case 3 of the helper `erase` is the recursive call in the state `descend_state`. -/
theorem erase_descend_eq (toV : K → V) (erase : Node K V → K → Outcome (Node K V) (Node K V))
    (st_root : Node K V) (key_idx child_idx : Nat) (key : K) :
    erase_descend toV erase st_root key_idx child_idx key =
      match descend_state toV st_root key_idx child_idx with
      | none => .fault
      | some (st_root, child_idx) => erase_child erase st_root child_idx key := by
  simp only [erase_descend, descend_state]
  cases hc : st_root.child child_idx with
  | none => rfl
  | some c =>
    by_cases h1 : c.keyvals.length = 1
    · simp only [h1, if_true]
    · simp only [h1, if_false, erase_child, hc]

/-! ### size and height -/

theorem length_weave {α : Type} : ∀ (kvs : List α) (cs : List (List α)),
    cs.length = kvs.length + 1 →
    (weave kvs cs).length + 1 = (cs.map List.length).sum + cs.length
  | [], cs, h => by
    match cs, h with
    | [c], _ => simp [weave]
  | kv :: kvs, cs, h => by
    match cs, h with
    | c :: cs, h =>
      have ih := length_weave kvs cs (by simpa using h)
      simp only [weave, List.length_append, List.length_cons, List.map_cons, List.sum_cons]
      omega

theorem sum_bounds {α : Type} (f : α → Nat) (lo hi : Nat) : ∀ (cs : List α),
    (∀ c ∈ cs, lo ≤ f c + 1 ∧ f c + 1 ≤ hi) →
    cs.length * lo ≤ (cs.map f).sum + cs.length ∧ (cs.map f).sum + cs.length ≤ cs.length * hi
  | [], _ => by simp
  | c :: cs, h => by
    have ih := sum_bounds f lo hi cs (fun x hx => h x (by simp [hx]))
    have hc := h c (by simp)
    simp only [List.length_cons, List.map_cons, List.sum_cons, Nat.succ_mul]
    omega

/-- A subtree of `h` levels that satisfies the shape invariants stores at least `2 ^ h - 1`
and at most `4 ^ h - 1` entries. -/
theorem Node.card_bounds : ∀ (h : Nat) (n : Node K V), n.Shape h →
    2 ^ h ≤ n.entries.length + 1 ∧ n.entries.length + 1 ≤ 4 ^ h
  | 0, _, hs => by simp [Node.Shape] at hs
  | 1, n, hs => by
    obtain ⟨hl, h1, h2⟩ := hs
    rw [Node.entries_of_leaf n hl]
    constructor <;> norm_num <;> omega
  | h + 2, n, hs => by
    obtain ⟨h1, h2, h3, h4⟩ := hs
    have ih := fun c hc => Node.card_bounds (h + 1) c (h4 c hc)
    have hsum := sum_bounds (fun c : Node K V => c.entries.length) (2 ^ (h + 1)) (4 ^ (h + 1))
      n.children ih
    have hlen := length_weave n.keyvals (n.children.map Node.entries) (by simpa using h3)
    rw [Node.entries_of_children n h3]
    simp only [List.map_map, List.length_map] at hlen
    have he : (List.map (List.length ∘ Node.entries) n.children)
        = List.map (fun c : Node K V => c.entries.length) n.children := rfl
    rw [he] at hlen
    rw [hlen]
    obtain ⟨hlo, hhi⟩ := hsum
    have p2 : 2 ^ (h + 2) = 2 * 2 ^ (h + 1) := by ring
    have p4 : 4 ^ (h + 2) = 4 * 4 ^ (h + 1) := by ring
    have c2 : 2 * 2 ^ (h + 1) ≤ n.children.length * 2 ^ (h + 1) :=
      Nat.mul_le_mul_right _ (by omega)
    have c4 : n.children.length * 4 ^ (h + 1) ≤ 4 * 4 ^ (h + 1) :=
      Nat.mul_le_mul_right _ (by omega)
    constructor
    · rw [p2]; exact le_trans c2 hlo
    · rw [p4]; exact le_trans hhi c4

/-! ### the merges of rebalance -/

theorem Node.shape_one_leaf {c : Node K V} (hs : c.Shape 1) (h1 : c.keyvals.length = 1) :
    ∃ x, c = .mk [x] [] := by
  cases c with
  | mk kvs gcs =>
    obtain ⟨hl, -, -⟩ := hs
    have hg : gcs = [] := by simpa [Node.leaf_iff] using hl
    simp only [Node.keyvals_mk] at h1
    match kvs, h1 with
    | [x], _ => exact ⟨x, by rw [hg]⟩

theorem Node.shape_one_internal {h : Nat} {c : Node K V} (hs : c.Shape (h + 2))
    (h1 : c.keyvals.length = 1) : ∃ x g0 g1, c = .mk [x] [g0, g1] := by
  cases c with
  | mk kvs gcs =>
    obtain ⟨-, -, h3, -⟩ := hs
    simp only [Node.keyvals_mk, Node.children_mk] at h1 h3
    match kvs, h1 with
    | [x], _ =>
      simp only [List.length_cons, List.length_nil] at h3
      match gcs, h3 with
      | [g0, g1], _ => exact ⟨x, g0, g1, rfl⟩

/-- The merges of `rebalance` in a node with 1 entry. -/
theorem rebalance_merge_one (toV : K → V) (h : Nat) (st_root : Node K V)
    (hs : st_root.Shape (h + 2)) (hm : st_root.keyvals.length = 1) (child_idx : Nat)
    (hci : child_idx ≤ 1)
    (hone : ∀ j c, st_root.child j = some c →
      (j = child_idx ∨ j + 1 = child_idx ∨ j = child_idx + 1) → c.keyvals.length = 1) :
    ∃ left right sep st' merged,
      st_root.child (key_idx_of st_root.keyvals.length child_idx) = some left ∧
      st_root.child (key_idx_of st_root.keyvals.length child_idx + 1) = some right ∧
      st_root.keyvals[key_idx_of st_root.keyvals.length child_idx]? = some sep ∧
      merged = .mk (left.keyvals ++ (sep.1, toV sep.1) :: right.keyvals)
        (left.children ++ right.children) ∧
      st' = .mk (st_root.keyvals.eraseIdx (key_idx_of st_root.keyvals.length child_idx))
        ((st_root.children.eraseIdx (key_idx_of st_root.keyvals.length child_idx + 1)).set
          (key_idx_of st_root.keyvals.length child_idx) merged) ∧
      rebalance toV st_root (key_idx_of st_root.keyvals.length child_idx) child_idx
        = some (st', key_idx_of st_root.keyvals.length child_idx) ∧
      st'.child (key_idx_of st_root.keyvals.length child_idx) = some merged ∧
      merged.keyvals.length = 3 ∧
      merged.children.length = (if h = 0 then 0 else 4) ∧
      st'.keyvals.length + 1 = st_root.keyvals.length ∧
      st'.children.length + 1 = st_root.children.length := by
  cases st_root with
  | mk kvs cs =>
    obtain ⟨-, -, h3, h4⟩ := hs
    simp only [Node.keyvals_mk, Node.children_mk] at hm h3 h4
    rw [hm] at h3
    match kvs, cs, hm, h3 with
    | [a], [c0, c1], _, _ =>
      interval_cases child_idx
      · match h with
        | 0 =>
          obtain ⟨x0, rfl⟩ := Node.shape_one_leaf (h4 c0 (by simp))
            (hone 0 c0 rfl (by omega))
          obtain ⟨x1, rfl⟩ := Node.shape_one_leaf (h4 c1 (by simp))
            (hone 1 c1 rfl (by omega))
          exact ⟨_, _, _, _, _, rfl, rfl, rfl, rfl, rfl, rfl, rfl, rfl, rfl, rfl, rfl⟩
        | h + 1 =>
          obtain ⟨x0, g0, k0, rfl⟩ := Node.shape_one_internal (h4 c0 (by simp))
            (hone 0 c0 rfl (by omega))
          obtain ⟨x1, g1, k1, rfl⟩ := Node.shape_one_internal (h4 c1 (by simp))
            (hone 1 c1 rfl (by omega))
          exact ⟨_, _, _, _, _, rfl, rfl, rfl, rfl, rfl, rfl, rfl, rfl, rfl, rfl, rfl⟩
      · match h with
        | 0 =>
          obtain ⟨x0, rfl⟩ := Node.shape_one_leaf (h4 c0 (by simp))
            (hone 0 c0 rfl (by omega))
          obtain ⟨x1, rfl⟩ := Node.shape_one_leaf (h4 c1 (by simp))
            (hone 1 c1 rfl (by omega))
          exact ⟨_, _, _, _, _, rfl, rfl, rfl, rfl, rfl, rfl, rfl, rfl, rfl, rfl, rfl⟩
        | h + 1 =>
          obtain ⟨x0, g0, k0, rfl⟩ := Node.shape_one_internal (h4 c0 (by simp))
            (hone 0 c0 rfl (by omega))
          obtain ⟨x1, g1, k1, rfl⟩ := Node.shape_one_internal (h4 c1 (by simp))
            (hone 1 c1 rfl (by omega))
          exact ⟨_, _, _, _, _, rfl, rfl, rfl, rfl, rfl, rfl, rfl, rfl, rfl, rfl, rfl⟩

/-- The merges of `rebalance` in a node with 2 entries. -/
theorem rebalance_merge_two (toV : K → V) (h : Nat) (st_root : Node K V)
    (hs : st_root.Shape (h + 2)) (hm : st_root.keyvals.length = 2) (child_idx : Nat)
    (hci : child_idx ≤ 2)
    (hone : ∀ j c, st_root.child j = some c →
      (j = child_idx ∨ j + 1 = child_idx ∨ j = child_idx + 1) → c.keyvals.length = 1) :
    ∃ left right sep st' merged,
      st_root.child (key_idx_of st_root.keyvals.length child_idx) = some left ∧
      st_root.child (key_idx_of st_root.keyvals.length child_idx + 1) = some right ∧
      st_root.keyvals[key_idx_of st_root.keyvals.length child_idx]? = some sep ∧
      merged = .mk (left.keyvals ++ (sep.1, toV sep.1) :: right.keyvals)
        (left.children ++ right.children) ∧
      st' = .mk (st_root.keyvals.eraseIdx (key_idx_of st_root.keyvals.length child_idx))
        ((st_root.children.eraseIdx (key_idx_of st_root.keyvals.length child_idx + 1)).set
          (key_idx_of st_root.keyvals.length child_idx) merged) ∧
      rebalance toV st_root (key_idx_of st_root.keyvals.length child_idx) child_idx
        = some (st', key_idx_of st_root.keyvals.length child_idx) ∧
      st'.child (key_idx_of st_root.keyvals.length child_idx) = some merged ∧
      merged.keyvals.length = 3 ∧
      merged.children.length = (if h = 0 then 0 else 4) ∧
      st'.keyvals.length + 1 = st_root.keyvals.length ∧
      st'.children.length + 1 = st_root.children.length := by
  cases st_root with
  | mk kvs cs =>
    obtain ⟨-, -, h3, h4⟩ := hs
    simp only [Node.keyvals_mk, Node.children_mk] at hm h3 h4
    rw [hm] at h3
    match kvs, cs, hm, h3 with
    | [a, b], [c0, c1, c2], _, _ =>
      interval_cases child_idx
      · match h with
        | 0 =>
          obtain ⟨x0, rfl⟩ := Node.shape_one_leaf (h4 c0 (by simp))
            (hone 0 c0 rfl (by omega))
          obtain ⟨x1, rfl⟩ := Node.shape_one_leaf (h4 c1 (by simp))
            (hone 1 c1 rfl (by omega))
          exact ⟨_, _, _, _, _, rfl, rfl, rfl, rfl, rfl, rfl, rfl, rfl, rfl, rfl, rfl⟩
        | h + 1 =>
          obtain ⟨x0, g0, k0, rfl⟩ := Node.shape_one_internal (h4 c0 (by simp))
            (hone 0 c0 rfl (by omega))
          obtain ⟨x1, g1, k1, rfl⟩ := Node.shape_one_internal (h4 c1 (by simp))
            (hone 1 c1 rfl (by omega))
          exact ⟨_, _, _, _, _, rfl, rfl, rfl, rfl, rfl, rfl, rfl, rfl, rfl, rfl, rfl⟩
      · match h with
        | 0 =>
          obtain ⟨x0, rfl⟩ := Node.shape_one_leaf (h4 c0 (by simp))
            (hone 0 c0 rfl (by omega))
          obtain ⟨x1, rfl⟩ := Node.shape_one_leaf (h4 c1 (by simp))
            (hone 1 c1 rfl (by omega))
          obtain ⟨x2, rfl⟩ := Node.shape_one_leaf (h4 c2 (by simp))
            (hone 2 c2 rfl (by omega))
          exact ⟨_, _, _, _, _, rfl, rfl, rfl, rfl, rfl, rfl, rfl, rfl, rfl, rfl, rfl⟩
        | h + 1 =>
          obtain ⟨x0, g0, k0, rfl⟩ := Node.shape_one_internal (h4 c0 (by simp))
            (hone 0 c0 rfl (by omega))
          obtain ⟨x1, g1, k1, rfl⟩ := Node.shape_one_internal (h4 c1 (by simp))
            (hone 1 c1 rfl (by omega))
          obtain ⟨x2, g2, k2, rfl⟩ := Node.shape_one_internal (h4 c2 (by simp))
            (hone 2 c2 rfl (by omega))
          exact ⟨_, _, _, _, _, rfl, rfl, rfl, rfl, rfl, rfl, rfl, rfl, rfl, rfl, rfl⟩
      · match h with
        | 0 =>
          obtain ⟨x1, rfl⟩ := Node.shape_one_leaf (h4 c1 (by simp))
            (hone 1 c1 rfl (by omega))
          obtain ⟨x2, rfl⟩ := Node.shape_one_leaf (h4 c2 (by simp))
            (hone 2 c2 rfl (by omega))
          exact ⟨_, _, _, _, _, rfl, rfl, rfl, rfl, rfl, rfl, rfl, rfl, rfl, rfl, rfl⟩
        | h + 1 =>
          obtain ⟨x1, g1, k1, rfl⟩ := Node.shape_one_internal (h4 c1 (by simp))
            (hone 1 c1 rfl (by omega))
          obtain ⟨x2, g2, k2, rfl⟩ := Node.shape_one_internal (h4 c2 (by simp))
            (hone 2 c2 rfl (by omega))
          exact ⟨_, _, _, _, _, rfl, rfl, rfl, rfl, rfl, rfl, rfl, rfl, rfl, rfl, rfl⟩

/-- The merges of `rebalance` in a node with 3 entries. -/
theorem rebalance_merge_three (toV : K → V) (h : Nat) (st_root : Node K V)
    (hs : st_root.Shape (h + 2)) (hm : st_root.keyvals.length = 3) (child_idx : Nat)
    (hci : child_idx ≤ 3)
    (hone : ∀ j c, st_root.child j = some c →
      (j = child_idx ∨ j + 1 = child_idx ∨ j = child_idx + 1) → c.keyvals.length = 1) :
    ∃ left right sep st' merged,
      st_root.child (key_idx_of st_root.keyvals.length child_idx) = some left ∧
      st_root.child (key_idx_of st_root.keyvals.length child_idx + 1) = some right ∧
      st_root.keyvals[key_idx_of st_root.keyvals.length child_idx]? = some sep ∧
      merged = .mk (left.keyvals ++ (sep.1, toV sep.1) :: right.keyvals)
        (left.children ++ right.children) ∧
      st' = .mk (st_root.keyvals.eraseIdx (key_idx_of st_root.keyvals.length child_idx))
        ((st_root.children.eraseIdx (key_idx_of st_root.keyvals.length child_idx + 1)).set
          (key_idx_of st_root.keyvals.length child_idx) merged) ∧
      rebalance toV st_root (key_idx_of st_root.keyvals.length child_idx) child_idx
        = some (st', key_idx_of st_root.keyvals.length child_idx) ∧
      st'.child (key_idx_of st_root.keyvals.length child_idx) = some merged ∧
      merged.keyvals.length = 3 ∧
      merged.children.length = (if h = 0 then 0 else 4) ∧
      st'.keyvals.length + 1 = st_root.keyvals.length ∧
      st'.children.length + 1 = st_root.children.length := by
  cases st_root with
  | mk kvs cs =>
    obtain ⟨-, -, h3, h4⟩ := hs
    simp only [Node.keyvals_mk, Node.children_mk] at hm h3 h4
    rw [hm] at h3
    match kvs, cs, hm, h3 with
    | [a, b, d], [c0, c1, c2, c3], _, _ =>
      interval_cases child_idx
      · match h with
        | 0 =>
          obtain ⟨x0, rfl⟩ := Node.shape_one_leaf (h4 c0 (by simp))
            (hone 0 c0 rfl (by omega))
          obtain ⟨x1, rfl⟩ := Node.shape_one_leaf (h4 c1 (by simp))
            (hone 1 c1 rfl (by omega))
          exact ⟨_, _, _, _, _, rfl, rfl, rfl, rfl, rfl, rfl, rfl, rfl, rfl, rfl, rfl⟩
        | h + 1 =>
          obtain ⟨x0, g0, k0, rfl⟩ := Node.shape_one_internal (h4 c0 (by simp))
            (hone 0 c0 rfl (by omega))
          obtain ⟨x1, g1, k1, rfl⟩ := Node.shape_one_internal (h4 c1 (by simp))
            (hone 1 c1 rfl (by omega))
          exact ⟨_, _, _, _, _, rfl, rfl, rfl, rfl, rfl, rfl, rfl, rfl, rfl, rfl, rfl⟩
      · match h with
        | 0 =>
          obtain ⟨x0, rfl⟩ := Node.shape_one_leaf (h4 c0 (by simp))
            (hone 0 c0 rfl (by omega))
          obtain ⟨x1, rfl⟩ := Node.shape_one_leaf (h4 c1 (by simp))
            (hone 1 c1 rfl (by omega))
          obtain ⟨x2, rfl⟩ := Node.shape_one_leaf (h4 c2 (by simp))
            (hone 2 c2 rfl (by omega))
          exact ⟨_, _, _, _, _, rfl, rfl, rfl, rfl, rfl, rfl, rfl, rfl, rfl, rfl, rfl⟩
        | h + 1 =>
          obtain ⟨x0, g0, k0, rfl⟩ := Node.shape_one_internal (h4 c0 (by simp))
            (hone 0 c0 rfl (by omega))
          obtain ⟨x1, g1, k1, rfl⟩ := Node.shape_one_internal (h4 c1 (by simp))
            (hone 1 c1 rfl (by omega))
          obtain ⟨x2, g2, k2, rfl⟩ := Node.shape_one_internal (h4 c2 (by simp))
            (hone 2 c2 rfl (by omega))
          exact ⟨_, _, _, _, _, rfl, rfl, rfl, rfl, rfl, rfl, rfl, rfl, rfl, rfl, rfl⟩
      · match h with
        | 0 =>
          obtain ⟨x1, rfl⟩ := Node.shape_one_leaf (h4 c1 (by simp))
            (hone 1 c1 rfl (by omega))
          obtain ⟨x2, rfl⟩ := Node.shape_one_leaf (h4 c2 (by simp))
            (hone 2 c2 rfl (by omega))
          obtain ⟨x3, rfl⟩ := Node.shape_one_leaf (h4 c3 (by simp))
            (hone 3 c3 rfl (by omega))
          exact ⟨_, _, _, _, _, rfl, rfl, rfl, rfl, rfl, rfl, rfl, rfl, rfl, rfl, rfl⟩
        | h + 1 =>
          obtain ⟨x1, g1, k1, rfl⟩ := Node.shape_one_internal (h4 c1 (by simp))
            (hone 1 c1 rfl (by omega))
          obtain ⟨x2, g2, k2, rfl⟩ := Node.shape_one_internal (h4 c2 (by simp))
            (hone 2 c2 rfl (by omega))
          obtain ⟨x3, g3, k3, rfl⟩ := Node.shape_one_internal (h4 c3 (by simp))
            (hone 3 c3 rfl (by omega))
          exact ⟨_, _, _, _, _, rfl, rfl, rfl, rfl, rfl, rfl, rfl, rfl, rfl, rfl, rfl⟩
      · match h with
        | 0 =>
          obtain ⟨x2, rfl⟩ := Node.shape_one_leaf (h4 c2 (by simp))
            (hone 2 c2 rfl (by omega))
          obtain ⟨x3, rfl⟩ := Node.shape_one_leaf (h4 c3 (by simp))
            (hone 3 c3 rfl (by omega))
          exact ⟨_, _, _, _, _, rfl, rfl, rfl, rfl, rfl, rfl, rfl, rfl, rfl, rfl, rfl⟩
        | h + 1 =>
          obtain ⟨x2, g2, k2, rfl⟩ := Node.shape_one_internal (h4 c2 (by simp))
            (hone 2 c2 rfl (by omega))
          obtain ⟨x3, g3, k3, rfl⟩ := Node.shape_one_internal (h4 c3 (by simp))
            (hone 3 c3 rfl (by omega))
          exact ⟨_, _, _, _, _, rfl, rfl, rfl, rfl, rfl, rfl, rfl, rfl, rfl, rfl, rfl⟩

end BTreeMap

/-! ## The claims -/

namespace BTreeMap

variable {K V : Type} [LinearOrder K]

/-- C1: on a map that satisfies the data-model invariants, `insert` of a key that
`sorted_keys` does not list returns; afterwards `sorted_keys` lists the former keys with the
new key added at its place in the order (the former list splits in two around it and the
result is strictly ascending), and `size` is one larger. -/
theorem insert_adds_key (h : Nat) (t : BTreeMap K V) (key : K) (value : V) (fuel : Nat)
    (hinv : t.Inv h) (hfuel : 2 * h + 1 ≤ fuel) (ks : List K)
    (hks : sorted_keys fuel t = .ok ks) (habs : key ∉ ks) :
    ∃ t' l1 l2, insert fuel t key value = .ok t' ∧ ks = l1 ++ l2 ∧
      sorted_keys fuel t' = .ok (l1 ++ key :: l2) ∧ (l1 ++ key :: l2).Pairwise (· < ·) ∧
      t'.size = t.size + 1 := by
  rw [sorted_keys_eq h t fuel hinv.1 (by omega)] at hks
  have hks' : t.entries.map Prod.fst = ks := Outcome.ok.inj hks
  subst hks'
  obtain ⟨t', h', hrun, hh, hinv', hins, hcount⟩ := insert_ok h t key value fuel hinv.1
    (fun x hx e => habs (e ▸ List.mem_map_of_mem _ hx)) hfuel
  have hasc := inserted_ascending hins (treeInv_ascending hinv.1)
  obtain ⟨l1, l2, h1, h2, -, -⟩ := hins
  refine ⟨t', l1.map Prod.fst, l2.map Prod.fst, hrun, by rw [h1]; simp, ?_, ?_, hcount⟩
  · rw [sorted_keys_eq h' t' fuel hinv' (by rcases hh with rfl | rfl <;> omega), h2]
    simp
  · have := (ascending_iff_keys _).mpr hasc
    rw [h2] at this
    simpa using this

/-- C1, on an example: inserting 1, ..., 9 in ascending order into the empty map gives a map
that satisfies the invariants; the insertion of 10 into it is an instance of the theorem, and
after inserting 1, ..., 10 `sorted_keys` is `[1, ..., 10]`. -/
theorem insert_adds_key_witness :
    run id 7 (inserts [1, 2, 3, 4, 5, 6, 7, 8, 9]) new = some example_1_to_9 ∧
    (∃ t' l1 l2, insert 7 example_1_to_9 10 100 = .ok t' ∧
      [1, 2, 3, 4, 5, 6, 7, 8, 9] = l1 ++ l2 ∧
      sorted_keys 7 t' = .ok (l1 ++ 10 :: l2) ∧ (l1 ++ 10 :: l2).Pairwise (· < ·) ∧
      t'.size = example_1_to_9.size + 1) ∧
    ∃ t, run id 7 (inserts [1, 2, 3, 4, 5, 6, 7, 8, 9, 10]) new = some t ∧
      sorted_keys 7 t = .ok [1, 2, 3, 4, 5, 6, 7, 8, 9, 10] :=
  ⟨rfl,
    insert_adds_key 3 example_1_to_9 10 100 7 (by decide) (by decide)
      [1, 2, 3, 4, 5, 6, 7, 8, 9] rfl (by decide),
    ⟨_, rfl, rfl⟩⟩

/-- C2 (the code breaks it): `example_1_to_6` satisfies the data-model invariants and stores
the key 3, `erase(3)` returns, and afterwards `sorted_keys` is `[1, 4, 2, 5, 6]`, which is not
the former list `[1, 2, 3, 4, 5, 6]` without 3. -/
theorem erase_scrambles_sorted_keys :
    example_1_to_6.Inv 2 ∧ sorted_keys 7 example_1_to_6 = .ok [1, 2, 3, 4, 5, 6] ∧
    erase id 7 example_1_to_6 3 = .ok example_erased ∧
    sorted_keys 7 example_erased = .ok [1, 4, 2, 5, 6] ∧ example_erased.size = 5 :=
  ⟨by decide, rfl, rfl, rfl, rfl⟩

/-- C3 (the code breaks it): starting from the empty map, the calls `insert` of 1, ..., 6 (each
key absent when it is inserted) followed by `erase(3)` all return, and `sorted_keys` of the map
they leave is not strictly ascending. -/
theorem erase_sequence_not_ascending :
    run id 7 (inserts [1, 2, 3, 4, 5, 6] ++ [Op.erase 3]) new = some example_erased ∧
    sorted_keys 7 example_erased = .ok [1, 4, 2, 5, 6] ∧
    ¬ [1, 4, 2, 5, 6].Pairwise (· < ·) :=
  ⟨rfl, rfl, by decide⟩

/-- C4 (the code breaks it): `example_1_to_6` satisfies the structural invariants and stores
the key 3; `erase(3)` returns a tree whose child 1, a leaf, has no entry, so for no height the
tree has every node with 1 to 3 entries, `children = entries + 1` in the internal nodes and
all leaves at that depth. -/
theorem erase_leaves_empty_leaf :
    example_1_to_6.TreeInv 2 ∧ erase id 7 example_1_to_6 3 = .ok example_erased ∧
    ∃ r, example_erased.root = some r ∧ r.child 1 = some (.mk [] []) ∧
      ∀ h, ¬ r.Shape h := by
  refine ⟨by decide, rfl, _, rfl, rfl, ?_⟩
  intro h
  match h with
  | 0 => exact fun hs => hs
  | 1 => exact fun hs => absurd hs.1 (by decide)
  | h + 2 =>
    intro hs
    have hc : Node.Shape (h + 1) (Node.mk ([] : List (Nat × Nat)) []) :=
      hs.2.2.2 _ (by simp [Node.children])
    match h, hc with
    | 0, hc => exact absurd hc.2.1 (by decide)
    | h + 1, hc => exact absurd hc.1 (by decide)

/-- C5: `insert` of an absent key preserves the structural invariants: on a map whose tree
satisfies invariants 1 to 3 with `h` levels, the call returns and the tree afterwards satisfies
them again, with `h` or `h + 1` levels (and is not empty). -/
theorem insert_preserves_structure (h : Nat) (t : BTreeMap K V) (key : K) (value : V)
    (fuel : Nat) (hinv : t.TreeInv h) (hfuel : 2 * h + 1 ≤ fuel)
    (habs : ∀ x ∈ t.entries, x.1 ≠ key) :
    ∃ t' h', insert fuel t key value = .ok t' ∧ (h' = h ∨ h' = h + 1) ∧ t'.TreeInv h' ∧
      t'.root.isSome = true := by
  obtain ⟨t', h', hrun, hh, hinv', hins, -⟩ := insert_ok h t key value fuel hinv habs hfuel
  refine ⟨t', h', hrun, hh, hinv', ?_⟩
  obtain ⟨l1, l2, -, h2, -, -⟩ := hins
  cases hr : t'.root with
  | none => simp [entries, hr] at h2
  | some r => rfl

/-- C5, on an example: the tree of `example_1_to_6` has 2 levels and no key 7. -/
theorem insert_preserves_structure_witness :
    ∃ t' h', insert 7 example_1_to_6 7 70 = .ok t' ∧ (h' = 2 ∨ h' = 2 + 1) ∧ t'.TreeInv h' ∧
      t'.root.isSome = true :=
  insert_preserves_structure 2 example_1_to_6 7 70 7 (by decide) (by decide) (by decide)

/-- C6: on a map that satisfies the data-model invariants, `erase` of a key raises when the
map is empty or the key is not stored, and the map the exception leaves is the map as it was
before the call. -/
theorem erase_absent_raises (toV : K → V) (h : Nat) (t : BTreeMap K V) (fuel : Nat)
    (hinv : t.Inv h) (hfuel : h ≤ fuel) (key : K)
    (habs : t.empty = true ∨ ∀ x ∈ t.entries, x.1 ≠ key) :
    erase toV fuel t key = .raised t := by
  cases he : t.empty with
  | true => simp [erase, he]
  | false =>
    rcases habs with habs | habs
    · simp [he] at habs
    · have hc := contains_eq h t fuel hinv.1 hfuel key
      have hn : ¬ key ∈ t.entries.map Prod.fst := by
        rw [mem_keys_iff]
        rintro ⟨x, hx, rfl⟩
        exact habs x hx rfl
      simp only [hn, decide_False] at hc
      simp [erase, he, hc]

/-- C6, on examples: `erase(4)` on `example_odd`, which does not store 4, and on the empty
map. -/
theorem erase_absent_raises_witness :
    erase id 7 example_odd 4 = .raised example_odd ∧
    erase id 7 (new : BTreeMap Nat Nat) 4 = .raised new :=
  ⟨erase_absent_raises id 2 example_odd 7 (by decide) (by decide) 4 (Or.inr (by decide)),
    erase_absent_raises id 0 new 7 (by decide) (by decide) 4 (Or.inl rfl)⟩

/-- C7: on a map that satisfies the data-model invariants, `contains(key)` returns `true` if
and only if `key` is one of the keys that `sorted_keys` lists. -/
theorem contains_iff_listed (h : Nat) (t : BTreeMap K V) (fuel : Nat) (hinv : t.Inv h)
    (hfuel : h ≤ fuel) (key : K) (ks : List K) (hks : sorted_keys fuel t = .ok ks) :
    contains fuel t key = .ok (decide (key ∈ ks)) := by
  rw [sorted_keys_eq h t fuel hinv.1 hfuel] at hks
  rw [← Outcome.ok.inj hks]
  exact contains_eq h t fuel hinv.1 hfuel key

/-- C7, on an example: 7 is stored in `example_odd`. -/
theorem contains_iff_listed_witness :
    contains 7 example_odd 7 = .ok (decide (7 ∈ [1, 3, 5, 7, 9])) :=
  contains_iff_listed 2 example_odd 7 (by decide) (by decide) 7 [1, 3, 5, 7, 9] rfl

/-- C8: on a map that satisfies the data-model invariants, `operator[](key)` returns the
value of the stored entry whose key is `key` when there is one, and it raises exactly when no
stored entry has that key. -/
theorem operator_index_spec (h : Nat) (t : BTreeMap K V) (fuel : Nat) (hinv : t.Inv h)
    (hfuel : h ≤ fuel) (key : K) :
    (∀ v, (key, v) ∈ t.entries → operator_index fuel t key = .ok v) ∧
    (operator_index fuel t key = .raised () ↔ ∀ v, (key, v) ∉ t.entries) := by
  have hasc := (treeInv_ascending hinv.1)
  have heq := operator_index_eq h t fuel hinv.1 hfuel key
  constructor
  · intro v hv
    rw [heq, (stored_eq_some key _ hasc v).mpr hv]
  · constructor
    · intro hr v hv
      rw [heq, (stored_eq_some key _ hasc v).mpr hv] at hr
      cases hr
    · intro hno
      have : stored key t.entries = none := by
        rw [stored_eq_none]
        rintro ⟨k, v⟩ hx rfl
        exact hno v hx
      rw [heq, this]

/-- C8, on examples: in `example_odd` the key 7 has the value 70 and the key 8 is not
stored; the empty map stores no key. -/
theorem operator_index_spec_witness :
    operator_index 7 example_odd 7 = .ok 70 ∧ operator_index 7 example_odd 8 = .raised () ∧
    operator_index 7 (new : BTreeMap Nat Nat) 8 = .raised () :=
  ⟨(operator_index_spec 2 example_odd 7 (by decide) (by decide) 7).1 70 (by decide),
    (operator_index_spec 2 example_odd 7 (by decide) (by decide) 8).2.mpr (fun v hv => by
      have h : (8, v) ∈ [(1, 10), (3, 30), (5, 50), (7, 70), (9, 90)] := hv
      simp at h),
    (operator_index_spec 0 new 7 (by decide) (by decide) 8).2.mpr (fun v hv => by
      have h : (8, v) ∈ ([] : List (Nat × Nat)) := hv
      simp at h)⟩

/-- C9: on a map that satisfies the data-model invariants, after `insert(key, value)` of an
absent key `operator[](key)` returns `value`, and for every key stored before `operator[]`
returns the same value after the insert as before it. -/
theorem insert_then_index (h : Nat) (t : BTreeMap K V) (key : K) (value : V) (fuel : Nat)
    (hinv : t.Inv h) (hfuel : 2 * h + 1 ≤ fuel) (habs : ∀ x ∈ t.entries, x.1 ≠ key) :
    ∃ t', insert fuel t key value = .ok t' ∧ operator_index fuel t' key = .ok value ∧
      ∀ x ∈ t.entries, operator_index fuel t x.1 = .ok x.2 ∧
        operator_index fuel t' x.1 = .ok x.2 := by
  obtain ⟨t', h', hrun, hh, hinv', hins, -⟩ := insert_ok h t key value fuel hinv.1 habs hfuel
  have hasc := (treeInv_ascending hinv.1)
  have hasc' := inserted_ascending hins hasc
  have heq := fun k => operator_index_eq h t fuel hinv.1 (by omega) k
  have heq' := fun k => operator_index_eq h' t' fuel hinv'
    (by rcases hh with rfl | rfl <;> omega) k
  obtain ⟨l1, l2, h1, h2, -, -⟩ := hins
  refine ⟨t', hrun, ?_, ?_⟩
  · rw [heq', (stored_eq_some key _ hasc' value).mpr (by rw [h2]; simp)]
  · intro x hx
    constructor
    · rw [heq, (stored_eq_some x.1 _ hasc x.2).mpr hx]
    · rw [heq', (stored_eq_some x.1 _ hasc' x.2).mpr (by
        rw [h1] at hx
        rw [h2]
        simp only [List.mem_append, List.mem_cons] at hx ⊢
        tauto)]

/-- C9, on an example: `insert(4, 44)` into `example_odd`, which does not store 4. -/
theorem insert_then_index_witness :
    ∃ t', insert 7 example_odd 4 44 = .ok t' ∧ operator_index 7 t' 4 = .ok 44 ∧
      ∀ x ∈ example_odd.entries, operator_index 7 example_odd x.1 = .ok x.2 ∧
        operator_index 7 t' x.1 = .ok x.2 :=
  insert_then_index 2 example_odd 4 44 7 (by decide) (by decide) (by decide)

/-- C10: on a map that satisfies the data-model invariants and for every key, stored or not,
`next_key` returns `true` and sets the output parameter to the smallest listed key strictly
greater than the key when there is one, and returns `false`, leaving the output parameter as
it was, when no listed key is greater. -/
theorem next_key_spec (h : Nat) (t : BTreeMap K V) (fuel : Nat) (hinv : t.Inv h)
    (hfuel : h ≤ fuel) (key out : K) (ks : List K) (hks : sorted_keys fuel t = .ok ks) :
    (∀ s ∈ ks, key < s → (∀ s' ∈ ks, key < s' → s ≤ s') →
      next_key fuel t key out = .ok (true, s)) ∧
    ((∀ s ∈ ks, ¬ key < s) → next_key fuel t key out = .ok (false, out)) := by
  rw [sorted_keys_eq h t fuel hinv.1 hfuel] at hks
  have hks' : t.entries.map Prod.fst = ks := Outcome.ok.inj hks
  subst hks'
  have heq := next_key_eq h t fuel hinv.1 hfuel key out
  constructor
  · intro s hs hgt hmin
    rw [heq, successor_some key _ (treeInv_ascending hinv.1) s hs hgt hmin]
  · intro hno
    rw [heq, successor_none key _ hno]

/-- C10, on an example: on the map built by inserting 1, 3, 5, 7, 9, `next_key(5)` returns
`(true, 7)` and `next_key(9)` returns `false`. -/
theorem next_key_spec_witness :
    run id 7 (inserts [1, 3, 5, 7, 9]) new = some example_odd ∧
    next_key 7 example_odd 5 0 = .ok (true, 7) ∧ next_key 7 example_odd 9 0 = .ok (false, 0) :=
  ⟨rfl,
    (next_key_spec 2 example_odd 7 (by decide) (by decide) 5 0 [1, 3, 5, 7, 9] rfl).1 7
      (by decide) (by decide) (by decide),
    (next_key_spec 2 example_odd 7 (by decide) (by decide) 9 0 [1, 3, 5, 7, 9] rfl).2
      (by decide)⟩

/-- C11: on a map that satisfies the data-model invariants and for every key, stored or not,
`prev_key` returns `true` and sets the output parameter to the largest listed key strictly
less than the key when there is one, and returns `false`, leaving the output parameter as it
was, when no listed key is less. -/
theorem prev_key_spec (h : Nat) (t : BTreeMap K V) (fuel : Nat) (hinv : t.Inv h)
    (hfuel : h ≤ fuel) (key out : K) (ks : List K) (hks : sorted_keys fuel t = .ok ks) :
    (∀ s ∈ ks, s < key → (∀ s' ∈ ks, s' < key → s' ≤ s) →
      prev_key fuel t key out = .ok (true, s)) ∧
    ((∀ s ∈ ks, ¬ s < key) → prev_key fuel t key out = .ok (false, out)) := by
  rw [sorted_keys_eq h t fuel hinv.1 hfuel] at hks
  have hks' : t.entries.map Prod.fst = ks := Outcome.ok.inj hks
  subst hks'
  have heq := prev_key_eq h t fuel hinv.1 hfuel key out
  constructor
  · intro s hs hlt hmax
    rw [heq, predecessor_some key _ (treeInv_ascending hinv.1) s hs hlt hmax]
  · intro hno
    rw [heq, predecessor_none key _ hno]

/-- C11, on an example: on the map built by inserting 1, 3, 5, 7, 9, `prev_key(1)` returns
`false` and `prev_key(6)` returns `(true, 5)`. -/
theorem prev_key_spec_witness :
    run id 7 (inserts [1, 3, 5, 7, 9]) new = some example_odd ∧
    prev_key 7 example_odd 1 0 = .ok (false, 0) ∧ prev_key 7 example_odd 6 0 = .ok (true, 5) :=
  ⟨rfl,
    (prev_key_spec 2 example_odd 7 (by decide) (by decide) 1 0 [1, 3, 5, 7, 9] rfl).2
      (by decide),
    (prev_key_spec 2 example_odd 7 (by decide) (by decide) 6 0 [1, 3, 5, 7, 9] rfl).1 5
      (by decide) (by decide) (by decide)⟩

/-- C12: on every map, well formed or not, and for every pair of keys, `find_keys(k1, k2)` does
what `sorted_keys()` does and returns its list filtered to the keys `k` with
`k1 <= k <= k2`, in the same order; on a map that satisfies the data-model invariants both
return, the result is strictly ascending, and it is empty when `k2 < k1`. -/
theorem find_keys_filters (fuel : Nat) (t : BTreeMap K V) (k1 k2 : K) :
    find_keys fuel t k1 k2
      = Outcome.map (List.filter fun k => decide (k1 ≤ k ∧ k ≤ k2)) (sorted_keys fuel t) ∧
    ∀ h, t.Inv h → h ≤ fuel →
      ∃ ks, sorted_keys fuel t = .ok ks ∧
        find_keys fuel t k1 k2 = .ok (ks.filter fun k => decide (k1 ≤ k ∧ k ≤ k2)) ∧
        (ks.filter fun k => decide (k1 ≤ k ∧ k ≤ k2)).Pairwise (· < ·) ∧
        (k2 < k1 → (ks.filter fun k => decide (k1 ≤ k ∧ k ≤ k2)) = []) := by
  have hfun : (fun k => decide (k1 ≤ k ∧ k ≤ k2)) = in_range k1 k2 := by
    funext k
    exact (in_range_iff k1 k2 k).symm
  have heq : find_keys fuel t k1 k2
      = Outcome.map (List.filter fun k => decide (k1 ≤ k ∧ k ≤ k2)) (sorted_keys fuel t) := by
    rw [hfun]
    obtain ⟨count, root⟩ := t
    cases root with
    | none => rfl
    | some r =>
      have := find_keys_node_eq k1 k2 fuel r []
      simpa [find_keys, sorted_keys] using this
  refine ⟨heq, ?_⟩
  intro h hinv hfuel
  have hks := sorted_keys_eq h t fuel hinv.1 hfuel
  refine ⟨_, hks, by rw [heq, hks]; rfl, ?_, ?_⟩
  · have hasc := treeInv_ascending hinv.1
    have : (t.entries.map Prod.fst).Pairwise (· < ·) := by
      rw [List.pairwise_map]
      exact hasc
    exact this.sublist (List.filter_sublist _)
  · intro hlt
    rw [List.filter_eq_nil_iff]
    intro k _
    simp only [decide_eq_true_eq, not_and, not_le]
    intro h1
    exact lt_of_lt_of_le hlt h1

/-- C12, on an example: on the map built by inserting 1, 3, 5, 7, 9, `find_keys(3, 7)` is
`[3, 5, 7]` and `find_keys(10, 20)` is empty. -/
theorem find_keys_filters_witness :
    run id 7 (inserts [1, 3, 5, 7, 9]) new = some example_odd ∧
    find_keys 7 example_odd 3 7 = .ok [3, 5, 7] ∧ find_keys 7 example_odd 10 20 = .ok [] ∧
    ∃ ks, sorted_keys 7 example_odd = .ok ks ∧
      find_keys 7 example_odd 7 3 = .ok (ks.filter fun k => decide (7 ≤ k ∧ k ≤ 3)) ∧
      (ks.filter fun k => decide (7 ≤ k ∧ k ≤ 3)).Pairwise (· < ·) ∧
      ((3 : Nat) < 7 → (ks.filter fun k => decide (7 ≤ k ∧ k ≤ 3)) = []) :=
  ⟨rfl, (find_keys_filters 7 example_odd 3 7).1, (find_keys_filters 7 example_odd 10 20).1,
    (find_keys_filters 7 example_odd 7 3).2 2 (by decide) (by decide)⟩

/-- C13 (the code breaks it): inserting 1, ..., 14 into the empty map gives `example_1_to_14`,
which satisfies the data-model invariants; `erase(5)` returns on it and leaves `size()` at 13,
but only 11 entries can be reached from the root, and `sorted_keys()` returns no list at all:
it reads a child that does not exist. -/
theorem erase_breaks_size :
    run id 9 (inserts [1, 2, 3, 4, 5, 6, 7, 8, 9, 10, 11, 12, 13, 14]) new
      = some example_1_to_14 ∧
    example_1_to_14.Inv 3 ∧
    erase id 9 example_1_to_14 5 = .ok example_erased_5 ∧
    example_erased_5.size = 13 ∧ example_erased_5.entries.length = 11 ∧
    (∀ fuel, sorted_keys (fuel + 3) example_erased_5 = .fault) ∧
    ∀ fuel ks, sorted_keys fuel example_erased_5 ≠ .ok ks := by
  refine ⟨rfl, by decide, rfl, rfl, rfl, fun fuel => rfl, ?_⟩
  intro fuel ks
  match fuel with
  | 0 => exact fun h => Outcome.noConfusion h
  | 1 => exact fun h => Outcome.noConfusion h
  | 2 => exact fun h => Outcome.noConfusion h
  | fuel + 3 => exact fun h => Outcome.noConfusion h

/-- C14 (counterexample): on the map `{3, 5}`, a single leaf, `insert(5, 55)` returns without
an error and leaves the entries `(3, 30), (5, 55), (5, 50)`: two entries with the key 5, the
old value not overwritten.  On the map `{5}` the call `insert(5, 55)` never returns. -/
theorem insert_stored_key_counterexample :
    run id 3 (inserts [3, 5]) new = some example_3_5 ∧
    insert 3 example_3_5 5 55 = .ok ⟨3, some (.mk [(3, 30), (5, 55), (5, 50)] [])⟩ ∧
    run id 3 (inserts [5]) new = some example_5 ∧
    ∀ fuel, insert fuel example_5 5 55 = .stuck := by
  refine ⟨rfl, rfl, rfl, ?_⟩
  have hloop : ∀ fuel (index : Int),
      insert_loop 5 55 fuel (Node.mk [((5 : Nat), (50 : Nat))] []) index = .stuck := by
    intro fuel
    induction fuel with
    | zero => intro index; rfl
    | succ fuel ih =>
      intro index
      rw [insert_loop]
      simp only [Node.keyvals_mk, insert_for, lt_irrefl, if_false, gt_iff_lt, Node.full,
        List.length_cons, List.length_nil]
      exact ih index
  intro fuel
  simp only [insert, example_5, Node.full, Node.keyvals_mk, List.length_cons, List.length_nil]
  simp [hloop fuel (-1)]

/-- C14 (amended): `insert` has no check for a stored key.  On a map that satisfies the
data-model invariants, a call with a key that is already stored never raises an error and
never overwrites: either it does not return, or it returns a map with `size()` one larger
whose entries are the former entries with `(key, value)` added, so that exactly two entries
have the key. -/
theorem insert_stored_key (h : Nat) (t : BTreeMap K V) (key : K) (value : V) (fuel : Nat)
    (hinv : t.Inv h) (hst : key ∈ t.entries.map Prod.fst) :
    insert fuel t key value = .stuck ∨
      ∃ t', insert fuel t key value = .ok t' ∧ t'.size = t.size + 1 ∧
        Added key value t.entries t'.entries ∧ (t'.entries.map Prod.fst).count key = 2 := by
  rcases insert_adds h t key value fuel hinv.1 with hr | ⟨t', hr, hc, hadd⟩
  · exact Or.inl hr
  · exact Or.inr ⟨t', hr, hc, hadd,
      count_key_added key value _ _ (treeInv_ascending hinv.1) hst hadd⟩

/-- C14 (amended), on an example: the map `{3, 5}` satisfies the invariants and stores 5, so
`insert(5, 55)` on it does not return or leaves two entries with the key 5. -/
theorem insert_stored_key_witness :
    example_3_5.Inv 1 ∧ 5 ∈ example_3_5.entries.map Prod.fst ∧
    (insert 3 example_3_5 5 55 = .stuck ∨
      ∃ t', insert 3 example_3_5 5 55 = .ok t' ∧ t'.size = example_3_5.size + 1 ∧
        Added 5 55 example_3_5.entries t'.entries ∧ (t'.entries.map Prod.fst).count 5 = 2) :=
  ⟨by decide, by decide, insert_stored_key 1 example_3_5 5 55 3 (by decide) (by decide)⟩

/-- C15 (the code breaks it): on the map built by inserting 1, 3, 5, 7, 9, `clear()` returns
and leaves `size()` at 0, but `root` is not reset, so `empty()` returns `false`. -/
theorem clear_not_empty :
    run id 7 (inserts [1, 3, 5, 7, 9]) new = some example_odd ∧
    clear 2 example_odd = .ok example_cleared ∧
    example_cleared.size = 0 ∧ example_cleared.empty = false :=
  ⟨rfl, rfl, rfl, rfl⟩

/-- C16 (the code breaks it): from the empty map, `insert(5, 50)` and then `clear()` reach a
state in which `size()` is 0 and `empty()` returns `false`. -/
theorem empty_differs_from_size :
    insert 1 new 5 50 = .ok example_5 ∧ clear 1 example_5 = .ok example_cleared ∧
    example_cleared.size = 0 ∧ example_cleared.empty = false :=
  ⟨rfl, rfl, rfl, rfl⟩

/-- C17: on a map that satisfies the data-model invariants with `h` levels, `height()`
returns `h`: 0 for the empty map, and for a map with a root the number of nodes on the path
from the root to any leaf, the root and the leaf included. -/
theorem height_spec (h : Nat) (t : BTreeMap K V) (fuel : Nat) (hinv : t.Inv h)
    (hfuel : h ≤ fuel) :
    height fuel t = .ok (h : Int) ∧ (t.root = none → h = 0) ∧
    ∀ r, t.root = some r → h ∈ r.leafDepths ∧ ∀ d ∈ r.leafDepths, d = h := by
  obtain ⟨count, root⟩ := t
  cases root with
  | none =>
    have h0 : h = 0 := hinv.1
    subst h0
    exact ⟨rfl, fun _ => rfl, fun r hr => by simp at hr⟩
  | some r =>
    have hwf : r.WF h := hinv.1
    rw [Node.wf_iff] at hwf
    refine ⟨height_node_eq h fuel r hwf.1 hfuel, fun hr => by simp at hr, ?_⟩
    intro r' hr'
    simp only [Option.some.injEq] at hr'
    subst hr'
    exact Node.leafDepths_of_shape h r hwf.1

/-- C17, on an example: the empty map has height 0, and after inserting 1, ..., 10 in
ascending order `height()` is 3. -/
theorem height_spec_witness :
    height 0 (new : BTreeMap Nat Nat) = .ok 0 ∧
    run id 7 (inserts [1, 2, 3, 4, 5, 6, 7, 8, 9, 10]) new = some example_1_to_10 ∧
    height 3 example_1_to_10 = .ok 3 :=
  ⟨(height_spec 0 new 0 (by decide) (by decide)).1, rfl,
    (height_spec 3 example_1_to_10 3 (by decide) (by decide)).1⟩

/-- C18: for maps whose roots do not dangle (neither is in the state `clear()` leaves), copy
assignment to a map from another map `rhs`, and copy construction from `rhs`, return with a
map equal to `rhs` (the same entries and the same children in the same order at every node,
and the same `count`), and `rhs` is as before; self-assignment changes nothing. -/
theorem copy_is_identical (fuel : Nat) (this rhs : BTreeMap K V) (hthis : this.depth ≤ fuel)
    (hrhs : rhs.depth ≤ fuel) (hlive : this.dangling = false) (hrlive : rhs.dangling = false) :
    copy_assign fuel this rhs false = .ok (rhs, rhs) ∧
    copy_construct fuel rhs = .ok (rhs, rhs) ∧
    copy_assign fuel rhs rhs true = .ok (rhs, rhs) := by
  have hcopy : copy fuel rhs.root = .ok rhs.root := by
    obtain ⟨count, root⟩ := rhs
    cases root with
    | none => rfl
    | some r => simp [copy, copy_node_eq fuel r hrhs]
  have hclear : ∀ t : BTreeMap K V, t.depth ≤ fuel → ∃ t', clear fuel t = .ok t' := by
    intro t ht
    obtain ⟨count, root⟩ := t
    cases root with
    | none => exact ⟨_, rfl⟩
    | some r => exact ⟨⟨0, some (.mk [] [])⟩, by simp [clear, clear_node_eq fuel r ht]⟩
  obtain ⟨t1, h1⟩ := hclear this hthis
  obtain ⟨t2, h2⟩ := hclear new (by simp [depth, new])
  have hnew : (new : BTreeMap K V).dangling = false := rfl
  refine ⟨?_, ?_, ?_⟩
  · simp [copy_assign, hlive, hrlive, h1, hcopy]
  · simp [copy_construct, copy_assign, hnew, hrlive, h2, hcopy]
  · simp [copy_assign]

/-- C18, on an example: copy assignment from the map built by inserting 1, 3, 5, 7, 9 to the
map built by inserting 1, ..., 6 gives the former; neither root dangles.  The root of
`example_cleared` does, and copy assignment to it or from it faults. -/
theorem copy_is_identical_witness :
    example_1_to_6.dangling = false ∧ example_odd.dangling = false ∧
    (copy_assign 2 example_1_to_6 example_odd false = .ok (example_odd, example_odd) ∧
      copy_construct 2 example_odd = .ok (example_odd, example_odd) ∧
      copy_assign 2 example_odd example_odd true = .ok (example_odd, example_odd)) ∧
    example_cleared.dangling = true ∧
    copy_assign 2 example_cleared example_odd false = .fault ∧
    copy_assign 2 example_odd example_cleared false = .fault :=
  ⟨rfl, rfl, copy_is_identical 2 example_1_to_6 example_odd (by decide) (by decide) rfl rfl,
    rfl, rfl, rfl⟩

/-- C19: Scenario C.  Inserting 1, ..., 20 in ascending order into the empty map gives
`example_1_to_20`; erasing 20, 19, ..., 1 from it in that order, every call of `erase`
returns, after each of them all leaves are at the same depth and `size()` is one less than
before the call, and at the end the root is absent and `size()` is 0. -/
theorem scenario_C :
    run id 9 (inserts [1, 2, 3, 4, 5, 6, 7, 8, 9, 10, 11, 12, 13, 14, 15, 16, 17, 18, 19, 20])
      new = some example_1_to_20 ∧
    Drains id 9 [20, 19, 18, 17, 16, 15, 14, 13, 12, 11, 10, 9, 8, 7, 6, 5, 4, 3, 2, 1]
      example_1_to_20 :=
  ⟨rfl, by decide!⟩

/-- C20 (the code breaks it): the map after inserting 1, 2, 3, 4 satisfies the data-model
invariants and `operator[](2)` returns 20 on it; `erase(1)` returns, and afterwards
`operator[](2)` returns 2: the separator that `rebalance` moves down into the child has lost
its value, which was overwritten with the key. -/
theorem erase_overwrites_value :
    run id 5 (inserts [1, 2, 3, 4]) new = some example_1_to_4 ∧
    example_1_to_4.Inv 2 ∧
    operator_index 5 example_1_to_4 2 = .ok 20 ∧
    erase id 5 example_1_to_4 1 = .ok example_erased_1 ∧
    operator_index 5 example_erased_1 2 = .ok 2 :=
  ⟨rfl, by decide, rfl, rfl, rfl⟩

/-- C21 (the code breaks it): the root of `example_1_to_6`, a map that satisfies the
data-model invariants, is `example_node`; the helper `erase(example_node, 3)` is in case 3 for
the middle child, and at the moment of its recursive call the node is
`example_node_rebalanced`, whose child 1, the one the call is made on, still has one entry:
`rebalance` has put the separator into child 0. -/
theorem erase_recurses_into_minimal_child :
    run id 7 (inserts [1, 2, 3, 4, 5, 6]) new = some example_1_to_6 ∧
    example_1_to_6.Inv 2 ∧ example_1_to_6.root = some example_node ∧
    (∀ fuel, erase_node id (fuel + 1) example_node 3
      = erase_descend id (erase_node id fuel) example_node 1 1 3) ∧
    descend_state id example_node 1 1 = some (example_node_rebalanced, 1) ∧
    (∀ e, erase_descend id e example_node 1 1 3 = erase_child e example_node_rebalanced 1 3) ∧
    example_node_rebalanced.child 1 = some (.mk [(3, 30)] []) :=
  ⟨rfl, by decide, rfl, fun _ => rfl, rfl,
    fun e => by rw [erase_descend_eq]; rfl, rfl⟩

/-- C22 (the code breaks it): `example_shuffled` is built by inserts, satisfies the data-model
invariants and stores the key 10; `erase(10)` raises on it, and the map the exception leaves
is `example_raised`, not the map before the call: `sorted_keys()` was `[1, ..., 10]` and is
`[1, 2, 3, 4, 8, 9, 10, 7, 5, 6]`, and the entry `(7, 70)` has become `(7, 7)`; `size()` is
unchanged. -/
theorem erase_raises_after_change :
    run id 7 (inserts [10, 2, 9, 1, 7, 8, 4, 3, 5, 6]) new = some example_shuffled ∧
    example_shuffled.Inv 3 ∧
    contains 7 example_shuffled 10 = .ok true ∧
    sorted_keys 7 example_shuffled = .ok [1, 2, 3, 4, 5, 6, 7, 8, 9, 10] ∧
    erase id 7 example_shuffled 10 = .raised example_raised ∧
    example_raised.root ≠ example_shuffled.root ∧
    sorted_keys 7 example_raised = .ok [1, 2, 3, 4, 8, 9, 10, 7, 5, 6] ∧
    (7, 70) ∈ example_shuffled.entries ∧ (7, 7) ∈ example_raised.entries ∧
    example_raised.size = example_shuffled.size := by
  refine ⟨rfl, by decide, rfl, rfl, rfl, ?_, rfl, by decide, by decide, rfl⟩
  intro h
  have h2 := congrArg (fun r => r.map fun n => n.keyvals) h
  simp [example_raised, example_shuffled] at h2

/-- C23: `split(parent, i)` on a parent whose child `i` has exactly 3 entries (and 4 children
when it is internal) returns; afterwards the former middle entry of the child is entry `i` of
the parent, child `i` keeps its former entry 0 and its former children 0 and 1, a new node
with the former entry 2 and the former children 2 and 3 is child `i + 1`, the other entries
and children of the parent keep their order, and the entries of the subtree of the parent in
traversal order are as before. -/
theorem split_spec (kvs : List (K × V)) (cs : List (Node K V)) (i : Nat) (a b d : K × V)
    (gcs : List (Node K V)) (har : cs.length = kvs.length + 1)
    (hc : cs[i]? = some (.mk [a, b, d] gcs))
    (hg : gcs = [] ∨ ∃ g0 g1 g2 g3, gcs = [g0, g1, g2, g3]) :
    ∃ p, split (.mk kvs cs) i = some p ∧
      p.keyvals = kvs.take i ++ b :: kvs.drop i ∧
      p.children = cs.take i ++ .mk [a] (gcs.take 2) :: .mk [d] (gcs.drop 2) ::
        cs.drop (i + 1) ∧
      p.entries = (Node.mk kvs cs).entries := by
  have hlt : i < cs.length := (List.getElem?_eq_some_iff.mp hc).1
  have hi : i ≤ kvs.length := by omega
  refine ⟨_, split_eq kvs cs i a b d gcs hc hg hi, rfl, rfl, ?_⟩
  obtain ⟨c, A, B, hc', he, -, hsplit⟩ := Node.locate_at (Node.mk kvs cs) i har hi
  have hcc : c = .mk [a, b, d] gcs := by
    have : (Node.mk kvs cs).child i = some (.mk [a, b, d] gcs) := hc
    rw [hc'] at this
    exact Option.some.inj this
  subst hcc
  have := hsplit (.mk [a] (gcs.take 2)) (.mk [d] (gcs.drop 2)) b
  simp only [Node.keyvals_mk, Node.children_mk] at this
  rw [this, split_halves_entries a b d gcs hg, he]

/-- C23, on an example: the split of the full leaf `[3, 4, 5]`, child 1 of a node with the
entry 2. -/
theorem split_spec_witness :
    split (.mk [(2, 20)] [.mk [(1, 10)] [], .mk [(3, 30), (4, 40), (5, 50)] []]) 1
      = some (.mk [(2, 20), (4, 40)] [.mk [(1, 10)] [], .mk [(3, 30)] [], .mk [(5, 50)] []]) ∧
    ∃ p : Node Nat Nat,
      split (.mk [(2, 20)] [.mk [(1, 10)] [], .mk [(3, 30), (4, 40), (5, 50)] []]) 1 = some p ∧
      p.keyvals = [(2, 20)].take 1 ++ (4, 40) :: [(2, 20)].drop 1 ∧
      p.children = [Node.mk [(1, 10)] [], .mk [(3, 30), (4, 40), (5, 50)] []].take 1 ++
        .mk [(3, 30)] (([] : List (Node Nat Nat)).take 2) ::
        .mk [(5, 50)] (([] : List (Node Nat Nat)).drop 2) ::
        [Node.mk [(1, 10)] [], .mk [(3, 30), (4, 40), (5, 50)] []].drop (1 + 1) ∧
      p.entries
        = (Node.mk [(2, 20)] [.mk [(1, 10)] [], .mk [(3, 30), (4, 40), (5, 50)] []]).entries :=
  ⟨rfl, split_spec [(2, 20)] [.mk [(1, 10)] [], .mk [(3, 30), (4, 40), (5, 50)] []] 1
    (3, 30) (4, 40) (5, 50) [] rfl rfl (Or.inl rfl)⟩

/-- C24 (counterexample): in `example_pair`, a node with one entry over two leaves of one
entry each, `rebalance` for the leftmost child and `rebalance` for the rightmost child both
merge the two leaves and the separator into one node with 3 entries, not 2. -/
theorem rebalance_merge_counterexample :
    rebalance id example_pair 0 0 = some (.mk [] [.mk [(1, 10), (2, 2), (3, 30)] []], 0) ∧
    rebalance id example_pair 0 1 = some (.mk [] [.mk [(1, 10), (2, 2), (3, 30)] []], 0) :=
  ⟨rfl, rfl⟩

/-- C24 (amended): on a node that satisfies the shape invariants, when the child
`child_idx` and the neighbours `rebalance` looks at have one entry each (case 3b, for the
leftmost, the rightmost and a middle child), `rebalance` returns.  With `sep` the separator,
the entry of the node at `key_idx`, and `left` and `right` the children on its two sides, the
merged child holds exactly 3 entries: the entry of `left`, the key of `sep` with the value
`rebalance` gives it (the key converted to a value, not the value of `sep`), and the entry of
`right`, in this order; its children are those of `left` followed by those of `right`,
exactly 4 when it is internal.  The node has lost `sep` and has the merged child in place of
`left` and `right`. -/
theorem rebalance_merge (toV : K → V) (h : Nat) (st_root : Node K V)
    (hs : st_root.Shape (h + 2)) (child_idx : Nat) (hci : child_idx ≤ st_root.keyvals.length)
    (hone : ∀ j c, st_root.child j = some c →
      (j = child_idx ∨ j + 1 = child_idx ∨ j = child_idx + 1) → c.keyvals.length = 1) :
    ∃ left right sep st' merged,
      st_root.child (key_idx_of st_root.keyvals.length child_idx) = some left ∧
      st_root.child (key_idx_of st_root.keyvals.length child_idx + 1) = some right ∧
      st_root.keyvals[key_idx_of st_root.keyvals.length child_idx]? = some sep ∧
      merged = .mk (left.keyvals ++ (sep.1, toV sep.1) :: right.keyvals)
        (left.children ++ right.children) ∧
      st' = .mk (st_root.keyvals.eraseIdx (key_idx_of st_root.keyvals.length child_idx))
        ((st_root.children.eraseIdx (key_idx_of st_root.keyvals.length child_idx + 1)).set
          (key_idx_of st_root.keyvals.length child_idx) merged) ∧
      rebalance toV st_root (key_idx_of st_root.keyvals.length child_idx) child_idx
        = some (st', key_idx_of st_root.keyvals.length child_idx) ∧
      st'.child (key_idx_of st_root.keyvals.length child_idx) = some merged ∧
      merged.keyvals.length = 3 ∧
      merged.children.length = (if h = 0 then 0 else 4) ∧
      st'.keyvals.length + 1 = st_root.keyvals.length ∧
      st'.children.length + 1 = st_root.children.length := by
  have h1 : 1 ≤ st_root.keyvals.length := hs.1
  have h2 : st_root.keyvals.length ≤ 3 := hs.2.1
  have hm : st_root.keyvals.length = 1 ∨ st_root.keyvals.length = 2 ∨
      st_root.keyvals.length = 3 := by omega
  rcases hm with hm | hm | hm
  · exact rebalance_merge_one toV h st_root hs hm child_idx (by omega) hone
  · exact rebalance_merge_two toV h st_root hs hm child_idx (by omega) hone
  · exact rebalance_merge_three toV h st_root hs hm child_idx (by omega) hone

/-- C24 (amended), on an example: the merge for the leftmost child of `example_pair`, the
node `[(2, 20)]` over the leaves `[(1, 10)]` and `[(3, 30)]`: the merged child is
`[(1, 10), (2, 2), (3, 30)]`. -/
theorem rebalance_merge_witness :
    example_pair.Shape 2 ∧
    ∃ (left right : Node Nat Nat) (sep : Nat × Nat) (st' merged : Node Nat Nat),
      example_pair.child (key_idx_of example_pair.keyvals.length 0) = some left ∧
      example_pair.child (key_idx_of example_pair.keyvals.length 0 + 1) = some right ∧
      example_pair.keyvals[key_idx_of example_pair.keyvals.length 0]? = some sep ∧
      merged = .mk (left.keyvals ++ (sep.1, id sep.1) :: right.keyvals)
        (left.children ++ right.children) ∧
      st' = .mk (example_pair.keyvals.eraseIdx (key_idx_of example_pair.keyvals.length 0))
        ((example_pair.children.eraseIdx (key_idx_of example_pair.keyvals.length 0 + 1)).set
          (key_idx_of example_pair.keyvals.length 0) merged) ∧
      rebalance id example_pair (key_idx_of example_pair.keyvals.length 0) 0
        = some (st', key_idx_of example_pair.keyvals.length 0) ∧
      st'.child (key_idx_of example_pair.keyvals.length 0) = some merged ∧
      merged.keyvals.length = 3 ∧
      merged.children.length = (if 0 = 0 then 0 else 4) ∧
      st'.keyvals.length + 1 = example_pair.keyvals.length ∧
      st'.children.length + 1 = example_pair.children.length :=
  ⟨((Node.wf_iff 2 example_pair).mp (by decide)).1,
    rebalance_merge id 0 example_pair ((Node.wf_iff 2 example_pair).mp (by decide)).1 0
      (by decide)
      (fun j c hc _ => by
        match j, hc with
        | 0, hc => cases hc; rfl
        | 1, hc => cases hc; rfl
        | j + 2, hc => cases hc)⟩

/-- C25: on a map with a root that satisfies the data-model invariants with `h` levels,
`height()` returns `h` and `size()` is at least `2 ^ h - 1` and at most `4 ^ h - 1`. -/
theorem size_bounds (h : Nat) (t : BTreeMap K V) (fuel : Nat) (hinv : t.Inv h)
    (hfuel : h ≤ fuel) (hne : t.empty = false) :
    height fuel t = .ok (h : Int) ∧ (2 : Int) ^ h - 1 ≤ t.size ∧ t.size ≤ (4 : Int) ^ h - 1 := by
  obtain ⟨count, root⟩ := t
  cases root with
  | none => simp [empty] at hne
  | some r =>
    have hwf : r.WF h := hinv.1
    rw [Node.wf_iff] at hwf
    have hcount : count = (r.entries.length : Int) := hinv.2
    obtain ⟨hlo, hhi⟩ := Node.card_bounds h r hwf.1
    refine ⟨height_node_eq h fuel r hwf.1 hfuel, ?_, ?_⟩
    · simp only [size, hcount]
      have : ((2 ^ h : Nat) : Int) ≤ ((r.entries.length + 1 : Nat) : Int) := by exact_mod_cast hlo
      push_cast at this
      omega
    · simp only [size, hcount]
      have : ((r.entries.length + 1 : Nat) : Int) ≤ ((4 ^ h : Nat) : Int) := by exact_mod_cast hhi
      push_cast at this
      omega

/-- C25, on an example: after inserting 1, ..., 10 the height is 3 and the size 10 is between
`2 ^ 3 - 1` and `4 ^ 3 - 1`. -/
theorem size_bounds_witness :
    height 3 example_1_to_10 = .ok 3 ∧ (2 : Int) ^ 3 - 1 ≤ example_1_to_10.size ∧
    example_1_to_10.size ≤ (4 : Int) ^ 3 - 1 :=
  size_bounds 3 example_1_to_10 3 (by decide) (by decide) rfl

end BTreeMap
